import Mathlib

/-!
# Vc fixed_size ABI: shape selection, run counting, tree reduction, compares, masks

A shallow embedding of `Vc/detail/fixed_size.h` (the `fixed_size` ABI of the
Vc data-parallel types), of the helpers of `Vc/detail/where.h`, of the masked store,
the specialisations of the masked compound assignment, the converting overloads and the
mask functions of `Vc/detail/avx512.h`, and of the selection of the implementation in
`Vc/detail/compiler_detection.h`, together with theorems about them.

* Template metafunctions (`select_best_vector_type`, `fixed_size_storage_builder`,
  `n_abis_in_tuple`, `tree_reduction`) become functions on the template arguments.
  A template recursion is given fuel (the instantiation depth); `none` stands for
  a failed compilation (hard error or exhausted instantiation depth).
* `int` template arguments are `Int`, `size_t` values are `Nat`; the conversions
  between them are explicit (`to_size_t`, `to_int`).
* A `datapar_tuple<T, As...>` value is the list of its chunks, each chunk being
  its ABI tag and the list of its lanes.
* `std::bitset<N>` is a `Nat` below `2 ^ N`.
* A memory buffer is the list of its elements; a function that writes to a buffer or
  to a reference argument returns the new value, and an access outside a buffer is
  `none`. An expression whose behaviour C++ leaves undefined is `none` as well; the one
  exception is the shift of `unsigned long long` by the template constant 64, which has
  the value that the compiler folds it to (see `ullong_shl`).
* Where a kernel of `avx512.h` works on the bits of a register, a lane or an element of a
  buffer is its object representation, a number below `2 ^ (8 * sizeof(T))`, and a call
  that the compiler rejects has the outcome `ill_formed`.
* The preprocessor logic is a function from the macros that are defined before it to
  the macros that are defined after it and the `#error` directives that are reached.
-/

namespace Vc

/-! ## ABI tags and the native-width registry -/

/-- The ABI tags of `datapar_abi` that `select_best_vector_type_t` ranges over. -/
inductive Abi
  | avx512
  | avx
  | neon
  | sse
  | scalar
  deriving DecidableEq, Repr

/-- For one element type `T`: `reg A = some w` when `datapar<T, A>` is a usable
(destructible) type with `datapar_size<T, A>::value = w`, and `none` when it is not.
The table itself lives outside `fixed_size.h`, so it is a parameter. -/
abbrev Registry := Abi → Option Nat

/-- The value of `struct dummy : size_constant<~size_t()>`. -/
def dummy_value : Nat := 2 ^ 64 - 1

/-- Conversion of an `int` to `size_t` (the usual arithmetic conversion applied to
`N` in `N >= V::value`). -/
def to_size_t (n : Int) : Nat := (n % 2 ^ 64).toNat

/-- Conversion `int(Next::size())` of a `size_t` to `int` (two's complement wrap). -/
def to_int (n : Nat) : Int := ((n : Int) + 2 ^ 31) % 2 ^ 32 - 2 ^ 31

/-- The member `V::value` of `select_best_vector_type<T, N, A, More...>`:
`datapar_size<T, A>` when `datapar<T, A>` is destructible, otherwise `dummy`. -/
def V_value (reg : Registry) (A : Abi) : Nat :=
  match reg A with
  | some w => w
  | none => dummy_value

/-- The metafunction `select_best_vector_type<T, N, A, More...>::type`; the
one-element specialisation returns `A` unconditionally. -/
def select_best_vector_type (reg : Registry) (N : Int) : Abi → List Abi → Abi
  | A, [] => A
  | A, B :: More =>
    if to_size_t N ≥ V_value reg A then A else select_best_vector_type reg N B More

/-- The alias `select_best_vector_type_t<T, N>` with its fixed priority list. -/
def select_best_vector_type_t (reg : Registry) (N : Int) : Abi :=
  select_best_vector_type reg N Abi.avx512 [Abi.avx, Abi.neon, Abi.sse, Abi.scalar]

/-- The metafunction `fixed_size_storage_builder<T, N, datapar_tuple<T, As...>>::type`.
`Next` and `Remain` are the defaulted template arguments; `Next::size()` does not
compile when `datapar<T, Next>` is not a usable type. -/
def fixed_size_storage_builder (reg : Registry) : Nat → Int → List Abi → Option (List Abi)
  | 0, _, _ => none
  | fuel + 1, N, As =>
    let Next := select_best_vector_type_t reg N
    match reg Next with
    | none => none
    | some w =>
      let Remain := N - to_int w
      if Remain = 0 then some (As ++ [Next])
      else fixed_size_storage_builder reg fuel Remain (As ++ [Next])

/-- The alias `fixed_size_storage<T, N>`. -/
def fixed_size_storage (reg : Registry) (fuel : Nat) (N : Int) : Option (List Abi) :=
  fixed_size_storage_builder reg fuel N []

/-- One instantiated specialisation of `fixed_size_storage_builder`: its template
arguments `N`, `Next` and `Remain`. -/
structure BuilderStep where
  N : Int
  Next : Abi
  Remain : Int
  deriving DecidableEq, Repr

/-- The chain of specialisations of `fixed_size_storage_builder` that
`fixed_size_storage<T, N>` instantiates, outermost first. Same recursion as
`fixed_size_storage_builder`, recording the template arguments instead of the tuple. -/
def builder_steps (reg : Registry) : Nat → Int → Option (List BuilderStep)
  | 0, _ => none
  | fuel + 1, N =>
    let Next := select_best_vector_type_t reg N
    match reg Next with
    | none => none
    | some w =>
      let Remain := N - to_int w
      if Remain = 0 then some [⟨N, Next, Remain⟩]
      else (builder_steps reg fuel Remain).map (fun rest => ⟨N, Next, Remain⟩ :: rest)

/-- Lane count `datapar<T, A>::size()` of a chunk, `0` for an unusable ABI. -/
def lanes (reg : Registry) (A : Abi) : Nat := (reg A).getD 0

/-- Modelled from the spec: the per-chunk offset bookkeeping of `datapar_tuple`
(declared outside `fixed_size.h`): the first chunk starts at the given offset and
each chunk starts where the previous one ends. -/
def chunk_offsets (reg : Registry) : Nat → List Abi → List Nat
  | _, [] => []
  | off, A :: As => off :: chunk_offsets reg (off + lanes reg A) As

/-- Total lane count of a tuple of ABI tags. -/
def total_lanes (reg : Registry) (As : List Abi) : Nat := (As.map (lanes reg)).sum

/-- A registry in which the `scalar` ABI has one lane and every usable ABI has a
positive lane count. -/
def Registry.ok (reg : Registry) : Prop :=
  reg Abi.scalar = some 1 ∧ ∀ A w, reg A = some w → 1 ≤ w

/-- The registry of `float` on x86 with SSE and optionally AVX (no AVX-512, no NEON). -/
def float_registry (have_avx : Bool) : Registry
  | Abi.avx512 => none
  | Abi.avx => if have_avx then some 8 else none
  | Abi.neon => none
  | Abi.sse => some 4
  | Abi.scalar => some 1

/-! ## Specification-level notions for the selector -/


/-- The priority order of `select_best_vector_type_t`. -/
def priority_order : List Abi := [Abi.avx512, Abi.avx, Abi.neon, Abi.sse, Abi.scalar]

/-- Position of an ABI in `priority_order`. -/
def priority_index (A : Abi) : Nat := priority_order.indexOf A

/-- A tier fits `R` remaining lanes: it is available for `T` and its lane count is `≤ R`. -/
def fits (reg : Registry) (R : Int) (A : Abi) : Bool :=
  match reg A with
  | some w => decide ((w : Int) ≤ R)
  | none => false

/-- The selection as the specification words it: the first ABI in the priority order
that is available and whose lane count is `≤ R`, `scalar` when none fits. -/
def spec_first_fit (reg : Registry) (R : Int) : Abi :=
  (priority_order.find? (fits reg R)).getD Abi.scalar

/-- The shape of `fixed_size_storage<float, N>` as the specification states it:
with AVX, `N / 8` avx chunks, then `(N mod 8) / 4` sse chunks, then `N mod 4` scalar
chunks; without AVX, `N / 4` sse chunks, then `N mod 4` scalar chunks. -/
def spec_float_storage (have_avx : Bool) (N : Nat) : List Abi :=
  if have_avx then
    List.replicate (N / 8) Abi.avx ++ List.replicate (N % 8 / 4) Abi.sse ++
      List.replicate (N % 4) Abi.scalar
  else List.replicate (N / 4) Abi.sse ++ List.replicate (N % 4) Abi.scalar

/-! ## `n_abis_in_tuple` -/

/-- A non-empty `std::index_sequence<I0, Is...>`, the only form `seq_op` is
specialised for. -/
structure IndexSeq where
  I0 : Nat
  Is : List Nat
  deriving DecidableEq, Repr

/-- The elements of an index sequence in order. -/
def IndexSeq.toList (s : IndexSeq) : List Nat := s.I0 :: s.Is

/-- The alias `seq_op<index_sequence<I0, Is...>>::first_plus_one`. -/
def seq_op.first_plus_one (s : IndexSeq) : IndexSeq := ⟨s.I0 + 1, s.Is⟩

/-- The alias `seq_op<index_sequence<I0, Is...>>::notfirst_plus_one`. -/
def seq_op.notfirst_plus_one (s : IndexSeq) : IndexSeq := ⟨s.I0, s.Is.map (fun i => i + 1)⟩

/-- The alias `seq_op<index_sequence<I0, Is...>>::prepend<First, Add>`. -/
def seq_op.prepend (First Add : Nat) (s : IndexSeq) : IndexSeq :=
  ⟨First, (s.I0 + Add) :: s.Is.map (fun i => i + Add)⟩

/-- The member `n_abis_in_tuple<datapar_tuple<T, As...>>::counts`. The specialisation
for `<T, A0, A0, As...>` is the more specialised one and wins when the first two tags
are equal. -/
def n_abis_in_tuple_counts : List Abi → IndexSeq
  | [] => ⟨0, []⟩
  | [_] => ⟨1, []⟩
  | A0 :: A1 :: As =>
    if A0 = A1 then seq_op.first_plus_one (n_abis_in_tuple_counts (A1 :: As))
    else seq_op.prepend 1 0 (n_abis_in_tuple_counts (A1 :: As))

/-- The member `n_abis_in_tuple<datapar_tuple<T, As...>>::begins`. -/
def n_abis_in_tuple_begins : List Abi → IndexSeq
  | [] => ⟨0, []⟩
  | [_] => ⟨0, []⟩
  | A0 :: A1 :: As =>
    if A0 = A1 then seq_op.notfirst_plus_one (n_abis_in_tuple_begins (A1 :: As))
    else seq_op.prepend 0 1 (n_abis_in_tuple_begins (A1 :: As))

/-! ## `tree_reduction` -/

/-- Doubling search used by `next_power_of_2`: the first of `p, 2p, 4p, ...` that is
`≥ x`, within `fuel` doublings. -/
def next_power_of_2_from (x : Nat) : Nat → Nat → Nat
  | 0, p => p
  | fuel + 1, p => if x ≤ p then p else next_power_of_2_from x fuel (2 * p)

/-- Modelled from the spec: `next_power_of_2` (declared outside the given sources) is
the least power of two that is `≥ x`; a power of two is returned unchanged, as the
alignment guarantee in the header comment of `fixed_size.h` requires. -/
def next_power_of_2 (x : Nat) : Nat := next_power_of_2_from x x 1

/-- The call operator of `tree_reduction<Count, Begin>` on a tuple whose elements
`Begin .. Begin + Count - 1` have one common type: the specialisations for `Count = 1`
and `Count = 2`, and the primary template, whose `static_assert(Count > 0)` fails for
`Count = 0`. `detail::get<I>(tup)` does not compile for `I` outside the tuple. The fuel
is the template instantiation depth. -/
def tree_reduction {α : Type} (binary_op : α → α → α) (tup : List α) :
    Nat → Nat → Nat → Option α
  | 0, _, _ => none
  | fuel + 1, Count, Begin =>
    if Count = 0 then none
    else if Count = 1 then tup[Begin]?
    else if Count = 2 then
      match tup[Begin]?, tup[Begin + 1]? with
      | some a, some b => some (binary_op a b)
      | _, _ => none
    else
      let left := next_power_of_2 Count / 2
      let right := Count - left
      match tree_reduction binary_op tup fuel left Begin,
        tree_reduction binary_op tup fuel right (Begin + left) with
      | some a, some b => some (binary_op a b)
      | _, _ => none

/-- The application structure of a reduction: a binary tree whose leaves are tuple
elements and whose inner nodes are calls of `binary_op`. -/
inductive OpTree (α : Type)
  | leaf : α → OpTree α
  | node : OpTree α → OpTree α → OpTree α

/-- The leaves of an application tree from left to right. -/
def OpTree.leaves {α : Type} : OpTree α → List α
  | OpTree.leaf a => [a]
  | OpTree.node l r => l.leaves ++ r.leaves

/-- The value of an application tree under a concrete `binary_op`. -/
def OpTree.eval {α : Type} (binary_op : α → α → α) : OpTree α → α
  | OpTree.leaf a => a
  | OpTree.node l r => binary_op (OpTree.eval binary_op l) (OpTree.eval binary_op r)

/-- Left-to-right fold of `binary_op` over a non-empty list, `none` for the empty list. -/
def fold_left1 {α : Type} (binary_op : α → α → α) : List α → Option α
  | [] => none
  | x :: xs => some (xs.foldl binary_op x)

/-! ## `fixed_size_datapar_impl::reduce` -/

/-- Modelled from the spec: the elementwise operation of a native chunk type (a per-ISA
kernel outside `fixed_size.h`): `binary_op` applied to two `datapar<T, A>` objects
combines them lane by lane. A native chunk is the list of its lanes. -/
def lanewise {α : Type} (binary_op : α → α → α) (a b : List α) : List α :=
  List.zipWith binary_op a b

/-- The pack expansion that builds `scalars` in the private overload of
`fixed_size_datapar_impl::reduce`: for each pair `(Counts, Begins)` the chunks
`Begins .. Begins + Counts - 1` are combined by `tree_reduction` (with `binary_op`
acting on whole chunks) and the combined chunk is reduced by the native `Vc::reduce`,
here the parameter `native_reduce`. Packs of different lengths do not compile. A
`datapar<T, scalar>` is represented by its single lane. -/
def reduce_scalars {α : Type} (native_reduce : List α → (α → α → α) → α)
    (tup : List (List α)) (binary_op : α → α → α) (fuel : Nat) :
    List Nat → List Nat → Option (List α)
  | [], [] => some []
  | Count :: Counts, Begin :: Begins =>
    match tree_reduction (lanewise binary_op) tup fuel Count Begin,
      reduce_scalars native_reduce tup binary_op fuel Counts Begins with
    | some v, some rest => some (native_reduce v binary_op :: rest)
    | _, _ => none
  | _, _ => none

/-- The private overload `fixed_size_datapar_impl::reduce(tup, binary_op,
index_sequence<Counts...>, index_sequence<Begins...>)`. -/
def reduce_tuple {α : Type} (native_reduce : List α → (α → α → α) → α)
    (tup : List (List α)) (binary_op : α → α → α) (fuel : Nat)
    (Counts Begins : List Nat) : Option α :=
  match reduce_scalars native_reduce tup binary_op fuel Counts Begins with
  | none => none
  | some scalars => tree_reduction binary_op scalars fuel scalars.length 0

/-- The public `fixed_size_datapar_impl<N>::reduce(size_tag, x, binary_op)`; `As` is the
tuple type `datapar_member_type<T>` of `x.d` and `x` the list of its chunks. -/
def reduce {α : Type} (native_reduce : List α → (α → α → α) → α) (As : List Abi)
    (x : List (List α)) (binary_op : α → α → α) (fuel : Nat) : Option α :=
  reduce_tuple native_reduce x binary_op fuel (n_abis_in_tuple_counts As).toList
    (n_abis_in_tuple_begins As).toList

/-- The chunks of a composite grouped into the maximal runs of adjacent chunks with the
same ABI tag. -/
def chunk_runs {α : Type} (As : List Abi) (x : List (List α)) : List (List (List α)) :=
  ((As.zip x).splitBy (fun p q => p.1 == q.1)).map (List.map Prod.snd)

/-- Reduction by runs: each run of chunks is combined lane-wise by `tree_reduction`, the
combined chunk is reduced natively to one scalar, and the per-run scalars are combined
by `tree_reduction`. -/
def spec_reduce_runs {α : Type} (native_reduce : List α → (α → α → α) → α)
    (binary_op : α → α → α) (fuel : Nat) (runs : List (List (List α))) : Option α :=
  match runs.mapM (fun run =>
      (tree_reduction (lanewise binary_op) run fuel run.length 0).map
        (fun v => native_reduce v binary_op)) with
  | none => none
  | some scalars => tree_reduction binary_op scalars fuel scalars.length 0

/-- Reduction by chunks as the specification states it: every chunk is reduced natively
to one scalar and the per-chunk scalars are combined by `tree_reduction`. -/
def spec_reduce_chunks {α : Type} (native_reduce : List α → (α → α → α) → α)
    (binary_op : α → α → α) (fuel : Nat) (x : List (List α)) : Option α :=
  tree_reduction binary_op (x.map (fun chunk => native_reduce chunk binary_op)) fuel x.length 0

/-- A native reduction computing the left-to-right fold over the lanes of a chunk. -/
def fold_reduce {α : Type} [Inhabited α] (chunk : List α) (binary_op : α → α → α) : α :=
  match chunk with
  | [] => default
  | x :: xs => xs.foldl binary_op x

/-- Chunk values fit the tuple type: one chunk per tag, with that tag's lane count. -/
def well_shaped {α : Type} (reg : Registry) (As : List Abi) (x : List (List α)) : Prop :=
  x.map List.length = As.map (lanes reg)

/-- The elements `get(x, 0), ..., get(x, N-1)` of a composite: lane `j` of chunk `i` is
element `offset_i + j`. -/
def all_lanes {α : Type} (x : List (List α)) : List α := x.flatten

/-- Cut a list into consecutive pieces of the given lengths. -/
def split_by_counts {β : Type} : List Nat → List β → List (List β)
  | [], _ => []
  | c :: cs, l => l.take c :: split_by_counts cs (l.drop c)

/-- The registry of a 4-byte integer type on x86: 4 lanes with SSE, 8 lanes with AVX
when available, one lane for scalar (no AVX-512, no NEON); the tier widths
`{8, 4, 1}` of the specification's scenario. -/
def int_registry (have_avx : Bool) : Registry
  | Abi.avx512 => none
  | Abi.avx => if have_avx then some 8 else none
  | Abi.neon => none
  | Abi.sse => some 4
  | Abi.scalar => some 1

/-- Modelled from the spec: the broadcast constructor `datapar<T, A>(x)` of a native
chunk (outside `fixed_size.h`) fills all `width` lanes of the chunk with `x`. -/
def native_broadcast {α : Type} (width : Nat) (x : α) : List α := List.replicate width x

/-- The member `fixed_size_datapar_impl::broadcast` (via `broadcast_impl`): every chunk of
the tuple `datapar_member_type<T>` is constructed from the scalar `x`. -/
def broadcast {α : Type} (reg : Registry) (As : List Abi) (x : α) : List (List α) :=
  As.map (fun A => native_broadcast (lanes reg A) x)

/-- Addition of a `w`-bit integer type, on residues modulo `2 ^ w`. -/
def add_mod (w : Nat) (a b : Nat) : Nat := (a + b) % 2 ^ w

instance well_shaped_decidable {α : Type} (reg : Registry) (As : List Abi)
    (x : List (List α)) : Decidable (well_shaped reg As x) :=
  inferInstanceAs (Decidable (x.map List.length = As.map (lanes reg)))

/-! ## Compare operations and the mask as `std::bitset<N>` -/

/-- The value of a bit sequence, bit `j` of the sequence being binary digit `j`. -/
def bits_to_nat : List Bool → Nat
  | [] => 0
  | b :: bs => Nat.bit b (bits_to_nat bs)

/-- The member `std::bitset<W>::to_ullong()`: the value of the bits, or an
`overflow_error` when it does not fit in 64 bits. -/
def to_ullong (m : List Bool) : Option Nat :=
  if bits_to_nat m < 2 ^ 64 then some (bits_to_nat m) else none

/-- The constructor `std::bitset<N>(unsigned long long)`: bits at positions `≥ N` are
dropped. -/
def bitset_of_ullong (N : Nat) (v : Nat) : Nat := v % 2 ^ N

/-- The operator `<<` of `std::bitset<N>`: bits shifted to positions `≥ N` are dropped. -/
def bitset_shl (N : Nat) (b : Nat) (k : Nat) : Nat := (b <<< k) % 2 ^ N

/-- Modelled from the spec: the compare of two native chunks (a per-ISA kernel outside
`fixed_size.h`), converted by `to_bitset()`: bit `j` of the native mask is the scalar
compare of lane `j` of both chunks. -/
def native_cmp {α : Type} (cmp : α → α → Bool) (native_x native_y : List α) : List Bool :=
  List.zipWith cmp native_x native_y

/-- Modelled from the spec: `detail::for_each(x, y, f)` of `datapar_tuple` (declared
outside `fixed_size.h`) on two tuples of the same type: the chunk pairs are visited in
order and `f` receives each pair with its starting offset, the lane count of the chunks
before it. The captured state of the lambda is threaded through; tuples with different
numbers of chunks do not have the same type. -/
def for_each2 {α σ : Type} (f : σ → List α → List α → Nat → Option σ) :
    Nat → σ → List (List α) → List (List α) → Option σ
  | _, s, [], [] => some s
  | offset, s, native_x :: xs, native_y :: ys =>
    match f s native_x native_y offset with
    | none => none
    | some s1 => for_each2 f (offset + native_x.length) s1 xs ys
  | _, _, _, _ => none

/-- The lambda in the functions generated by `Vc_CMP_OPERATIONS`, with the captured
`bits` as state: `bits |= mask_member_type(cmp(native_x, native_y).to_bitset()
.to_ullong()) << offset`. -/
def cmp_step {α : Type} (cmp : α → α → Bool) (N : Nat) (bits : Nat)
    (native_x native_y : List α) (offset : Nat) : Option Nat :=
  match to_ullong (native_cmp cmp native_x native_y) with
  | none => none
  | some v => some (bits ||| bitset_shl N (bitset_of_ullong N v) offset)

/-- The body of the functions generated by `Vc_CMP_OPERATIONS`: `bits = 0`, the loop
`detail::for_each(x, y, ...)`, `return bits`. -/
def cmp_loop {α : Type} (cmp : α → α → Bool) (N : Nat) (x y : List (List α)) : Option Nat :=
  for_each2 (cmp_step cmp N) 0 0 x y

/-- The names `cmp_` that `Vc_CMP_OPERATIONS` is expanded with. -/
inductive CmpName
  | equal_to
  | not_equal_to
  | less
  | greater
  | less_equal
  | greater_equal
  deriving DecidableEq, Repr

/-- The scalar meaning of `std::cmp_<>()` for each name. -/
def std_cmp {α : Type} [LinearOrder α] : CmpName → α → α → Bool
  | CmpName.equal_to, a, b => decide (a = b)
  | CmpName.not_equal_to, a, b => decide (a ≠ b)
  | CmpName.less, a, b => decide (a < b)
  | CmpName.greater, a, b => decide (a > b)
  | CmpName.less_equal, a, b => decide (a ≤ b)
  | CmpName.greater_equal, a, b => decide (a ≥ b)

/-- The function `fixed_size_datapar_impl<N>::cmp_(x, y)` generated by
`Vc_CMP_OPERATIONS(cmp_)`. -/
def Vc_CMP_OPERATIONS {α : Type} [LinearOrder α] (cmp_ : CmpName) (N : Nat)
    (x y : List (List α)) : Option Nat :=
  cmp_loop (std_cmp cmp_) N x y

/-! ## Mask popcount and slicing -/

/-- The member `std::bitset<N>::count()`: the number of set bits among the `N` bits. -/
def bitset_count (N : Nat) (b : Nat) : Nat := (List.range N).countP (fun i => b.testBit i)

/-- The function `popcount(const fixed_size_mask<T, N> &k)`: `data(k).count()` returned
as `int`. -/
def popcount (N : Nat) (k : Nat) : Int := to_int (bitset_count N k)

/-- The number of set bits of a native mask. -/
def native_popcount (m : List Bool) : Nat := m.count true

/-- The member `std::bitset<N>::to_ullong()` on a bitset given by its value: an
`overflow_error` when a bit at position `≥ 64` is set. -/
def bitset_to_ullong (b : Nat) : Option Nat := if b < 2 ^ 64 then some b else none

/-- The operator `>>` of `std::bitset<N>`. -/
def bitset_shr (b : Nat) (k : Nat) : Nat := b >>> k

/-- Modelled from the spec: `from_bitset` of a native mask implementation (outside
`fixed_size.h`) on a `std::bitset<width>`: bit `j` of the native mask is bit `j` of the
bitset. -/
def native_from_bitset (width : Nat) (b : Nat) : List Bool :=
  (List.range width).map (fun j => b.testBit j)

/-- The function `partial_bitset_to_member_type<V, N>(shifted_bits)` with
`width = V::size()`: `static_assert(V::size() <= N)`, then `from_bitset` of
`std::bitset<V::size()>(shifted_bits.to_ullong())`. -/
def partial_bitset_to_member_type (N width : Nat) (shifted_bits : Nat) : Option (List Bool) :=
  if width ≤ N then
    match bitset_to_ullong shifted_bits with
    | none => none
    | some v => some (native_from_bitset width (bitset_of_ullong width v))
  else none

/-- The assembly step of the compare loop on given native masks: starting from `bits` at
`offset`, each mask `m` contributes
`mask_member_type(m.to_bitset().to_ullong()) << offset` and advances the offset by its
width. -/
def assemble_masks (N : Nat) : Nat → Nat → List (List Bool) → Option Nat
  | _, bits, [] => some bits
  | offset, bits, m :: ms =>
    match to_ullong m with
    | none => none
    | some v =>
      assemble_masks N (offset + m.length)
        (bits ||| bitset_shl N (bitset_of_ullong N v) offset) ms

/-- The slices that the masked operations take of a mask: for the chunk widths in order,
`partial_bitset_to_member_type<V>(bits >> offset)` at the offset of each chunk. -/
def slice_masks (N : Nat) (bits : Nat) : Nat → List Nat → Option (List (List Bool))
  | _, [] => some []
  | offset, w :: ws =>
    match partial_bitset_to_member_type N w (bitset_shr bits offset),
      slice_masks N bits (offset + w) ws with
    | some m, some ms => some (m :: ms)
    | _, _ => none

/-! ## Elementwise dispatch -/

/-- Modelled from the spec: `apply(f, x, y)` of `datapar_tuple` (declared outside
`fixed_size.h`) on two tuples of the same type: chunk `i` of the result is `f` applied to
chunk `i` of `x` and chunk `i` of `y`. Tuples with different numbers of chunks do not
have the same type. -/
def apply2 {α : Type} (f : List α → List α → List α) :
    List (List α) → List (List α) → Option (List (List α))
  | [], [] => some []
  | xx :: xs, yy :: ys =>
    match apply2 f xs ys with
    | none => none
    | some rest => some (f xx yy :: rest)
  | _, _ => none

/-- The names `name_` that `Vc_FIXED_OP` is expanded with. -/
inductive FixedOpName
  | plus
  | minus
  | multiplies
  | divides
  | modulus
  | bit_and
  | bit_or
  | bit_xor
  | bit_shift_left
  | bit_shift_right
  deriving DecidableEq, Repr

/-- The function `fixed_size_datapar_impl<N>::name_(x, y)` generated by
`Vc_FIXED_OP(name_, op_)`: `apply([](auto xx, auto yy) { return xx op_ yy; }, x, y)`.
The operators `op_` of the element type are the parameter `scalar_op`; on native chunks
they act lane by lane (`lanewise`). -/
def Vc_FIXED_OP {α : Type} (scalar_op : FixedOpName → α → α → α) (name_ : FixedOpName)
    (x y : List (List α)) : Option (List (List α)) :=
  apply2 (fun xx yy => lanewise (scalar_op name_) xx yy) x y

/-- The operators of a `w`-bit unsigned integer type on residues modulo `2 ^ w`
(division and remainder by zero and shifts by `w` or more, undefined in C++, take the
values of the `Nat` operations). -/
def uint_op (w : Nat) : FixedOpName → Nat → Nat → Nat
  | FixedOpName.plus, a, b => (a + b) % 2 ^ w
  | FixedOpName.minus, a, b => (a + 2 ^ w - b % 2 ^ w) % 2 ^ w
  | FixedOpName.multiplies, a, b => (a * b) % 2 ^ w
  | FixedOpName.divides, a, b => a / b
  | FixedOpName.modulus, a, b => a % b
  | FixedOpName.bit_and, a, b => a &&& b
  | FixedOpName.bit_or, a, b => a ||| b
  | FixedOpName.bit_xor, a, b => a ^^^ b
  | FixedOpName.bit_shift_left, a, b => (a <<< b) % 2 ^ w
  | FixedOpName.bit_shift_right, a, b => a >>> b

/-! ## Element types and registers of AVX-512 -/

/-- The element types for which `avx512.h` declares `traits<T, datapar_abi::avx512>`. -/
inductive ElementType
  | double
  | float
  | ullong
  | llong
  | ulong
  | long
  | uint
  | int
  | ushort
  | short
  | uchar
  | schar
  | char
  deriving DecidableEq, Repr

/-- The value of `sizeof(T)` on x86. The size of `long` and `unsigned long` depends on the
data model and is the parameter `sizeof_long`: 8 bytes on LP64 (64-bit Linux), 4 bytes on
ILP32 (32-bit x86) and on LLP64 (64-bit Windows). -/
def sizeof (sizeof_long : Nat) : ElementType → Nat
  | ElementType.double => 8
  | ElementType.float => 4
  | ElementType.ullong => 8
  | ElementType.llong => 8
  | ElementType.ulong => sizeof_long
  | ElementType.long => sizeof_long
  | ElementType.uint => 4
  | ElementType.int => 4
  | ElementType.ushort => 2
  | ElementType.short => 2
  | ElementType.uchar => 1
  | ElementType.schar => 1
  | ElementType.char => 1

/-- The vector types of the Intel intrinsics for 512-bit registers: `__m512` (16 `float`),
`__m512d` (8 `double`) and `__m512i` (integers). -/
inductive VectorType
  | m512
  | m512d
  | m512i
  deriving DecidableEq, Repr

/-- Modelled from the spec: the alias `intrinsic_type<T>` of `avx512_datapar_impl`, the
type `avx512_datapar_member_type<T>::VectorType` of the member `d` of the storage class
(`storage.h`, outside the given sources): `__m512d` for `double`, `__m512` for `float` and
`__m512i` for the integer types. The `broadcast` overloads of `avx512.h` return it from
`_mm512_set1_pd`, `_mm512_set1_ps` and `_mm512_set1_epi*`. -/
def intrinsic_type : ElementType → VectorType
  | ElementType.double => VectorType.m512d
  | ElementType.float => VectorType.m512
  | _ => VectorType.m512i

/-- The ways in which a call gives no result: its instantiation is ill-formed (an argument
of one vector type is passed for a parameter of another, which the compiler rejects), or
its execution has undefined behaviour (an access outside the buffer). -/
inductive Failure
  | ill_formed
  | undefined_behaviour
  deriving DecidableEq, Repr

/-- The outcome of a well-formed call from the result of its execution: the result, or
undefined behaviour when the execution has none. -/
def outcome_of_run {σ : Type} (o : Option σ) : Except Failure σ :=
  match o with
  | some r => Except.ok r
  | none => Except.error Failure.undefined_behaviour

/-- The content of a register that holds lanes of `w` bits, as one number: lane 0 in the
lowest bits. Every lane is the object representation of an element, a number below
`2 ^ w`. -/
def to_register (w : Nat) : List Nat → Nat
  | [] => 0
  | x :: xs => x % 2 ^ w + 2 ^ w * to_register w xs

/-- Unit `j` of `w` bits of a register. -/
def register_unit (w : Nat) (r : Nat) (j : Nat) : Nat := (r >>> (w * j)) % 2 ^ w

/-- The `n` lanes of `w` bits of a register. -/
def from_register (w n : Nat) (r : Nat) : List Nat :=
  (List.range n).map (fun j => register_unit w r j)

/-- The suffixes of the masked arithmetic intrinsics that `avx512.h` names. -/
inductive Suffix
  | pd
  | ps
  | epi64
  | epi32
  | epi16
  | epi8
  deriving DecidableEq, Repr

/-- The width in bits of the units that an intrinsic with the given suffix works on. -/
def Suffix.bits : Suffix → Nat
  | Suffix.pd => 64
  | Suffix.ps => 32
  | Suffix.epi64 => 64
  | Suffix.epi32 => 32
  | Suffix.epi16 => 16
  | Suffix.epi8 => 8

/-- The Intel intrinsics `_mm512_mask_add_*(src, k, a, b)` and
`_mm512_mask_sub_*(src, k, a, b)` on units of `w` bits: the mask parameter has one bit
for each of the `512 / w` units (a wider mask argument is cut to these low bits), and unit
`j` of the result is `unit_op(a_j, b_j)` when bit `j` of the mask is set and unit `j` of
`src` otherwise. -/
def mm512_mask_op (unit_op : Nat → Nat → Nat) (w : Nat) (src k a b : Nat) : Nat :=
  to_register w ((List.range (512 / w)).map (fun j =>
    if (k % 2 ^ (512 / w)).testBit j then
      unit_op (register_unit w a j) (register_unit w b j)
    else register_unit w src j))

/-! ## Masked assignment, compound assignment and unary operations -/

/-- The helper `detail::masked_assign(bool k, T &lhs, U &&rhs)` of `where.h`; the result
is the value of `lhs` after the call. -/
def masked_assign {α : Type} (k : Bool) (lhs rhs : α) : α := if k then rhs else lhs

/-- The helper `detail::masked_cassign<Op>(bool k, T &lhs, U &&rhs)` of `where.h`; the
result is the value of `lhs` after the call. -/
def masked_cassign {α : Type} (Op : α → α → α) (k : Bool) (lhs rhs : α) : α :=
  if k then Op lhs rhs else lhs

/-- The helper `detail::masked_unary<Op>(bool k, T &d)` of `where.h`: the returned value
and the value of `d` after the call (`Op` takes its argument by value). -/
def masked_unary {α : Type} (Op : α → α) (k : Bool) (d : α) : α × α :=
  (if k then Op d else d, d)

/-- The function object `detail::increment<void>` of `where.h`: `++a` on a copy. -/
def increment {α : Type} [Add α] [One α] (a : α) : α := a + 1

/-- The function object `detail::decrement<void>` of `where.h`: `--a` on a copy. -/
def decrement {α : Type} [Sub α] [One α] (a : α) : α := a - 1

/-- A masked two-operand lane operation applied lane by lane to a native mask and two
native chunks. -/
def lanes3 {α : Type} (h : Bool → α → α → α) (k : List Bool) (a b : List α) : List α :=
  List.zipWith (fun p r => h p.1 p.2 r) (List.zip k a) b

/-- A masked one-operand lane operation applied lane by lane to a native mask and a
native chunk. -/
def lanes2 {α : Type} (h : Bool → α → α) (k : List Bool) (a : List α) : List α :=
  List.zipWith h k a

/-- Modelled from the spec: the native `masked_assign(k, lhs, rhs)` of a chunk type
(`generic_datapar_impl`, outside the given sources): every lane is assigned as by the
helper of `where.h`. The result is the chunk `lhs` after the call. -/
def native_masked_assign {α : Type} (k : List Bool) (lhs rhs : List α) : List α :=
  lanes3 masked_assign k lhs rhs

/-- Modelled from the spec: the native `masked_assign(k, lhs, rhs)` with a scalar `rhs`
(outside the given sources): the selected lanes receive `rhs`. -/
def native_masked_assign_scalar {α : Type} (k : List Bool) (lhs : List α) (rhs : α) : List α :=
  lanes2 (fun kj l => masked_assign kj l rhs) k lhs

/-- Modelled from the spec: the primary template
`generic_datapar_impl<Impl>::masked_cassign<Op>(k, lhs, rhs)` (outside the given sources),
which a chunk type uses wherever no explicit specialisation takes its place: every lane
is updated as by the helper of `where.h`. -/
def native_masked_cassign {α : Type} (Op : α → α → α) (k : List Bool) (lhs rhs : List α) :
    List α :=
  lanes3 (masked_cassign Op) k lhs rhs

/-- The lines `Vc_MASKED_CASSIGN_SPECIALIZATION(TYPE_, TYPE_SUFFIX_, OP_, OP_NAME_)` of
`avx512.h`: the suffix of the intrinsic of the explicit specialisation for the element
type and the operation, if there is one. The operations are `std::plus` and `std::minus`;
`long` and `unsigned long` are listed with `epi64`; the lines for the 16-bit and 8-bit
types are compiled under `Vc_HAVE_FULL_AVX512_ABI` only, and `char` is not listed. -/
def masked_cassign_specialization (full_avx512 : Bool) (TYPE_ : ElementType)
    (OP_ : FixedOpName) : Option Suffix :=
  if OP_ = FixedOpName.plus ∨ OP_ = FixedOpName.minus then
    match TYPE_ with
    | ElementType.double => some Suffix.pd
    | ElementType.float => some Suffix.ps
    | ElementType.llong => some Suffix.epi64
    | ElementType.ullong => some Suffix.epi64
    | ElementType.long => some Suffix.epi64
    | ElementType.ulong => some Suffix.epi64
    | ElementType.int => some Suffix.epi32
    | ElementType.uint => some Suffix.epi32
    | ElementType.short => if full_avx512 then some Suffix.epi16 else none
    | ElementType.ushort => if full_avx512 then some Suffix.epi16 else none
    | ElementType.schar => if full_avx512 then some Suffix.epi8 else none
    | ElementType.uchar => if full_avx512 then some Suffix.epi8 else none
    | ElementType.char => none
  else none

/-- The operation that the intrinsic `_mm512_mask_<OP_NAME_>_<TYPE_SUFFIX_>` applies to a
pair of units: for `pd` and `ps` the addition or subtraction of `double` and `float`,
which is the operator of the element type there (`scalar_op`); for `epi64`, `epi32`,
`epi16` and `epi8` the addition or subtraction modulo `2 ^ 64`, `2 ^ 32`, `2 ^ 16` and
`2 ^ 8`. -/
def intrinsic_op (scalar_op : FixedOpName → Nat → Nat → Nat) (OP_ : FixedOpName) :
    Suffix → Nat → Nat → Nat
  | Suffix.pd => scalar_op OP_
  | Suffix.ps => scalar_op OP_
  | Suffix.epi64 => uint_op 64 OP_
  | Suffix.epi32 => uint_op 32 OP_
  | Suffix.epi16 => uint_op 16 OP_
  | Suffix.epi8 => uint_op 8 OP_

/-- The body of `Vc_MASKED_CASSIGN_SPECIALIZATION(TYPE_, TYPE_SUFFIX_, OP_, OP_NAME_)`:
`lhs = _mm512_mask_<OP_NAME_>_<TYPE_SUFFIX_>(lhs, k, lhs, rhs)` on the storage of
`64 / sizeof(TYPE_)` lanes of `TYPE_`; `k` is the integer of the native mask. The result
is `lhs` after the call. -/
def Vc_MASKED_CASSIGN_SPECIALIZATION (sizeof_TYPE : Nat) (TYPE_SUFFIX_ : Suffix)
    (unit_op : Nat → Nat → Nat) (k : List Bool) (lhs rhs : List Nat) : List Nat :=
  from_register (8 * sizeof_TYPE) (64 / sizeof_TYPE)
    (mm512_mask_op unit_op TYPE_SUFFIX_.bits (to_register (8 * sizeof_TYPE) lhs)
      (bits_to_nat k) (to_register (8 * sizeof_TYPE) lhs) (to_register (8 * sizeof_TYPE) rhs))

/-- The call `detail::get_impl_t<V>::template masked_cassign<Op>(k, lhs, rhs)` for a chunk
of element type `T`: an AVX-512 chunk resolves to
`generic_datapar_impl<avx512_datapar_impl>::masked_cassign`, that is to the explicit
specialisation of `avx512.h` where one is declared and to the primary template
otherwise; every other chunk type uses the primary template of its implementation. The
lanes are object representations, `scalar_op` gives the operators of `T` on them. -/
def get_impl_t.masked_cassign (sizeof_long : Nat) (full_avx512 : Bool) (T : ElementType)
    (scalar_op : FixedOpName → Nat → Nat → Nat) (Op : FixedOpName) (A : Abi) (k : List Bool)
    (lhs rhs : List Nat) : List Nat :=
  match A, masked_cassign_specialization full_avx512 T Op with
  | Abi.avx512, some TYPE_SUFFIX_ =>
    Vc_MASKED_CASSIGN_SPECIALIZATION (sizeof sizeof_long T) TYPE_SUFFIX_
      (intrinsic_op scalar_op Op TYPE_SUFFIX_) k lhs rhs
  | _, _ => native_masked_cassign (scalar_op Op) k lhs rhs

/-- Modelled from the spec: the native `masked_unary<Op>(k, v)` of a chunk type (outside
the given sources): every lane is computed as by the helper of `where.h`. -/
def native_masked_unary {α : Type} (Op : α → α) (k : List Bool) (v : List α) : List α :=
  lanes2 (fun kj d => (masked_unary Op kj d).1) k v

/-- Modelled from the spec: `detail::for_each(lhs, rhs, f)` of `datapar_tuple` (declared
outside `fixed_size.h`) where `f` takes the chunk of `lhs` by reference: the chunk pairs
are visited in order with their offsets and every chunk of `lhs` is replaced by what `f`
leaves in it. The result is `lhs` after the loop. -/
def for_each_update2 {α : Type} (f : List α → List α → Nat → Option (List α)) :
    Nat → List (List α) → List (List α) → Option (List (List α))
  | _, [], [] => some []
  | offset, native_lhs :: ls, native_rhs :: rs =>
    match f native_lhs native_rhs offset,
      for_each_update2 f (offset + native_lhs.length) ls rs with
    | some l1, some rest => some (l1 :: rest)
    | _, _ => none
  | _, _, _ => none

/-- Modelled from the spec: `detail::for_each(lhs, f)` of `datapar_tuple` (declared
outside `fixed_size.h`) where `f` takes the chunk by reference. The result is `lhs` after
the loop. -/
def for_each_update1 {α : Type} (f : List α → Nat → Option (List α)) :
    Nat → List (List α) → Option (List (List α))
  | _, [] => some []
  | offset, native_lhs :: ls =>
    match f native_lhs offset, for_each_update1 f (offset + native_lhs.length) ls with
    | some l1, some rest => some (l1 :: rest)
    | _, _ => none

/-- The member `fixed_size_datapar_impl<N>::masked_assign(bits, lhs, rhs)` with a tuple
`rhs`; the result is `lhs` after the call. -/
def fixed_size_datapar_impl.masked_assign {α : Type} (N : Nat) (bits : Nat)
    (lhs rhs : List (List α)) : Option (List (List α)) :=
  for_each_update2 (fun native_lhs native_rhs offset =>
    match partial_bitset_to_member_type N native_lhs.length (bitset_shr bits offset) with
    | none => none
    | some k => some (native_masked_assign k native_lhs native_rhs)) 0 lhs rhs

/-- The member `fixed_size_datapar_impl<N>::masked_assign(bits, lhs, rhs)` with a scalar
`rhs`; the result is `lhs` after the call. -/
def fixed_size_datapar_impl.masked_assign_scalar {α : Type} (N : Nat) (bits : Nat)
    (lhs : List (List α)) (rhs : α) : Option (List (List α)) :=
  for_each_update1 (fun native_lhs offset =>
    match partial_bitset_to_member_type N native_lhs.length (bitset_shr bits offset) with
    | none => none
    | some k => some (native_masked_assign_scalar k native_lhs rhs)) 0 lhs

/-- Modelled from the spec: `detail::for_each(lhs, rhs, f)` as in `for_each_update2`, for
a body whose effect depends on the type of the chunk: the generic lambda `f` is
instantiated for the type of every chunk pair, and the ABI tag of that type (the tuple
type `As`) is passed along. The result is `lhs` after the loop. -/
def for_each_update2_typed {α : Type} (f : Abi → List α → List α → Nat → Option (List α)) :
    Nat → List Abi → List (List α) → List (List α) → Option (List (List α))
  | _, [], [], [] => some []
  | offset, A :: As, native_lhs :: ls, native_rhs :: rs =>
    match f A native_lhs native_rhs offset,
      for_each_update2_typed f (offset + native_lhs.length) As ls rs with
    | some l1, some rest => some (l1 :: rest)
    | _, _ => none
  | _, _, _, _ => none

/-- The member `fixed_size_datapar_impl<N>::masked_cassign<Op>(bits, lhs, rhs)` with a
tuple `rhs`, for composites of element type `T` and tuple type `As`; the result is `lhs`
after the call. -/
def fixed_size_datapar_impl.masked_cassign (sizeof_long : Nat) (full_avx512 : Bool)
    (T : ElementType) (scalar_op : FixedOpName → Nat → Nat → Nat) (Op : FixedOpName)
    (N : Nat) (bits : Nat) (As : List Abi) (lhs rhs : List (List Nat)) :
    Option (List (List Nat)) :=
  for_each_update2_typed (fun A native_lhs native_rhs offset =>
    match partial_bitset_to_member_type N native_rhs.length (bitset_shr bits offset) with
    | none => none
    | some k => some (get_impl_t.masked_cassign sizeof_long full_avx512 T scalar_op Op A k
        native_lhs native_rhs)) 0 As lhs rhs

/-- The outcome that the specification gives for `masked_cassign<Op>(bits, lhs, rhs)`, on
the lanes of the composites in order: lane `i` is `Op(lhs_i, rhs_i)` when bit `i` of the
mask is set and `lhs_i` otherwise. -/
def spec_masked_cassign {α : Type} (Op : α → α → α) (bits : Nat) (lhs rhs : List α) : List α :=
  lanes3 (masked_cassign Op) (native_from_bitset lhs.length bits) lhs rhs

/-- The member `fixed_size_datapar_impl<N>::masked_unary<Op>(bits, v)`: `r` is declared
without a value (`r_init` are its indeterminate chunks, of the tuple type of `v`), every
chunk of `r` is assigned in the loop over `r` and `v`, and `r` is returned. The argument
`v` is a by-value copy and is not an output. -/
def fixed_size_datapar_impl.masked_unary {α : Type} (Op : α → α) (N : Nat) (bits : Nat)
    (r_init v : List (List α)) : Option (List (List α)) :=
  for_each_update2 (fun _ native_v offset =>
    match partial_bitset_to_member_type N native_v.length (bitset_shr bits offset) with
    | none => none
    | some k => some (native_masked_unary Op k native_v)) 0 r_init v

/-! ## Load and store -/

/-- Modelled from the spec: the load constructor `datapar<T, A>(&mem[offset], f)` of a
native chunk (outside `fixed_size.h`) for `U = T`: it reads the `width` elements
`mem[p], ..., mem[p + width - 1]`; a read past the end of the buffer is an error. -/
def native_load {α : Type} (width : Nat) (mem : List α) (p : Nat) : Option (List α) :=
  if p + width ≤ mem.length then some ((mem.drop p).take width) else none

/-- Modelled from the spec: `datapar_tuple<T, As...>::generate(gen)` (declared outside
`fixed_size.h`): chunk `i` is `gen(native, offset_i)`, where `native` has the chunk's
type and the offsets accumulate the lane counts. -/
def generate {α : Type} (reg : Registry) (gen : Abi → Nat → Option (List α)) :
    Nat → List Abi → Option (List (List α))
  | _, [] => some []
  | offset, A :: As =>
    match gen A offset, generate reg gen (offset + lanes reg A) As with
    | some native, some rest => some (native :: rest)
    | _, _ => none

/-- The member `fixed_size_datapar_impl::load(mem, f, type_tag<T>)` for the tuple type
`As` of `datapar_member_type<T>`. -/
def load {α : Type} (reg : Registry) (As : List Abi) (mem : List α) : Option (List (List α)) :=
  generate reg (fun A offset => native_load (lanes reg A) mem offset) 0 As

/-- Modelled from the spec: `native.memstore(&mem[offset], f)` of a native chunk (outside
`fixed_size.h`) for `U = T`: it writes the lanes of the chunk to
`mem[p], ..., mem[p + width - 1]`; a write past the end of the buffer is an error. The
result is the buffer after the call. -/
def native_memstore {α : Type} (native : List α) (mem : List α) (p : Nat) : Option (List α) :=
  if p + native.length ≤ mem.length then
    some (mem.take p ++ native ++ mem.drop (p + native.length))
  else none

/-- Modelled from the spec: `detail::for_each(v, f)` of `datapar_tuple` (declared outside
`fixed_size.h`) with a body that takes the chunk by value and acts on a captured buffer:
the chunks are visited in order, each with its type and offset, and the buffer is
threaded through the calls. -/
def for_each1 {α σ : Type} (f : Abi → List α → Nat → σ → Option σ) :
    Nat → List Abi → List (List α) → σ → Option σ
  | _, [], [], s => some s
  | offset, A :: As, native :: rest, s =>
    match f A native offset s with
    | none => none
    | some s1 => for_each1 f (offset + native.length) As rest s1
  | _, _, _, _ => none

/-- The member `fixed_size_datapar_impl::store(v, mem, f, type_tag<T>)`; the result is the
buffer after the call. -/
def store {α : Type} (As : List Abi) (v : List (List α)) (mem : List α) : Option (List α) :=
  for_each1 (fun _ native offset m => native_memstore native m offset) 0 As v mem

/-! ## Alignment of the fixed-size members -/

/-- The default of the third template parameter of `fixed_size_traits<T, N>`: the sizes
for which the traits are enabled. -/
def fixed_size_traits_enabled (N : Int) : Bool :=
  (decide (N ≤ 32) && decide (N ≥ 0)) || decide (N = 64)

/-- The constant `fixed_size_traits<T, N>::datapar_member_alignment`. The flag `gcc`
stands for `Vc_GCC` being defined and `avx` for `__AVX__`; `N * sizeof(T)` is computed in
`size_t`. -/
def datapar_member_alignment (gcc avx : Bool) (N : Int) (sizeof_T : Nat) : Nat :=
  if gcc then
    min (if avx then 256 else 128) (next_power_of_2 ((to_size_t N * sizeof_T) % 2 ^ 64))
  else next_power_of_2 ((to_size_t N * sizeof_T) % 2 ^ 64)

/-- The maximum that `datapar_member_alignment` applies: 256 or 128 with GCC, none with
another compiler. -/
def compiler_maximum (gcc avx : Bool) : Option Nat :=
  if gcc then some (if avx then 256 else 128) else none

/-- The guarantee of the header comment of `fixed_size.h` (specification-level): an
alignment is bounded to the maximum when there is one. -/
def bounded_to (maximum : Option Nat) (a : Nat) : Nat :=
  match maximum with
  | some m => min m a
  | none => a

/-! ## Masked load and store -/

/-- Modelled from the spec: `execute_n_times<N>(f)` (declared outside the given sources)
calls `f(0), ..., f(N - 1)` in this order. The state the calls act on is threaded through
them and an error ends the loop. -/
def execute_n_times {σ : Type} (N : Nat) (f : Nat → σ → Option σ) (s : σ) : Option σ :=
  (List.range N).foldlM (fun st i => f i st) s

/-- The loop body `if (sel(i)) { mem[p + i] = val(i); }` shared by the masked loops of
`avx512.h` and `fixed_size.h`, on a buffer `mem`: an access outside the source or the
destination is an error. The result is the buffer after the body. -/
def masked_write_body {α : Type} (sel : Nat → Bool) (val : Nat → Option α) (p : Nat)
    (i : Nat) (mem : List α) : Option (List α) :=
  if sel i then
    match val i with
    | some x => if p + i < mem.length then some (mem.set (p + i) x) else none
    | none => none
  else some mem

/-- Modelled from the spec: the native `masked_store(v, mem, f, k)` of a chunk type other
than AVX-512 (outside the given sources), with `mem` pointing to element `p` of the
buffer: `mem[i] = v[i]` for the lanes `i` with `k[i]` set, where `v` holds the lanes as
elements of the buffer (the lanes themselves for `U = T`, the converted lanes otherwise).
The result is the buffer after the call. -/
def native_masked_store {α : Type} (v : List α) (mem : List α) (p : Nat) (k : List Bool) :
    Option (List α) :=
  execute_n_times v.length (masked_write_body (fun i => k.getD i false) (fun i => v[i]?) p) mem

/-- The Intel intrinsic `_mm512_mask_storeu_pd(mem, k, a)` on a buffer whose elements have
`sizeof_U` bytes (1, 2, 4 or 8) and are given by their object representations: `k` is an
8-bit mask, so a wider mask argument is cut to its low 8 bits, and for every `j < 8` with
bit `j` set the 64 bits of lane `j` of the register `a` are written to the bytes
`8 * j, ..., 8 * j + 7` after `mem`, least significant byte first. These bytes are the
`8 / sizeof_U` elements from `j * (8 / sizeof_U)` on, so element `e` (of
`8 * (8 / sizeof_U)`) is written when bit `e / (8 / sizeof_U)` of the mask is set, and it
receives the `8 * sizeof_U` bits of the lane from bit `8 * sizeof_U * (e % (8 / sizeof_U))`
on. `mem` points to element `p` of the buffer; a write past its end is undefined. -/
def mm512_mask_storeu_pd (sizeof_U : Nat) (mem : List Nat) (p : Nat) (k : Nat)
    (a : List Nat) : Option (List Nat) :=
  execute_n_times (8 * (8 / sizeof_U))
    (masked_write_body (fun e => (k % 2 ^ 8).testBit (e / (8 / sizeof_U)))
      (fun e => (a[e / (8 / sizeof_U)]?).map
        (fun lane => (lane >>> (8 * sizeof_U * (e % (8 / sizeof_U)))) % 2 ^ (8 * sizeof_U)))
      p) mem

/-- The generic member `avx512_datapar_impl::masked_store(v, mem, f, k)` for a chunk of
element type `T` and a buffer of element type `U` (every `U` other than `long double`):
the single call `_mm512_mask_storeu_pd(mem, data(k), v.d)`. The parameter of the
intrinsic has the type `__m512d` and `v.d` has the type `intrinsic_type<T>`, so the
instantiation is ill-formed for every `T` other than `double`. For `double` the eight
lanes are stored as they are, without a conversion to `U`; `data(k)` is the integer of
the mask. -/
def avx512_datapar_impl.masked_store (sizeof_long : Nat) (T U : ElementType) (v : List Nat)
    (mem : List Nat) (p : Nat) (k : List Bool) : Except Failure (List Nat) :=
  match intrinsic_type T with
  | VectorType.m512d =>
    outcome_of_run (mm512_mask_storeu_pd (sizeof sizeof_long U) mem p (bits_to_nat k) v)
  | _ => Except.error Failure.ill_formed

/-- The call `detail::get_impl_t<decltype(native)>::masked_store(...)` for a chunk of
element type `T` and a buffer of element type `U` other than `long double`: an AVX-512
chunk resolves to the generic member of `avx512_datapar_impl`, every other chunk type to
its own kernel, which stores the lanes converted to `U` (`cvt` is `static_cast<U>` on
object representations, the identity for `U = T`). -/
def get_impl_t.masked_store (sizeof_long : Nat) (T U : ElementType) (cvt : Nat → Nat)
    (A : Abi) (native : List Nat) (mem : List Nat) (p : Nat) (k : List Bool) :
    Except Failure (List Nat) :=
  match A with
  | Abi.avx512 => avx512_datapar_impl.masked_store sizeof_long T U native mem p k
  | _ => outcome_of_run (native_masked_store (native.map cvt) mem p k)

/-- The member `fixed_size_datapar_impl<N>::masked_store(v, mem, f, bits)` for a composite
of element type `T` and tuple type `As` and a buffer of element type `U` other than
`long double`; the result is the buffer after the call, and there is none when the kernel
of a chunk is ill-formed or has undefined behaviour. -/
def fixed_size_datapar_impl.masked_store (sizeof_long : Nat) (T U : ElementType)
    (cvt : Nat → Nat) (N : Nat) (As : List Abi) (v : List (List Nat)) (mem : List Nat)
    (bits : Nat) : Option (List Nat) :=
  for_each1 (fun A native offset m =>
    match partial_bitset_to_member_type N native.length (bitset_shr bits offset) with
    | none => none
    | some k => (get_impl_t.masked_store sizeof_long T U cvt A native m offset k).toOption)
    0 As v mem

/-- Modelled from the spec: the native `masked_load(merge, k, mem, f)` of a chunk type for
`U = T`, with `mem` pointing to element `p` of the buffer: `merge[i] = mem[i]` for the
lanes `i` with `k[i]` set. For AVX-512 this is the non-converting fallback of `avx512.h`
(the overloads for the integer types call `_mm512_mask_loadu_epi*` with units of the size
of the element and one mask bit per lane, which has the same effect); the kernels of the
other chunk types are outside the given sources. The result is `merge` after the call. -/
def native_masked_load {α : Type} (merge : List α) (k : List Bool) (mem : List α) (p : Nat) :
    Option (List α) :=
  execute_n_times merge.length
    (masked_write_body (fun i => k.getD i false) (fun i => mem[p + i]?) 0) merge

/-- The member `fixed_size_datapar_impl<N>::masked_load(merge, bits, mem, f)` for `U = T`;
the result is `merge` after the call. -/
def fixed_size_datapar_impl.masked_load {α : Type} (N : Nat) (merge : List (List α))
    (bits : Nat) (mem : List α) : Option (List (List α)) :=
  for_each_update1 (fun native offset =>
    match partial_bitset_to_member_type N native.length (bitset_shr bits offset) with
    | none => none
    | some k => native_masked_load native k mem offset) 0 merge

/-- The assignment `b[i] = x` to a bit of a `std::bitset`. -/
def bitset_set (b : Nat) (i : Nat) (x : Bool) : Nat :=
  if x then b ||| 2 ^ i else b ^^^ (b &&& 2 ^ i)

/-- The member `fixed_size_mask_impl<N>::masked_load(merge, mask, mem, f)`; the result is
`merge` after the call. -/
def fixed_size_mask_impl.masked_load (N : Nat) (merge mask : Nat) (mem : List Bool) :
    Option Nat :=
  execute_n_times N (fun i m =>
    if mask.testBit i then
      match mem[i]? with
      | some x => some (bitset_set m i x)
      | none => none
    else some m) merge

/-- The member `fixed_size_mask_impl<N>::masked_store(v, mem, f, k)`; the result is the
buffer after the call. -/
def fixed_size_mask_impl.masked_store (N : Nat) (v : Nat) (mem : List Bool) (k : Nat) :
    Option (List Bool) :=
  execute_n_times N
    (masked_write_body (fun i => k.testBit i) (fun i => some (v.testBit i)) 0) mem

/-- The masked-store contract of the specification on a buffer: element `p + i` is lane
`i` of `v` when mask bit `i` is set, and is untouched otherwise. -/
def spec_masked_store {α : Type} (sel : Nat → Bool) (v : List α) (mem : List α) (p : Nat) :
    List α :=
  List.zipWith (fun g m => if p ≤ g ∧ sel (g - p) then v.getD (g - p) m else m)
    (List.range mem.length) mem

/-- The registry of a 4-byte element type on x86 with AVX-512: 16 lanes with AVX-512, 8
with AVX, 4 with SSE, one for scalar (no NEON). -/
def avx512_registry : Registry
  | Abi.avx512 => some 16
  | Abi.avx => some 8
  | Abi.neon => none
  | Abi.sse => some 4
  | Abi.scalar => some 1

/-- The registry of an 8-byte element type on x86 with AVX-512: 8 lanes with AVX-512, 4
with AVX, 2 with SSE, one for scalar (no NEON). -/
def avx512_registry_8 : Registry
  | Abi.avx512 => some 8
  | Abi.avx => some 4
  | Abi.neon => none
  | Abi.sse => some 2
  | Abi.scalar => some 1

/-- A native kernel meets the lane contract of the masked store for the mask slice of a
chunk at offset `o`: it completes, keeps the length of the buffer, writes the lanes
whose mask bit is set to their elements and leaves every other element as it was. -/
def store_contract {α : Type} (tb : Nat → Bool)
    (kernel : List α → List α → Nat → List Bool → Option (List α)) (native : List α) : Prop :=
  ∀ (mem : List α) (o : Nat), o + native.length ≤ mem.length →
    ∃ r, kernel native mem o ((List.range' o native.length).map tb) = some r ∧
      r.length = mem.length ∧
      ∀ g, r[g]? =
        if o ≤ g ∧ g - o < native.length ∧ tb g = true then native[g - o]? else mem[g]?

/-! ## The converting loads and stores of `avx512_datapar_impl` -/

/-- The seven converting overloads of `avx512_datapar_impl::load` and of
`avx512_datapar_impl::store`, named by the size relation of their `enable_if`. -/
inductive Conversion
  | same_size
  | T_twice_U
  | T_four_U
  | T_eight_U
  | U_twice_T
  | U_four_T
  | U_eight_T
  deriving DecidableEq, Repr

/-- The condition in `enable_if<...>` of a converting overload, for `sizeof(T) = sT` and
`sizeof(U) = sU`. -/
def Conversion.enabled (sT sU : Nat) : Conversion → Bool
  | Conversion.same_size => decide (sT = sU)
  | Conversion.T_twice_U => decide (sT = sU * 2)
  | Conversion.T_four_U => decide (sT = sU * 4)
  | Conversion.T_eight_U => decide (sT = sU * 8)
  | Conversion.U_twice_T => decide (sT * 2 = sU)
  | Conversion.U_four_T => decide (sT * 4 = sU)
  | Conversion.U_eight_T => decide (sT * 8 = sU)

/-- The converting overloads of `avx512_datapar_impl::load` in source order. -/
def load_overloads : List Conversion :=
  [Conversion.same_size, Conversion.T_twice_U, Conversion.T_four_U, Conversion.T_eight_U,
    Conversion.U_twice_T, Conversion.U_four_T, Conversion.U_eight_T]

/-- The converting overloads of `avx512_datapar_impl::store` in source order. -/
def store_overloads : List Conversion :=
  [Conversion.T_eight_U, Conversion.T_four_U, Conversion.T_twice_U, Conversion.same_size,
    Conversion.U_twice_T, Conversion.U_four_T, Conversion.U_eight_T]

/-- The overloads that remain after substitution: an overload whose `enable_if`
condition is false drops out of the candidate set. -/
def viable (overloads : List Conversion) (sT sU : Nat) : List Conversion :=
  overloads.filter (fun o => o.enabled sT sU)

/-- Overload resolution among the converting overloads: the single remaining overload;
the call is rejected when none remains (no matching function) or several remain
(ambiguous call). -/
def resolve_conversion (overloads : List Conversion) (sT sU : Nat) : Option Conversion :=
  match viable overloads sT sU with
  | [o] => some o
  | _ => none

/-- The size relation is in the factor table of the specification. -/
def in_factor_table (sT sU : Nat) : Prop :=
  sT = sU ∨ sT = 2 * sU ∨ sT = 4 * sU ∨ sT = 8 * sU ∨ 2 * sT = sU ∨ 4 * sT = sU ∨ 8 * sT = sU

instance in_factor_table_decidable (sT sU : Nat) : Decidable (in_factor_table sT sU) :=
  inferInstanceAs (Decidable (_ ∨ _))

/-- The overloads of `avx512_datapar_impl::load` and, in the same roles, of
`avx512_datapar_impl::store`: the overload for `long double` memory, the overload without
conversion (`U = T`) and the seven converting overloads. -/
inductive Overload
  | long_double
  | without_conversion
  | converting (c : Conversion)
  deriving DecidableEq, Repr

/-- Overload resolution of a call of `load` or `store` with memory of type `U` for lanes of
type `T`. The overloads for `long double` memory and for `U = T` carry no `enable_if` and
have a more specialised pointer parameter than the converting overloads, so each is
chosen whenever it matches; otherwise the converting overloads decide. -/
def resolve_overload (overloads : List Conversion) (sT sU : Nat)
    (U_is_T U_is_long_double : Bool) : Option Overload :=
  if U_is_long_double then some Overload.long_double
  else if U_is_T then some Overload.without_conversion
  else (resolve_conversion overloads sT sU).map Overload.converting

/-! ## Depth of the reduction tree -/

/-- The longest chain of `binary_op` applications in an application tree. -/
def OpTree.depth {α : Type} : OpTree α → Nat
  | OpTree.leaf _ => 0
  | OpTree.node l r => 1 + max l.depth r.depth

/-! ## Assignment and broadcast of fixed-size masks -/

/-- The operator `~` of `std::bitset<N>`: each of the `N` bits is flipped. -/
def bitset_not (N b : Nat) : Nat := (2 ^ N - 1) ^^^ (b % 2 ^ N)

/-- The member `fixed_size_mask_impl<N>::masked_assign(k, lhs, rhs)` with a mask `rhs`:
`lhs = (lhs & ~k) | (rhs & k)`. The result is `lhs` after the call. -/
def fixed_size_mask_impl.masked_assign (N k lhs rhs : Nat) : Nat :=
  (lhs &&& bitset_not N k) ||| (rhs &&& k)

/-- The member `fixed_size_mask_impl<N>::masked_assign(k, lhs, rhs)` with a `bool` `rhs`:
`lhs |= k` when `rhs` is true, `lhs &= ~k` otherwise. The result is `lhs` after the
call. -/
def fixed_size_mask_impl.masked_assign_bool (N k lhs : Nat) (rhs : Bool) : Nat :=
  if rhs then lhs ||| k else lhs &&& bitset_not N k

/-- The expression `a << k` on `unsigned long long` with a constant count `k`: the bits
shifted past bit 63 are dropped. For a count of 64 or more the C++ standard leaves the
value open; the count in `broadcast` is the template constant `N`, the compiler evaluates
the expression while translating and drops every bit there as well (`1llu << 64` is `0`),
which is the value given here. -/
def ullong_shl (a k : Nat) : Nat := (a <<< k) % 2 ^ 64

/-- The expression `a - b` on `unsigned long long` (modulo `2 ^ 64`). -/
def ullong_sub (a b : Nat) : Nat := (a % 2 ^ 64 + (2 ^ 64 - b % 2 ^ 64)) % 2 ^ 64

/-- The expression `a * b` on `unsigned long long` (modulo `2 ^ 64`). -/
def ullong_mul (a b : Nat) : Nat := (a * b) % 2 ^ 64

/-- The member `fixed_size_mask_impl<N>::broadcast(x, type_tag<T>)`:
`ullong(x) * ((1llu << N) - 1llu)` converted to `std::bitset<N>`. The `static_assert`
of the class admits `N` up to the 64 bits of `ullong`. -/
def fixed_size_mask_impl.broadcast (N : Nat) (x : Bool) : Nat :=
  bitset_of_ullong N (ullong_mul (if x then 1 else 0) (ullong_sub (ullong_shl 1 N) 1))

/-- The mask of `N` lanes that the specification calls `broadcast(x)`: every bit below
`N` equals `x`. -/
def spec_mask_broadcast (N : Nat) (x : Bool) : Nat := if x then 2 ^ N - 1 else 0

/-! ## Reductions of masks -/

/-- The member `std::bitset<N>::all()`. -/
def bitset_all (N b : Nat) : Bool := (List.range N).all (fun i => b.testBit i)

/-- The member `std::bitset<N>::any()`. -/
def bitset_any (N b : Nat) : Bool := (List.range N).any (fun i => b.testBit i)

/-- The member `std::bitset<N>::none()`. -/
def bitset_none (N b : Nat) : Bool := !bitset_any N b

/-- The function `all_of(const fixed_size_mask<T, N> &k)`. -/
def all_of (N k : Nat) : Bool := bitset_all N k

/-- The function `any_of(const fixed_size_mask<T, N> &k)`. -/
def any_of (N k : Nat) : Bool := bitset_any N k

/-- The function `none_of(const fixed_size_mask<T, N> &k)`. -/
def none_of (N k : Nat) : Bool := bitset_none N k

/-- The loop of `some_of(const fixed_size_mask<T, N> &k)` from index `i` on; the fuel
bounds the number of iterations. -/
def some_of_loop (N k : Nat) : Nat → Nat → Bool
  | 0, _ => false
  | fuel + 1, i =>
    if i < N then
      if k.testBit i != k.testBit (i - 1) then true else some_of_loop N k fuel (i + 1)
    else false

/-- The function `some_of(const fixed_size_mask<T, N> &k)`: the loop starts at `i = 1`. -/
def some_of (N k : Nat) : Bool := some_of_loop N k N 1

/-- Modelled from the spec: `detail::x86::testallset(v)` (declared outside the given
sources) on the integer of a mask of `size` lanes: all `size` bits are set. -/
def testallset (size v : Nat) : Bool := decide (v = 2 ^ size - 1)

/-- The function `all_of(mask<T, datapar_abi::avx512> k)` on the mask integer `v`. -/
def avx512.all_of (size v : Nat) : Bool := testallset size v

/-- The function `any_of(mask<T, datapar_abi::avx512> k)`: `v != 0U`. -/
def avx512.any_of (v : Nat) : Bool := decide (v ≠ 0)

/-- The function `none_of(mask<T, datapar_abi::avx512> k)`: `v == 0U`. -/
def avx512.none_of (v : Nat) : Bool := decide (v = 0)

/-- The function `some_of(mask<T, datapar_abi::avx512> k)`: `v != 0 && !all_of(k)`. -/
def avx512.some_of (size v : Nat) : Bool := decide (v ≠ 0) && !avx512.all_of size v

/-- The loop of `find_first_set(const fixed_size_mask<T, N> &k)` from index `i` on; the
fuel bounds the number of iterations. -/
def find_first_set_loop (N k : Nat) : Nat → Nat → Int
  | 0, _ => -1
  | fuel + 1, i =>
    if i < N then
      if k.testBit i then (i : Int) else find_first_set_loop N k fuel (i + 1)
    else -1

/-- The function `find_first_set(const fixed_size_mask<T, N> &k)`. -/
def find_first_set (N k : Nat) : Int := find_first_set_loop N k N 0

/-- The loop of `find_last_set(const fixed_size_mask<T, N> &k)`: the argument is `i + 1`
for the loop variable `i`, so `0` ends the loop. -/
def find_last_set_loop (k : Nat) : Nat → Int
  | 0 => -1
  | i + 1 => if k.testBit i then (i : Int) else find_last_set_loop k i

/-- The function `find_last_set(const fixed_size_mask<T, N> &k)`: the loop starts at
`i = N - 1`. -/
def find_last_set (N k : Nat) : Int := find_last_set_loop k N

/-- The loop in the operation of the instruction behind `_tzcnt_u32`: `tmp` runs up from
the given index while `tmp < 32` and bit `tmp` of the operand is clear; the argument
`fuel` is `32 - tmp`. -/
def tzcnt_loop (a : Nat) : Nat → Nat → Nat
  | 0, tmp => tmp
  | fuel + 1, tmp => if a.testBit tmp then tmp else tzcnt_loop a fuel (tmp + 1)

/-- The Intel intrinsic `_tzcnt_u32(a)`: the number of trailing zero bits of the 32-bit
operand, which is 32 for the operand zero. -/
def tzcnt_u32 (a : Nat) : Nat := tzcnt_loop a 32 0

/-- The loop in the operation of the instruction behind `_lzcnt_u32`: `tmp` runs down
while `tmp ≥ 0` and bit `tmp` of the operand is clear, and `dst` counts the steps; the
first argument is `tmp + 1`. -/
def lzcnt_loop (a : Nat) : Nat → Nat → Nat
  | 0, dst => dst
  | tmp + 1, dst => if a.testBit tmp then dst else lzcnt_loop a tmp (dst + 1)

/-- The Intel intrinsic `_lzcnt_u32(a)`: the number of leading zero bits of the 32-bit
operand, which is 32 for the operand zero. -/
def lzcnt_u32 (a : Nat) : Nat := lzcnt_loop a 32 0

/-- The generic function `find_first_set(mask<T, datapar_abi::avx512> k)` on the mask
integer `v`: `_tzcnt_u32(v)`, an `unsigned int`, returned as `int`. -/
def avx512.find_first_set (v : Nat) : Int := to_int (tzcnt_u32 (v % 2 ^ 32))

/-- The generic function `find_last_set(mask<T, datapar_abi::avx512> k)` on the mask
integer `v`: `31 - _lzcnt_u32(v)` in `unsigned int` arithmetic, returned as `int`. -/
def avx512.find_last_set (v : Nat) : Int :=
  to_int ((31 + (2 ^ 32 - lzcnt_u32 (v % 2 ^ 32))) % 2 ^ 32)

/-! ## Selection of the implementation in `compiler_detection.h` -/

/-- The macros that the selection logic of `compiler_detection.h` defines. -/
inductive Macro
  | Vc_IMPL_MIC
  | Vc_IMPL_NEON
  | Vc_IMPL_AVX2
  | Vc_IMPL_AVX
  | Vc_IMPL_SSE
  | Vc_IMPL_SSE2
  | Vc_IMPL_SSE3
  | Vc_IMPL_SSSE3
  | Vc_IMPL_SSE4_1
  | Vc_IMPL_SSE4_2
  | Vc_IMPL_Scalar
  | Vc_IMPL_FMA4
  | Vc_IMPL_XOP
  | Vc_IMPL_F16C
  | Vc_IMPL_POPCNT
  | Vc_IMPL_SSE4a
  | Vc_IMPL_FMA
  | Vc_IMPL_BMI2
  | Vc_USE_VEX_CODING
  | Vc_DEFAULT_IMPL_MIC
  | Vc_DEFAULT_IMPL_NEON
  | Vc_DEFAULT_IMPL_AVX2
  | Vc_DEFAULT_IMPL_AVX
  | Vc_DEFAULT_IMPL_SSE
  | Vc_DEFAULT_IMPL_Scalar
  deriving DecidableEq, Repr

/-- Which of the macros are defined at a point of the preprocessing. -/
abbrev Defined := Macro → Bool

/-- The directive `#define m`. -/
def define (m : Macro) (d : Defined) : Defined := fun x => if x = m then true else d x

/-- The directive `#define m` inside a conditional group `#if c ... #endif`. -/
def define_if (c : Bool) (m : Macro) (d : Defined) : Defined := if c then define m d else d

/-- The directive `#undef m`. -/
def undef (m : Macro) (d : Defined) : Defined := fun x => if x = m then false else d x

/-- The macros of the compiler that the selection logic tests, as they stand at
`#ifndef Vc_IMPL` (`__MIC__`, `__ARM_NEON`, `__AVX2__`, `__AVX__`, `__SSE4_2__`,
`__SSE4_1__`, `__SSE3__`, `__SSSE3__`, `__SSE2__`, `__FMA4__`, `__XOP__`, `__F16C__`,
`__POPCNT__`, `__SSE4A__`, `__FMA__`, `__BMI2__`), and the value of `Vc_CLANG` when it is
defined. None of the macros of `Macro` is defined before the selection. -/
structure Predefined where
  MIC : Bool
  ARM_NEON : Bool
  AVX2 : Bool
  AVX : Bool
  SSE4_2 : Bool
  SSE4_1 : Bool
  SSE3 : Bool
  SSSE3 : Bool
  SSE2 : Bool
  FMA4 : Bool
  XOP : Bool
  F16C : Bool
  POPCNT : Bool
  SSE4A : Bool
  FMA : Bool
  BMI2 : Bool
  Vc_CLANG : Option Nat
  deriving Repr

/-- The `#error` directives of the selection logic. -/
inductive ConfigError
  | no_suitable_implementation
  | sse_without_sse2
  | preprocessor_logic_broken
  deriving DecidableEq, Repr

/-- The constant `NoSIMD`. -/
def IMPL_NoSIMD : Nat := 0x00100000
/-- The constant `SSE`. -/
def IMPL_SSE : Nat := 0x00200000
/-- The constant `SSE2`. -/
def IMPL_SSE2 : Nat := 0x00300000
/-- The constant `SSE3`. -/
def IMPL_SSE3 : Nat := 0x00400000
/-- The constant `SSSE3`. -/
def IMPL_SSSE3 : Nat := 0x00500000
/-- The constant `SSE4_1`. -/
def IMPL_SSE4_1 : Nat := 0x00600000
/-- The constant `SSE4_2`. -/
def IMPL_SSE4_2 : Nat := 0x00700000
/-- The constant `AVX`. -/
def IMPL_AVX : Nat := 0x00800000
/-- The constant `AVX2`. -/
def IMPL_AVX2 : Nat := 0x00900000
/-- The constant `MIC`. -/
def IMPL_MIC : Nat := 0x00A00000
/-- The constant `NEON`. -/
def IMPL_NEON : Nat := 0x00B00000
/-- The constant `IMPL_MASK`. -/
def IMPL_MASK : Nat := 0xFFF00000

/-- The first part of the block `#ifndef Vc_IMPL ... #else`: the implementation chosen
from the macros of the compiler. -/
def select_from_compiler_impl (p : Predefined) : Defined :=
  let d0 : Defined := fun _ => false
  if p.MIC then define Macro.Vc_IMPL_MIC d0
  else if p.ARM_NEON then define Macro.Vc_IMPL_NEON d0
  else if p.AVX2 then define Macro.Vc_IMPL_AVX (define Macro.Vc_IMPL_AVX2 d0)
  else if p.AVX then define Macro.Vc_IMPL_AVX d0
  else
    let s1 := define_if p.SSE4_2 Macro.Vc_IMPL_SSE4_2 (define_if p.SSE4_2 Macro.Vc_IMPL_SSE d0)
    let s2 := define_if p.SSE4_1 Macro.Vc_IMPL_SSE4_1 (define_if p.SSE4_1 Macro.Vc_IMPL_SSE s1)
    let s3 := define_if p.SSE3 Macro.Vc_IMPL_SSE3 (define_if p.SSE3 Macro.Vc_IMPL_SSE s2)
    let s4 := define_if p.SSSE3 Macro.Vc_IMPL_SSSE3 (define_if p.SSSE3 Macro.Vc_IMPL_SSE s3)
    let s5 := define_if p.SSE2 Macro.Vc_IMPL_SSE2 (define_if p.SSE2 Macro.Vc_IMPL_SSE s4)
    define_if (!s5 Macro.Vc_IMPL_SSE) Macro.Vc_IMPL_Scalar s5

/-- The second part of the block `#ifndef Vc_IMPL ... #else`: the extension flags, under
`#if !defined(Vc_IMPL_Scalar)`. -/
def select_from_compiler_ext (p : Predefined) (d : Defined) : Defined :=
  let ns := !d Macro.Vc_IMPL_Scalar
  define_if (ns && p.BMI2) Macro.Vc_IMPL_BMI2 (define_if (ns && p.FMA) Macro.Vc_IMPL_FMA
    (define_if (ns && p.SSE4A) Macro.Vc_IMPL_SSE4a (define_if (ns && p.POPCNT) Macro.Vc_IMPL_POPCNT
      (define_if (ns && p.F16C) Macro.Vc_IMPL_F16C (define_if (ns && p.XOP) Macro.Vc_IMPL_XOP
        (define_if (ns && p.FMA4) Macro.Vc_IMPL_FMA4 d))))))

/-- The block `#ifndef Vc_IMPL ... #else`: the selection from the macros of the
compiler. -/
def select_from_compiler (p : Predefined) : Defined :=
  select_from_compiler_ext p (select_from_compiler_impl p)

/-- The first part of the block `#else // Vc_IMPL ... #endif`: the implementation chosen
from `Vc_IMPL & IMPL_MASK` for the value `v` of `Vc_IMPL`. -/
def select_from_Vc_IMPL_impl (v : Nat) (p : Predefined) : Defined :=
  let d0 : Defined := fun _ => false
  let m := v &&& IMPL_MASK
  if m = IMPL_MIC then
    define_if p.POPCNT Macro.Vc_IMPL_POPCNT (define Macro.Vc_IMPL_MIC d0)
  else if m = IMPL_NEON then define Macro.Vc_IMPL_NEON d0
  else if m = IMPL_AVX2 then define Macro.Vc_IMPL_AVX (define Macro.Vc_IMPL_AVX2 d0)
  else if m = IMPL_AVX then define Macro.Vc_IMPL_AVX d0
  else if m = IMPL_NoSIMD then define Macro.Vc_IMPL_Scalar d0
  else if m = IMPL_SSE4_2 then
    define Macro.Vc_IMPL_SSE (define Macro.Vc_IMPL_SSE2 (define Macro.Vc_IMPL_SSE3
      (define Macro.Vc_IMPL_SSSE3 (define Macro.Vc_IMPL_SSE4_1
        (define Macro.Vc_IMPL_SSE4_2 d0)))))
  else if m = IMPL_SSE4_1 then
    define Macro.Vc_IMPL_SSE (define Macro.Vc_IMPL_SSE2 (define Macro.Vc_IMPL_SSE3
      (define Macro.Vc_IMPL_SSSE3 (define Macro.Vc_IMPL_SSE4_1 d0))))
  else if m = IMPL_SSSE3 then
    define Macro.Vc_IMPL_SSE (define Macro.Vc_IMPL_SSE2 (define Macro.Vc_IMPL_SSE3
      (define Macro.Vc_IMPL_SSSE3 d0)))
  else if m = IMPL_SSE3 then
    define Macro.Vc_IMPL_SSE (define Macro.Vc_IMPL_SSE2 (define Macro.Vc_IMPL_SSE3 d0))
  else if m = IMPL_SSE2 then define Macro.Vc_IMPL_SSE (define Macro.Vc_IMPL_SSE2 d0)
  else if m = IMPL_SSE then
    define_if p.SSE2 Macro.Vc_IMPL_SSE2 (define_if p.SSSE3 Macro.Vc_IMPL_SSSE3
      (define_if p.SSE3 Macro.Vc_IMPL_SSE3 (define_if p.SSE4_1 Macro.Vc_IMPL_SSE4_1
        (define_if p.SSE4_2 Macro.Vc_IMPL_SSE4_2 (define Macro.Vc_IMPL_SSE d0)))))
  else if m = 0 ∧ v &&& 0x00000010 ≠ 0 then
    define Macro.Vc_IMPL_SSE (define Macro.Vc_IMPL_SSE2 (define Macro.Vc_IMPL_SSE3 d0))
  else d0

/-- The second part of the block `#else // Vc_IMPL ... #endif`: the extension flags from
the low bits of `Vc_IMPL` (`XOP`, `FMA4`, `F16C`, `POPCNT`, `SSE4a`, `FMA`, `BMI2`). -/
def select_from_Vc_IMPL_ext (v : Nat) (p : Predefined) (d : Defined) : Defined :=
  define_if (decide (v &&& 0x00000040 ≠ 0)) Macro.Vc_IMPL_BMI2
    (define_if (decide (v &&& 0x00000020 ≠ 0)) Macro.Vc_IMPL_FMA
      (define_if (decide (v &&& 0x00000010 ≠ 0)) Macro.Vc_IMPL_SSE4a
        (define_if ((!d Macro.Vc_IMPL_Scalar && p.POPCNT) || decide (v &&& 0x00000008 ≠ 0))
          Macro.Vc_IMPL_POPCNT
          (define_if (decide (v &&& 0x00000004 ≠ 0)) Macro.Vc_IMPL_F16C
            (define_if (decide (v &&& 0x00000002 ≠ 0)) Macro.Vc_IMPL_FMA4
              (define_if (decide (v &&& 0x00000001 ≠ 0)) Macro.Vc_IMPL_XOP d))))))

/-- The block `#else // Vc_IMPL ... #endif`: the selection from the value `v` of
`Vc_IMPL`. -/
def select_from_Vc_IMPL (v : Nat) (p : Predefined) : Defined :=
  select_from_Vc_IMPL_ext v p (select_from_Vc_IMPL_impl v p)

/-- The macros that only the selection of the implementation itself defines: the
implementation flags and the `Vc_DEFAULT_IMPL_*` macros, without the extension flags and
`Vc_USE_VEX_CODING`. -/
def Macro.is_implementation : Macro → Bool
  | Macro.Vc_IMPL_FMA4 => false
  | Macro.Vc_IMPL_XOP => false
  | Macro.Vc_IMPL_F16C => false
  | Macro.Vc_IMPL_POPCNT => false
  | Macro.Vc_IMPL_SSE4a => false
  | Macro.Vc_IMPL_FMA => false
  | Macro.Vc_IMPL_BMI2 => false
  | Macro.Vc_USE_VEX_CODING => false
  | _ => true

/-- The three blocks after the selection: `Vc_USE_VEX_CODING` under `__AVX__`, all SSE
flags under `Vc_IMPL_AVX`, and the fallback from AVX for clang 3.6.x. -/
def after_selection (p : Predefined) (d : Defined) : Defined :=
  let a1 := define_if p.AVX Macro.Vc_USE_VEX_CODING d
  let a2 :=
    if a1 Macro.Vc_IMPL_AVX then
      define Macro.Vc_IMPL_SSE (define Macro.Vc_IMPL_SSE2 (define Macro.Vc_IMPL_SSE3
        (define Macro.Vc_IMPL_SSSE3 (define Macro.Vc_IMPL_SSE4_1
          (define Macro.Vc_IMPL_SSE4_2 a1)))))
    else a1
  match p.Vc_CLANG with
  | some c =>
    if 0x30600 ≤ c ∧ c < 0x30700 then
      if a2 Macro.Vc_IMPL_AVX then
        let b1 := undef Macro.Vc_IMPL_AVX a2
        if b1 Macro.Vc_IMPL_AVX2 then undef Macro.Vc_IMPL_AVX2 b1 else b1
      else a2
    else a2
  | none => a2

/-- The configuration check: the `#error` directives for no implementation and for SSE
without SSE2. -/
def configuration_errors (d : Defined) : List ConfigError :=
  if !d Macro.Vc_IMPL_Scalar && !d Macro.Vc_IMPL_SSE && !d Macro.Vc_IMPL_AVX &&
      !d Macro.Vc_IMPL_MIC && !d Macro.Vc_IMPL_NEON then
    [ConfigError.no_suitable_implementation]
  else if d Macro.Vc_IMPL_SSE && !d Macro.Vc_IMPL_SSE2 then [ConfigError.sse_without_sse2]
  else []

/-- The chain that defines `Vc_DEFAULT_IMPL_*`, with its `#error` in the last branch. -/
def default_impl (d : Defined) : Defined × List ConfigError :=
  if d Macro.Vc_IMPL_MIC then (define Macro.Vc_DEFAULT_IMPL_MIC d, [])
  else if d Macro.Vc_IMPL_NEON then (define Macro.Vc_DEFAULT_IMPL_NEON d, [])
  else if d Macro.Vc_IMPL_AVX2 then (define Macro.Vc_DEFAULT_IMPL_AVX2 d, [])
  else if d Macro.Vc_IMPL_AVX then (define Macro.Vc_DEFAULT_IMPL_AVX d, [])
  else if d Macro.Vc_IMPL_SSE then (define Macro.Vc_DEFAULT_IMPL_SSE d, [])
  else if d Macro.Vc_IMPL_Scalar then (define Macro.Vc_DEFAULT_IMPL_Scalar d, [])
  else (d, [ConfigError.preprocessor_logic_broken])

/-- The selection logic of `compiler_detection.h` from `#ifndef Vc_IMPL` to the
definition of `Vc_DEFAULT_IMPL_*`, for a value of `Vc_IMPL` (or none) and the macros of
the compiler: the final set of defined macros and the `#error` directives that are
reached. -/
def configure (Vc_IMPL : Option Nat) (p : Predefined) : Defined × List ConfigError :=
  let d1 :=
    match Vc_IMPL with
    | none => select_from_compiler p
    | some v => select_from_Vc_IMPL v p
  let d2 := after_selection p d1
  let r := default_impl d2
  (r.1, configuration_errors d2 ++ r.2)

/-- The `Vc_DEFAULT_IMPL_*` macros. -/
def default_impl_macros : List Macro :=
  [Macro.Vc_DEFAULT_IMPL_MIC, Macro.Vc_DEFAULT_IMPL_NEON, Macro.Vc_DEFAULT_IMPL_AVX2,
    Macro.Vc_DEFAULT_IMPL_AVX, Macro.Vc_DEFAULT_IMPL_SSE, Macro.Vc_DEFAULT_IMPL_Scalar]

/-- The state of the macros right after the selection blocks: `Vc_IMPL_AVX2` comes with
`Vc_IMPL_AVX`, and no `Vc_DEFAULT_IMPL_*` macro is defined yet. -/
def selection_ok (d : Defined) : Prop :=
  (d Macro.Vc_IMPL_AVX2 = true → d Macro.Vc_IMPL_AVX = true) ∧
  ∀ m, m ∈ default_impl_macros → d m = false

/-- A compiler that predefines none of the tested macros. -/
def plain_compiler : Predefined :=
  ⟨false, false, false, false, false, false, false, false, false, false, false, false, false,
    false, false, false, none⟩

/-- A compiler (not clang) invoked for AVX2 that predefines `__AVX2__`, `__AVX__` and
`__SSE2__`. -/
def avx2_compiler : Predefined :=
  { plain_compiler with AVX2 := true, AVX := true, SSE2 := true }

/-! ## Loads of AVX-512 masks -/

/-- Modelled from the spec: `detail::load16(mem, f)`, `detail::load32(mem, f)` and
`detail::load64(mem, f)` (declared outside the given sources) read the `n` bytes at
`mem + p` into a vector register; a read past the end of the buffer is an error. -/
def load_bytes (n : Nat) (mem : List Nat) (p : Nat) : Option (List Nat) := native_load n mem p

/-- The Intel intrinsic `_mm_loadl_epi64(mem)`: the 8 bytes at `mem + p` in the low half of
a 128-bit register, zeros in the high half. -/
def mm_loadl_epi64 (mem : List Nat) (p : Nat) : Option (List Nat) :=
  (native_load 8 mem p).map (fun l => l ++ List.replicate 8 0)

/-- Sign extension of a byte to `w` bits, as a bit pattern. -/
def sign_extend_byte (w : Nat) (b : Nat) : Nat :=
  if b % 256 < 128 then b % 256 else b % 256 + (2 ^ w - 256)

/-- The Intel intrinsic `_mm512_cvtepi8_epi32(a)`: the 16 bytes of `a` sign-extended to 16
lanes of 32 bits. -/
def mm512_cvtepi8_epi32 (a : List Nat) : List Nat := (a.take 16).map (sign_extend_byte 32)

/-- The Intel intrinsic `_mm512_cvtepi8_epi64(a)`: the low 8 bytes of `a` sign-extended to
8 lanes of 64 bits. -/
def mm512_cvtepi8_epi64 (a : List Nat) : List Nat := (a.take 8).map (sign_extend_byte 64)

/-- The Intel intrinsics `_mm512_test_epi32_mask(a, b)`, `_mm512_test_epi64_mask(a, b)`,
`_mm_test_epi8_mask(a, b)`, `_mm256_test_epi8_mask(a, b)` and `_mm512_test_epi8_mask(a, b)`
on registers given as lists of lanes: bit `i` of the result is set when the bitwise AND of
lane `i` of `a` and lane `i` of `b` is not zero. -/
def test_mask (a b : List Nat) : Nat :=
  bits_to_nat (List.zipWith (fun x y => decide (x &&& y ≠ 0)) a b)

/-- The expression `m << k` for a mask `m` of type `__mmask16`, which is promoted to `int`:
the behaviour is undefined when `k` is not below the width of `int` (32) or the result is
not representable in `unsigned int`; the result is given as its 32-bit pattern. -/
def int_shl (m k : Nat) : Option Nat :=
  if k < 32 ∧ m * 2 ^ k < 2 ^ 32 then some (m * 2 ^ k) else none

/-- Conversion of an `int`, given as its 32-bit pattern, to `__mmask64`: the sign bit is
extended. -/
def int_to_mmask64 (x : Nat) : Nat := if x < 2 ^ 31 then x else x + (2 ^ 64 - 2 ^ 32)

/-- The member `avx512_mask_impl::load(mem, f, size_tag<8>)`; `bw_vl` stands for
`Vc_HAVE_AVX512VL && Vc_HAVE_AVX512BW`. The result of `_mm_test_epi8_mask` is cut to the
return type `__mmask8`. -/
def avx512_mask_impl.load_8 (bw_vl : Bool) (mem : List Nat) : Option Nat :=
  match mm_loadl_epi64 mem 0 with
  | none => none
  | some a =>
    if bw_vl then some (test_mask a a % 2 ^ 8)
    else
      let b := mm512_cvtepi8_epi64 a
      some (test_mask b b)

/-- The member `avx512_mask_impl::load(mem, f, size_tag<16>)`. -/
def avx512_mask_impl.load_16 (bw_vl : Bool) (mem : List Nat) : Option Nat :=
  match load_bytes 16 mem 0 with
  | none => none
  | some a =>
    if bw_vl then some (test_mask a a)
    else
      let b := mm512_cvtepi8_epi32 a
      some (test_mask b b)

/-- The member `avx512_mask_impl::load(mem, f, size_tag<32>)`: without AVX512BW the mask
of the second block is shifted by 16 as an `int` and the result is converted to
`__mmask32`. -/
def avx512_mask_impl.load_32 (bw_vl : Bool) (mem : List Nat) : Option Nat :=
  if bw_vl then
    match load_bytes 32 mem 0 with
    | none => none
    | some a => some (test_mask a a)
  else
    match load_bytes 16 mem 0, load_bytes 16 mem 16 with
    | some la, some lb =>
      let a := mm512_cvtepi8_epi32 la
      let b := mm512_cvtepi8_epi32 lb
      match int_shl (test_mask b b) 16 with
      | some s => some ((test_mask a a ||| s) % 2 ^ 32)
      | none => none
    | _, _ => none

/-- The member `avx512_mask_impl::load(mem, f, size_tag<64>)`; `bw` stands for
`Vc_HAVE_AVX512BW`. Without AVX512BW the four blocks of 16 bytes are loaded as `a`, `b`,
`c`, `d`, and the returned expression is
`test(a, a) | (test(b, b) << 16) | (test(b, b) << 32) | (test(b, b) << 48)` on `int`
operands, converted to `__mmask64`: `c` and `d` are not used. The parameter `shl` is the
shift of the promoted mask, which C++ leaves undefined for the counts 32 and 48
(`int_shl`). -/
def avx512_mask_impl.load_64 (bw : Bool) (shl : Nat → Nat → Option Nat) (mem : List Nat) :
    Option Nat :=
  if bw then
    match load_bytes 64 mem 0 with
    | none => none
    | some a => some (test_mask a a)
  else
    match load_bytes 16 mem 0, load_bytes 16 mem 16, load_bytes 16 mem 32,
      load_bytes 16 mem 48 with
    | some la, some lb, some _, some _ =>
      let a := mm512_cvtepi8_epi32 la
      let b := mm512_cvtepi8_epi32 lb
      match shl (test_mask b b) 16, shl (test_mask b b) 32, shl (test_mask b b) 48 with
      | some s1, some s2, some s3 => some (int_to_mmask64 (test_mask a a ||| s1 ||| s2 ||| s3))
      | _, _, _ => none
    | _, _, _, _ => none

/-- The bit law of the specification for a mask load of `n` lanes: bit `i` is set exactly
when `mem[i]` is not zero. -/
def spec_mask_load (n : Nat) (mem : List Nat) : Nat :=
  bits_to_nat ((mem.take n).map (fun b => decide (b ≠ 0)))

/-- A buffer of 64 bools in which only `mem[i]` is true. -/
def only_true (i : Nat) : List Nat := (List.range 64).map (fun j => if j = i then 1 else 0)

/-! # Theorems -/

/-! ## Selector and builder: helper lemmas -/

theorem to_size_t_of_int_range (N : Int) (h0 : 0 ≤ N) (hN : N < 2 ^ 31) :
    to_size_t N = N.toNat := by
  unfold to_size_t
  rw [Int.emod_eq_of_lt h0 (by omega)]

theorem to_int_of_small (w : Nat) (hw : (w : Int) < 2 ^ 31) : to_int w = (w : Int) := by
  unfold to_int
  omega

/-- A tier passes the test `N >= V::value` exactly when it is usable and its lane
count is at most `N` (for `N` in the non-negative `int` range). -/
theorem V_value_le_iff (reg : Registry) (N : Int) (h0 : 0 ≤ N) (hN : N < 2 ^ 31) (A : Abi) :
    to_size_t N ≥ V_value reg A ↔ ∃ w, reg A = some w ∧ (w : Int) ≤ N := by
  rw [to_size_t_of_int_range N h0 hN]
  unfold V_value
  cases h : reg A with
  | none =>
    simp only [dummy_value, false_and, exists_false, iff_false, reduceCtorEq]
    omega
  | some w =>
    simp only [Option.some.injEq, exists_eq_left']
    omega

theorem select_best_fits (reg : Registry) (hok : reg.ok) (N : Int) (h1 : 1 ≤ N)
    (hN : N < 2 ^ 31) :
    ∃ w, reg (select_best_vector_type_t reg N) = some w ∧ 1 ≤ w ∧ (w : Int) ≤ N := by
  have key : ∀ A, to_size_t N ≥ V_value reg A → ∃ w, reg A = some w ∧ 1 ≤ w ∧ (w : Int) ≤ N := by
    intro A hA
    obtain ⟨w, hw, hle⟩ := (V_value_le_iff reg N (by omega) hN A).1 hA
    exact ⟨w, hw, hok.2 A w hw, hle⟩
  unfold select_best_vector_type_t
  simp only [select_best_vector_type]
  split_ifs with h1 h2 h3 h4
  · exact key _ h1
  · exact key _ h2
  · exact key _ h3
  · exact key _ h4
  · exact ⟨1, hok.1, le_refl 1, by omega⟩

/-- The tuple built by `fixed_size_storage_builder` is the accumulated tuple followed
by the `Next` arguments of the instantiation chain. -/
theorem builder_eq_steps (reg : Registry) (fuel : Nat) :
    ∀ (N : Int) (As : List Abi), fixed_size_storage_builder reg fuel N As =
      (builder_steps reg fuel N).map (fun steps => As ++ steps.map BuilderStep.Next) := by
  induction fuel with
  | zero => intro N As; rfl
  | succ fuel ih =>
    intro N As
    simp only [fixed_size_storage_builder, builder_steps]
    cases h : reg (select_best_vector_type_t reg N) with
    | none => rfl
    | some w =>
      simp only
      split_ifs with h0
      · rfl
      · rw [ih]
        cases builder_steps reg fuel (N - to_int w) with
        | none => rfl
        | some rest => simp

/-- The chain of instantiations for a request of `N ≥ 1` lanes exists whenever the
instantiation depth is at least `N`, and has the expected bookkeeping. -/
theorem builder_steps_spec (reg : Registry) (hok : reg.ok) (fuel : Nat) :
    ∀ (N : Int), 1 ≤ N → N < 2 ^ 31 → N ≤ fuel →
      ∃ steps, builder_steps reg fuel N = some steps ∧
        steps.head?.map BuilderStep.N = some N ∧
        steps.getLast?.map BuilderStep.Remain = some 0 ∧
        List.Chain' (fun s t : BuilderStep => t.N = s.Remain) steps ∧
        (∀ s ∈ steps, 1 ≤ lanes reg s.Next ∧ (lanes reg s.Next : Int) ≤ s.N ∧
          s.Remain = s.N - lanes reg s.Next ∧ reg s.Next = some (lanes reg s.Next)) ∧
        (total_lanes reg (steps.map BuilderStep.Next) : Int) = N ∧
        (steps.length : Int) ≤ N := by
  induction fuel with
  | zero => intro N h1 _ hf; simp at hf; omega
  | succ fuel ih =>
    intro N h1 hN hf
    obtain ⟨w, hw, hw1, hwN⟩ := select_best_fits reg hok N h1 hN
    have hint : to_int w = (w : Int) := to_int_of_small w (by omega)
    have hl : lanes reg (select_best_vector_type_t reg N) = w := by simp [lanes, hw]
    simp only [builder_steps, hw, hint]
    by_cases h0 : N - (w : Int) = 0
    · simp only [h0, if_true]
      refine ⟨[⟨N, select_best_vector_type_t reg N, 0⟩], rfl, rfl, rfl,
        List.chain'_singleton _, ?_, ?_, ?_⟩
      · intro s hs
        simp only [List.mem_singleton] at hs
        subst hs
        simp only [hl]
        exact ⟨hw1, hwN, by omega, hw⟩
      · simp [total_lanes, hl]; omega
      · simp; omega
    · simp only [h0, if_false]
      have hcast : ((fuel + 1 : Nat) : Int) = (fuel : Int) + 1 := by push_cast; rfl
      obtain ⟨rest, hrest, hhead, hlast, hchain, hall, hsum, hlen⟩ :=
        ih (N - w) (by omega) (by omega) (by omega)
      refine ⟨⟨N, select_best_vector_type_t reg N, N - w⟩ :: rest, by rw [hrest]; rfl, by simp,
        ?_, ?_, ?_, ?_, ?_⟩
      · cases rest with
        | nil => simp at hhead
        | cons r rs => simpa [List.getLast?_cons_cons] using hlast
      · cases rest with
        | nil => simp at hhead
        | cons r rs =>
          simp only [List.head?_cons, Option.map_some', Option.some.injEq] at hhead
          exact List.Chain'.cons hhead hchain
      · intro s hs
        rcases List.mem_cons.1 hs with rfl | hs
        · simp only [hl]
          exact ⟨hw1, hwN, trivial, hw⟩
        · exact hall s hs
      · simp only [total_lanes, List.map_cons, List.sum_cons, hl] at hsum ⊢
        rw [Nat.cast_add]
        omega
      · simp only [List.length_cons]
        push_cast
        omega

theorem chunk_offsets_length (reg : Registry) (As : List Abi) :
    ∀ off, (chunk_offsets reg off As).length = As.length := by
  induction As with
  | nil => intro off; rfl
  | cons A As ih => intro off; simp [chunk_offsets, ih]

/-- The offset of chunk `i` is the start offset plus the lanes of the chunks before it. -/
theorem chunk_offsets_getElem? (reg : Registry) (As : List Abi) :
    ∀ (off i : Nat), i < As.length →
      (chunk_offsets reg off As)[i]? = some (off + total_lanes reg (As.take i)) := by
  induction As with
  | nil => intro off i hi; simp at hi
  | cons A As ih =>
    intro off i hi
    cases i with
    | zero => simp [chunk_offsets, total_lanes]
    | succ i =>
      simp only [List.length_cons, Nat.add_lt_add_iff_right] at hi
      simp only [chunk_offsets, List.getElem?_cons_succ, ih _ i hi, List.take_succ_cons,
        total_lanes, List.map_cons, List.sum_cons, Option.some.injEq]
      omega

theorem chunk_offsets_getD (reg : Registry) (As : List Abi) (off i : Nat) (hi : i < As.length) :
    (chunk_offsets reg off As).getD i 0 = off + total_lanes reg (As.take i) := by
  rw [List.getD_eq_getElem?_getD, chunk_offsets_getElem? reg As off i hi]
  rfl

theorem total_lanes_take_succ (reg : Registry) (As : List Abi) (i : Nat) (hi : i < As.length) :
    total_lanes reg (As.take (i + 1)) =
      total_lanes reg (As.take i) + lanes reg (As.getD i Abi.scalar) := by
  induction As generalizing i with
  | nil => simp at hi
  | cons A As ih =>
    cases i with
    | zero => simp [total_lanes]
    | succ i =>
      simp only [List.length_cons, Nat.add_lt_add_iff_right] at hi
      have := ih i hi
      simp only [total_lanes, List.take_succ_cons, List.map_cons, List.sum_cons,
        List.getD_cons_succ] at this ⊢
      omega

/-- In a linked chain of instantiations the `N` argument of step `i` is the request
minus the lanes already assigned by the steps before it. -/
theorem steps_N_eq (reg : Registry) (steps : List BuilderStep) :
    ∀ (N : Int), steps.head?.map BuilderStep.N = some N →
      List.Chain' (fun s t : BuilderStep => t.N = s.Remain) steps →
      (∀ s ∈ steps, s.Remain = s.N - lanes reg s.Next) →
      ∀ i s, steps[i]? = some s →
        s.N = N - total_lanes reg ((steps.map BuilderStep.Next).take i) := by
  induction steps with
  | nil => intro N h; simp at h
  | cons a rest ih =>
    intro N hhead hchain hall i s hs
    simp only [List.head?_cons, Option.map_some', Option.some.injEq] at hhead
    cases i with
    | zero =>
      simp only [List.getElem?_cons_zero, Option.some.injEq] at hs
      subst hs
      simp [total_lanes, hhead]
    | succ i =>
      simp only [List.getElem?_cons_succ] at hs
      cases rest with
      | nil => simp at hs
      | cons b rest2 =>
        have hb : b.N = a.Remain := (List.chain'_cons.1 hchain).1
        have hrem := hall a (List.mem_cons_self _ _)
        have := ih b.N (by simp) (List.chain'_cons.1 hchain).2
          (fun s hs => hall s (List.mem_cons_of_mem _ hs)) i s hs
        rw [this, hb, hrem, hhead]
        simp only [total_lanes, List.map_cons, List.take_succ_cons, List.sum_cons, Nat.cast_add]
        omega

theorem float_registry_ok (have_avx : Bool) : (float_registry have_avx).ok := by
  refine ⟨rfl, ?_⟩
  intro A w h
  cases A <;> cases have_avx <;> simp [float_registry] at h <;> omega

theorem ge_V_value_iff_fits (reg : Registry) (N : Int) (h0 : 0 ≤ N) (hN : N < 2 ^ 31)
    (A : Abi) : to_size_t N ≥ V_value reg A ↔ fits reg N A = true := by
  rw [V_value_le_iff reg N h0 hN A]
  unfold fits
  cases reg A with
  | none => simp
  | some w => simp

theorem select_eq_first_fit (reg : Registry) (R : Int) (h0 : 0 ≤ R) (hR : R < 2 ^ 31) :
    select_best_vector_type_t reg R = spec_first_fit reg R := by
  simp only [select_best_vector_type_t, select_best_vector_type, spec_first_fit,
    priority_order, List.find?, ge_V_value_iff_fits reg R h0 hR]
  cases fits reg R Abi.avx512 <;> cases fits reg R Abi.avx <;> cases fits reg R Abi.neon <;>
    cases fits reg R Abi.sse <;> cases fits reg R Abi.scalar <;> rfl

/-- No tier ahead of the selected one fits. -/
theorem not_fits_before_first_fit (reg : Registry) (R : Int) (A : Abi)
    (hA : priority_index A < priority_index (spec_first_fit reg R)) : fits reg R A = false := by
  simp only [spec_first_fit, priority_order, List.find?] at hA
  cases h1 : fits reg R Abi.avx512 <;> cases h2 : fits reg R Abi.avx <;>
    cases h3 : fits reg R Abi.neon <;> cases h4 : fits reg R Abi.sse <;>
    cases h5 : fits reg R Abi.scalar <;> simp only [h1, h2, h3, h4, h5] at hA <;>
    cases A <;> first | assumption | (exfalso; revert hA; decide)

/-- The selected tier fits unless it is the unconditional `scalar` fallback. -/
theorem first_fit_fits_or_scalar (reg : Registry) (R : Int) :
    fits reg R (spec_first_fit reg R) = true ∨ spec_first_fit reg R = Abi.scalar := by
  simp only [spec_first_fit, priority_order, List.find?]
  cases h1 : fits reg R Abi.avx512 <;> cases h2 : fits reg R Abi.avx <;>
    cases h3 : fits reg R Abi.neon <;> cases h4 : fits reg R Abi.sse <;>
    cases h5 : fits reg R Abi.scalar <;> simp [h1, h2, h3, h4, h5]

theorem fits_iff (reg : Registry) (R : Int) (A : Abi) :
    fits reg R A = true ↔ ∃ w, reg A = some w ∧ (w : Int) ≤ R := by
  unfold fits
  cases reg A with
  | none => simp
  | some w => simp

/-! ## Claims about the shape selection -/

/-- C1: for a registry whose scalar tier has one lane (and whose usable tiers have
positive lane counts) and every `N ≥ 1`, `fixed_size_storage<T, N>` exists, its chunk
widths sum to `N`, the chunk offsets start at `0`, are contiguous and strictly
increasing, and each chunk is no wider than the lanes still unassigned (`N` minus its
offset, which is the `N` argument of the instantiation that chooses it). -/
theorem fixed_size_storage_covers (reg : Registry) (hok : reg.ok) (N : Int) (h1 : 1 ≤ N)
    (hN : N < 2 ^ 31) (fuel : Nat) (hf : N ≤ fuel) :
    ∃ As steps, fixed_size_storage reg fuel N = some As ∧
      builder_steps reg fuel N = some steps ∧ steps.map BuilderStep.Next = As ∧
      (total_lanes reg As : Int) = N ∧
      (chunk_offsets reg 0 As).head? = some 0 ∧
      (∀ i, i + 1 < As.length →
        (chunk_offsets reg 0 As).getD (i + 1) 0 =
          (chunk_offsets reg 0 As).getD i 0 + lanes reg (As.getD i Abi.scalar) ∧
        (chunk_offsets reg 0 As).getD i 0 < (chunk_offsets reg 0 As).getD (i + 1) 0) ∧
      (∀ i s, steps[i]? = some s →
        s.N = N - (chunk_offsets reg 0 As).getD i 0 ∧ (lanes reg s.Next : Int) ≤ s.N) := by
  obtain ⟨steps, hsteps, hhead, hlast, hchain, hall, hsum, hlen⟩ :=
    builder_steps_spec reg hok fuel N h1 hN hf
  refine ⟨steps.map BuilderStep.Next, steps, ?_, hsteps, rfl, hsum, ?_, ?_, ?_⟩
  · simp [fixed_size_storage, builder_eq_steps, hsteps]
  · cases steps with
    | nil => simp at hhead
    | cons a rest => simp [chunk_offsets]
  · intro i hi
    rw [chunk_offsets_getD reg _ 0 (i + 1) hi, chunk_offsets_getD reg _ 0 i (by omega),
      total_lanes_take_succ reg _ i (by omega)]
    have hmem : (steps.map BuilderStep.Next).getD i Abi.scalar ∈ steps.map BuilderStep.Next := by
      rw [List.getD_eq_getElem _ _ (by omega)]
      exact List.getElem_mem _
    obtain ⟨s, hs, hsn⟩ := List.mem_map.1 hmem
    have := (hall s hs).1
    rw [hsn] at this
    omega
  · intro i s his
    have hi : i < steps.length := by
      by_contra hcon
      rw [List.getElem?_eq_none (by omega)] at his
      exact absurd his (by simp)
    have hmem : s ∈ steps := List.getElem?_mem his
    rw [chunk_offsets_getD reg _ 0 i (by simpa using hi)]
    have hNi := steps_N_eq reg steps N hhead hchain (fun s hs => (hall s hs).2.2.1) i s his
    refine ⟨by rw [hNi]; omega, (hall s hmem).2.1⟩

/-- Instance of C1: `float` with AVX and SSE, `N = 13`. -/
theorem fixed_size_storage_covers_witness :
    ∃ As steps, fixed_size_storage (float_registry true) 13 13 = some As ∧
      builder_steps (float_registry true) 13 13 = some steps ∧
      steps.map BuilderStep.Next = As ∧
      (total_lanes (float_registry true) As : Int) = 13 ∧
      (chunk_offsets (float_registry true) 0 As).head? = some 0 ∧
      (∀ i, i + 1 < As.length →
        (chunk_offsets (float_registry true) 0 As).getD (i + 1) 0 =
          (chunk_offsets (float_registry true) 0 As).getD i 0 +
            lanes (float_registry true) (As.getD i Abi.scalar) ∧
        (chunk_offsets (float_registry true) 0 As).getD i 0 <
          (chunk_offsets (float_registry true) 0 As).getD (i + 1) 0) ∧
      (∀ i s, steps[i]? = some s →
        s.N = (13 : Int) - (chunk_offsets (float_registry true) 0 As).getD i 0 ∧
          (lanes (float_registry true) s.Next : Int) ≤ s.N) :=
  fixed_size_storage_covers (float_registry true) (float_registry_ok true) 13 (by decide)
    (by decide) 13 (by decide)

/-- C4: for every `N ≥ 1` the recursion of `fixed_size_storage_builder` terminates
within `N` instantiations: the chain starts at `N`, each step passes its `Remain` on
as the next `N`, every `Remain` is non-negative and strictly below its `N`, the last
`Remain` is exactly `0`, and at most `N` chunks are emitted. -/
theorem fixed_size_storage_builder_terminates (reg : Registry) (hok : reg.ok) (N : Int)
    (h1 : 1 ≤ N) (hN : N < 2 ^ 31) (fuel : Nat) (hf : N ≤ fuel) :
    ∃ As steps, fixed_size_storage reg fuel N = some As ∧
      builder_steps reg fuel N = some steps ∧ As = steps.map BuilderStep.Next ∧
      steps.head?.map BuilderStep.N = some N ∧
      List.Chain' (fun s t : BuilderStep => t.N = s.Remain) steps ∧
      (∀ s ∈ steps, 0 ≤ s.Remain ∧ s.Remain < s.N) ∧
      steps.getLast?.map BuilderStep.Remain = some 0 ∧
      (As.length : Int) ≤ N := by
  obtain ⟨steps, hsteps, hhead, hlast, hchain, hall, hsum, hlen⟩ :=
    builder_steps_spec reg hok fuel N h1 hN hf
  refine ⟨steps.map BuilderStep.Next, steps, ?_, hsteps, rfl, hhead, hchain, ?_, hlast, ?_⟩
  · simp [fixed_size_storage, builder_eq_steps, hsteps]
  · intro s hs
    obtain ⟨hpos, hle, hrem, -⟩ := hall s hs
    omega
  · simpa using hlen

/-- Instance of C4: `float` with SSE only, `N = 7`, instantiation depth `7`. -/
theorem fixed_size_storage_builder_terminates_witness :
    ∃ As steps, fixed_size_storage (float_registry false) 7 7 = some As ∧
      builder_steps (float_registry false) 7 7 = some steps ∧
      As = steps.map BuilderStep.Next ∧
      steps.head?.map BuilderStep.N = some 7 ∧
      List.Chain' (fun s t : BuilderStep => t.N = s.Remain) steps ∧
      (∀ s ∈ steps, 0 ≤ s.Remain ∧ s.Remain < s.N) ∧
      steps.getLast?.map BuilderStep.Remain = some 0 ∧
      (As.length : Int) ≤ 7 :=
  fixed_size_storage_builder_terminates (float_registry false) (float_registry_ok false) 7
    (by decide) (by decide) 7 (by decide)

/-- C2: for every remaining count `R ≥ 1` (an `int`), `select_best_vector_type_t<T, R>`
is the first ABI in the order avx512, avx, neon, sse, scalar that is available and has
lane count `≤ R`, and scalar when none fits; of two fitting tiers with equal width the
later one is never selected (of any two available tiers with equal width when the
scalar tier has one lane); and when the scalar tier has one lane and the available
widths are non-increasing along the order, the selected tier fits and no fitting tier
is wider. -/
theorem select_best_is_first_fit (reg : Registry) (R : Int) (h1 : 1 ≤ R) (hR : R < 2 ^ 31) :
    select_best_vector_type_t reg R = spec_first_fit reg R ∧
    (∀ A, priority_index A < priority_index (select_best_vector_type_t reg R) →
      fits reg R A = false) ∧
    (fits reg R (select_best_vector_type_t reg R) = true ∨
      select_best_vector_type_t reg R = Abi.scalar) ∧
    (∀ A B w, reg A = some w → reg B = some w → (w : Int) ≤ R →
      priority_index A < priority_index B → select_best_vector_type_t reg R ≠ B) ∧
    (reg Abi.scalar = some 1 →
      (∀ A B wa wb, reg A = some wa → reg B = some wb →
        priority_index A < priority_index B → wb ≤ wa) →
      fits reg R (select_best_vector_type_t reg R) = true ∧
      ∀ B, fits reg R B = true →
        lanes reg B ≤ lanes reg (select_best_vector_type_t reg R)) ∧
    (reg Abi.scalar = some 1 → ∀ A B w, reg A = some w → reg B = some w →
      priority_index A < priority_index B → select_best_vector_type_t reg R ≠ B) := by
  have heq := select_eq_first_fit reg R (by omega) hR
  rw [heq]
  have htie : ∀ A B w, reg A = some w → reg B = some w → (w : Int) ≤ R →
      priority_index A < priority_index B → spec_first_fit reg R ≠ B := by
    intro A B w hA hB hw hlt hsel
    have hfit : fits reg R A = true := (fits_iff reg R A).2 ⟨w, hA, hw⟩
    rw [← hsel] at hlt
    rw [not_fits_before_first_fit reg R A hlt] at hfit
    exact absurd hfit (by simp)
  have hselfit : reg Abi.scalar = some 1 → fits reg R (spec_first_fit reg R) = true := by
    intro hscalar
    rcases first_fit_fits_or_scalar reg R with h | h
    · exact h
    · rw [h]
      exact (fits_iff reg R Abi.scalar).2 ⟨1, hscalar, by omega⟩
  refine ⟨rfl, fun A hA => not_fits_before_first_fit reg R A hA,
    first_fit_fits_or_scalar reg R, htie, ?_, ?_⟩
  swap
  · intro hscalar A B w hA hB hlt hsel
    have hfitB := hselfit hscalar
    rw [hsel] at hfitB
    obtain ⟨w2, hw2, hle⟩ := (fits_iff reg R B).1 hfitB
    rw [hB] at hw2
    simp only [Option.some.injEq] at hw2
    subst hw2
    exact htie A B w hA hB hle hlt hsel
  · intro hscalar hmono
    have hsel : fits reg R (spec_first_fit reg R) = true := by
      rcases first_fit_fits_or_scalar reg R with h | h
      · exact h
      · rw [h]
        exact (fits_iff reg R Abi.scalar).2 ⟨1, hscalar, by omega⟩
    refine ⟨hsel, ?_⟩
    intro B hB
    obtain ⟨ws, hws, -⟩ := (fits_iff reg R _).1 hsel
    obtain ⟨wb, hwb, -⟩ := (fits_iff reg R B).1 hB
    simp only [lanes, hws, hwb, Option.getD_some]
    rcases Nat.lt_trichotomy (priority_index B) (priority_index (spec_first_fit reg R)) with
      hlt | heq2 | hgt
    · rw [not_fits_before_first_fit reg R B hlt] at hB
      exact absurd hB (by simp)
    · have hBe : B = spec_first_fit reg R := by
        revert heq2
        cases B <;> cases spec_first_fit reg R <;> decide
      rw [hBe, hws] at hwb
      simp only [Option.some.injEq] at hwb
      omega
    · exact hmono _ _ _ _ hws hwb hgt

/-- Instance of C2: `float` with AVX and SSE, `R = 5` selects `sse`. -/
theorem select_best_is_first_fit_witness :
    (1 : Int) ≤ 5 ∧ select_best_vector_type_t (float_registry true) 5 = Abi.sse := by
  refine ⟨by decide, ?_⟩
  rw [(select_best_is_first_fit (float_registry true) 5 (by decide) (by decide)).1]
  decide

theorem float_select (have_avx : Bool) (N : Nat) (hN : (N : Int) < 2 ^ 31) :
    select_best_vector_type_t (float_registry have_avx) N =
      if have_avx = true ∧ 8 ≤ N then Abi.avx else if 4 ≤ N then Abi.sse
      else if 1 ≤ N then Abi.scalar else Abi.scalar := by
  rw [select_eq_first_fit _ _ (by omega) hN]
  by_cases h8 : 8 ≤ N <;> by_cases h4 : 4 ≤ N <;> by_cases h1 : 1 ≤ N <;> cases have_avx <;>
    simp [spec_first_fit, priority_order, List.find?, fits, float_registry, h8, h4, h1]

theorem spec_float_storage_avx (N : Nat) (h : 8 ≤ N) :
    spec_float_storage true N = Abi.avx :: spec_float_storage true (N - 8) := by
  have h1 : N / 8 = (N - 8) / 8 + 1 := by omega
  have h2 : N % 8 = (N - 8) % 8 := by omega
  have h3 : N % 4 = (N - 8) % 4 := by omega
  simp only [spec_float_storage, if_true, h1, h2, h3, List.replicate_succ, List.cons_append]

theorem spec_float_storage_sse (have_avx : Bool) (N : Nat) (h : 4 ≤ N)
    (h8 : have_avx = true → N < 8) :
    spec_float_storage have_avx N = Abi.sse :: spec_float_storage have_avx (N - 4) := by
  have h3 : N % 4 = (N - 4) % 4 := by omega
  cases have_avx with
  | false =>
    have h1 : N / 4 = (N - 4) / 4 + 1 := by omega
    simp [spec_float_storage, h1, h3, List.replicate_succ]
  | true =>
    have h8 := h8 rfl
    have h1 : N / 8 = 0 := by omega
    have h1b : (N - 4) / 8 = 0 := by omega
    have h2 : N % 8 / 4 = 1 := by omega
    have h2b : (N - 4) % 8 / 4 = 0 := by omega
    simp [spec_float_storage, h1, h1b, h2, h2b, h3]

theorem spec_float_storage_scalar (have_avx : Bool) (N : Nat) (h1 : 1 ≤ N) (h : N < 4) :
    spec_float_storage have_avx N = Abi.scalar :: spec_float_storage have_avx (N - 1) := by
  have e1 : N / 8 = 0 := by omega
  have e2 : N % 8 / 4 = 0 := by omega
  have e3 : N / 4 = 0 := by omega
  have e4 : (N - 1) / 8 = 0 := by omega
  have e5 : (N - 1) % 8 / 4 = 0 := by omega
  have e6 : (N - 1) / 4 = 0 := by omega
  have e7 : N % 4 = (N - 1) % 4 + 1 := by omega
  cases have_avx <;> simp [spec_float_storage, e1, e2, e3, e4, e5, e6, e7, List.replicate_succ]

theorem spec_float_storage_zero (have_avx : Bool) : spec_float_storage have_avx 0 = [] := by
  cases have_avx <;> simp [spec_float_storage]

theorem float_builder_shape (have_avx : Bool) (fuel : Nat) :
    ∀ (N : Nat) (As : List Abi), 1 ≤ N → (N : Int) < 2 ^ 31 → N ≤ fuel →
      fixed_size_storage_builder (float_registry have_avx) fuel N As =
        some (As ++ spec_float_storage have_avx N) := by
  induction fuel with
  | zero => intro N As h1 _ hf; omega
  | succ fuel ih =>
    intro N As h1 hN hf
    have step : ∀ (A : Abi) (w : Nat), select_best_vector_type_t (float_registry have_avx) N = A →
        float_registry have_avx A = some w → 1 ≤ w → w ≤ N →
        spec_float_storage have_avx N = A :: spec_float_storage have_avx (N - w) →
        fixed_size_storage_builder (float_registry have_avx) (fuel + 1) N As =
          some (As ++ spec_float_storage have_avx N) := by
      intro A w hsel hreg hw1 hwN hshape
      have hint : to_int w = (w : Int) := to_int_of_small w (by omega)
      simp only [fixed_size_storage_builder, hsel, hreg, hint]
      have hsub : (N : Int) - (w : Int) = ((N - w : Nat) : Int) := by omega
      rw [hsub, hshape]
      by_cases h0 : N - w = 0
      · simp [h0, spec_float_storage_zero]
      · have hne : ((N - w : Nat) : Int) ≠ 0 := by omega
        simp only [hne, if_false]
        rw [ih (N - w) _ (by omega) (by omega) (by omega)]
        simp
    have hsel := float_select have_avx N hN
    by_cases h8 : have_avx = true ∧ 8 ≤ N
    · rw [if_pos h8] at hsel
      obtain ⟨hb, h8⟩ := h8
      subst hb
      exact step Abi.avx 8 hsel rfl (by omega) h8 (spec_float_storage_avx N h8)
    · rw [if_neg h8] at hsel
      by_cases h4 : 4 ≤ N
      · rw [if_pos h4] at hsel
        exact step Abi.sse 4 hsel rfl (by omega) h4
          (spec_float_storage_sse have_avx N h4 (fun hb => by
            by_contra hc
            exact h8 ⟨hb, by omega⟩))
      · rw [if_neg h4] at hsel
        simp only [ite_self] at hsel
        exact step Abi.scalar 1 hsel rfl (by omega) h1
          (spec_float_storage_scalar have_avx N h1 (by omega))

/-- C3: for `float` with `sse = 4` and `scalar = 1` lanes (no AVX-512, no NEON) and every
`N ≥ 1`, `fixed_size_storage<float, N>` is `N / 8` avx chunks, `(N mod 8) / 4` sse chunks
and `N mod 4` scalar chunks when AVX (8 lanes) is available, and `N / 4` sse chunks and
`N mod 4` scalar chunks when it is not. -/
theorem float_storage_shape (have_avx : Bool) (N : Nat) (h1 : 1 ≤ N) (hN : (N : Int) < 2 ^ 31)
    (fuel : Nat) (hf : N ≤ fuel) :
    fixed_size_storage (float_registry have_avx) fuel N = some (spec_float_storage have_avx N) ∧
    spec_float_storage true N = List.replicate (N / 8) Abi.avx ++
      List.replicate (N % 8 / 4) Abi.sse ++ List.replicate (N % 4) Abi.scalar ∧
    spec_float_storage false N =
      List.replicate (N / 4) Abi.sse ++ List.replicate (N % 4) Abi.scalar := by
  refine ⟨?_, by simp [spec_float_storage], by simp [spec_float_storage]⟩
  unfold fixed_size_storage
  rw [float_builder_shape have_avx fuel N [] h1 hN hf]
  rfl

/-- The static assertions of `fixed_size.h` on `fixed_size_storage<float, N>` as instances
of C3. -/
theorem float_storage_shape_witness :
    fixed_size_storage (float_registry false) 1 1 = some [Abi.scalar] ∧
    fixed_size_storage (float_registry false) 2 2 = some [Abi.scalar, Abi.scalar] ∧
    fixed_size_storage (float_registry false) 3 3 = some [Abi.scalar, Abi.scalar, Abi.scalar] ∧
    fixed_size_storage (float_registry false) 4 4 = some [Abi.sse] ∧
    fixed_size_storage (float_registry false) 5 5 = some [Abi.sse, Abi.scalar] ∧
    fixed_size_storage (float_registry true) 8 8 = some [Abi.avx] ∧
    fixed_size_storage (float_registry true) 12 12 = some [Abi.avx, Abi.sse] ∧
    fixed_size_storage (float_registry true) 13 13 = some [Abi.avx, Abi.sse, Abi.scalar] :=
  ⟨(float_storage_shape false 1 (by decide) (by decide) 1 (by decide)).1,
   (float_storage_shape false 2 (by decide) (by decide) 2 (by decide)).1,
   (float_storage_shape false 3 (by decide) (by decide) 3 (by decide)).1,
   (float_storage_shape false 4 (by decide) (by decide) 4 (by decide)).1,
   (float_storage_shape false 5 (by decide) (by decide) 5 (by decide)).1,
   (float_storage_shape true 8 (by decide) (by decide) 8 (by decide)).1,
   (float_storage_shape true 12 (by decide) (by decide) 12 (by decide)).1,
   (float_storage_shape true 13 (by decide) (by decide) 13 (by decide)).1⟩

/-! ## Claims about `n_abis_in_tuple` -/

/-- Run decomposition computed by `counts`: the first run consists of the head tag,
later runs carry pairwise different adjacent tags, and the runs spell out the tuple. -/
theorem n_abis_counts_runs (rest : List Abi) :
    ∀ A : Abi, ∃ (c0 : Nat) (cs : List Nat) (ts : List Abi),
      n_abis_in_tuple_counts (A :: rest) = ⟨c0, cs⟩ ∧ ts.length = cs.length ∧ 1 ≤ c0 ∧
      (∀ c ∈ cs, 1 ≤ c) ∧ List.Chain' (fun a b : Abi => a ≠ b) (A :: ts) ∧
      A :: rest = List.replicate c0 A ++
        ((cs.zip ts).map (fun p => List.replicate p.1 p.2)).flatten := by
  induction rest with
  | nil =>
    intro A
    exact ⟨1, [], [], rfl, rfl, le_refl 1, by simp, List.chain'_singleton _, by simp⟩
  | cons B rest ih =>
    intro A
    obtain ⟨c0, cs, ts, hc, hlen, hc0, hcs, hchain, hflat⟩ := ih B
    by_cases hAB : A = B
    · subst hAB
      refine ⟨c0 + 1, cs, ts, ?_, hlen, by omega, hcs, hchain, ?_⟩
      · simp [n_abis_in_tuple_counts, hc, seq_op.first_plus_one]
      · rw [hflat]
        simp [List.replicate_succ]
    · refine ⟨1, c0 :: cs, B :: ts, ?_, by simp [hlen], le_refl 1, ?_, ?_, ?_⟩
      · simp [n_abis_in_tuple_counts, hAB, hc, seq_op.prepend]
      · intro c hcmem
        rcases List.mem_cons.1 hcmem with rfl | h
        · exact hc0
        · exact hcs c h
      · exact List.Chain'.cons hAB hchain
      · rw [hflat]
        simp

/-- The sequence `begins` holds the prefix sums of `counts`. -/
theorem n_abis_begins_prefix_sums (rest : List Abi) :
    ∀ A : Abi,
      (n_abis_in_tuple_begins (A :: rest)).toList.length =
        (n_abis_in_tuple_counts (A :: rest)).toList.length ∧
      ∀ k, k < (n_abis_in_tuple_counts (A :: rest)).toList.length →
        (n_abis_in_tuple_begins (A :: rest)).toList[k]? =
          some (((n_abis_in_tuple_counts (A :: rest)).toList.take k).sum) := by
  induction rest with
  | nil =>
    intro A
    refine ⟨rfl, ?_⟩
    intro k hk
    simp only [n_abis_in_tuple_counts, IndexSeq.toList, List.length_singleton,
      Nat.lt_one_iff] at hk
    subst hk
    rfl
  | cons B rest ih =>
    intro A
    obtain ⟨hlen, hpre⟩ := ih B
    generalize hb : n_abis_in_tuple_begins (B :: rest) = b at hlen hpre
    generalize hc : n_abis_in_tuple_counts (B :: rest) = c at hlen hpre
    obtain ⟨b0, bs⟩ := b
    obtain ⟨c0, cs⟩ := c
    simp only [IndexSeq.toList, List.length_cons, Nat.add_right_cancel_iff] at hlen hpre
    have hb0 : b0 = 0 := by
      have := hpre 0 (by omega)
      simpa using this
    have hbs : ∀ j, j < cs.length → bs[j]? = some (c0 + (cs.take j).sum) := by
      intro j hj
      have := hpre (j + 1) (by omega)
      simpa using this
    by_cases hAB : A = B
    · subst hAB
      simp only [n_abis_in_tuple_begins, n_abis_in_tuple_counts, if_true, hb, hc,
        seq_op.notfirst_plus_one, seq_op.first_plus_one, IndexSeq.toList, List.length_cons,
        List.length_map]
      refine ⟨by omega, ?_⟩
      intro k hk
      cases k with
      | zero => simp [hb0]
      | succ j =>
        simp only [List.getElem?_cons_succ, List.getElem?_map, hbs j (by omega),
          Option.map_some', List.take_succ_cons, List.sum_cons, Option.some.injEq]
        omega
    · have hmap : cs.map (fun i => i + 0) = cs := by simp
      simp only [n_abis_in_tuple_begins, n_abis_in_tuple_counts, hAB, if_false, hb, hc,
        seq_op.prepend, IndexSeq.toList, List.length_cons, List.length_map, hmap]
      refine ⟨by omega, ?_⟩
      intro k hk
      cases k with
      | zero => simp
      | succ k =>
        cases k with
        | zero => simp [hb0]
        | succ j =>
          simp only [List.getElem?_cons_succ, List.getElem?_map, hbs j (by omega),
            Option.map_some', List.take_succ_cons, List.sum_cons, Option.some.injEq]
          omega

theorem sum_take_succ_getD (l : List Nat) (k : Nat) (hk : k < l.length) :
    (l.take (k + 1)).sum = (l.take k).sum + l.getD k 0 := by
  induction l generalizing k with
  | nil => simp at hk
  | cons a l ih =>
    cases k with
    | zero => simp
    | succ k =>
      simp only [List.length_cons, Nat.add_lt_add_iff_right] at hk
      simp only [List.take_succ_cons, List.sum_cons, List.getD_cons_succ, ih k hk]
      omega

/-! ## Maximal runs: `List.splitBy` -/

theorem splitBy_loop_acc {β : Type} (R : β → β → Bool) (l : List β) :
    ∀ (a : β) (g : List β) (gs : List (List β)),
      List.splitBy.loop R l a g gs = gs.reverse ++ List.splitBy.loop R l a g [] := by
  induction l with
  | nil => intro a g gs; simp [List.splitBy.loop]
  | cons b l ih =>
    intro a g gs
    simp only [List.splitBy.loop]
    cases R a b with
    | true => exact ih b (a :: g) gs
    | false =>
      rw [ih b [] ((a :: g).reverse :: gs), ih b [] [(a :: g).reverse]]
      simp

theorem splitBy_loop_group {β : Type} (R : β → β → Bool) (l : List β) :
    ∀ (a : β) (g : List β), ∃ h t,
      List.splitBy.loop R l a [] [] = h :: t ∧
      List.splitBy.loop R l a g [] = (g.reverse ++ h) :: t := by
  induction l with
  | nil => intro a g; exact ⟨[a], [], by simp [List.splitBy.loop], by simp [List.splitBy.loop]⟩
  | cons b l ih =>
    intro a g
    simp only [List.splitBy.loop]
    cases R a b with
    | true =>
      simp only
      obtain ⟨h, t, h0, h1⟩ := ih b (a :: g)
      obtain ⟨h', t', h0', h1'⟩ := ih b [a]
      rw [h0] at h0'
      simp only [List.cons.injEq] at h0'
      obtain ⟨rfl, rfl⟩ := h0'
      exact ⟨[a] ++ h, t, by simpa using h1', by simpa using h1⟩
    | false =>
      simp only
      rw [splitBy_loop_acc R l b [] [(a :: g).reverse], splitBy_loop_acc R l b [] [[a].reverse]]
      exact ⟨[a], List.splitBy.loop R l b [] [], by simp, by simp⟩

/-- Unfolding of `List.splitBy` on a list with at least two elements. -/
theorem splitBy_cons_cons {β : Type} (R : β → β → Bool) (a b : β) (l : List β) :
    ∃ h t, (b :: l).splitBy R = h :: t ∧
      (a :: b :: l).splitBy R = if R a b then (a :: h) :: t else [a] :: h :: t := by
  simp only [List.splitBy, List.splitBy.loop]
  obtain ⟨h, t, h0, h1⟩ := splitBy_loop_group R l b [a]
  refine ⟨h, t, h0, ?_⟩
  cases hR : R a b with
  | true => simpa using h1
  | false =>
    simp only
    rw [splitBy_loop_acc R l b [] [[a].reverse], h0]
    simp

theorem splitBy_singleton {β : Type} (R : β → β → Bool) (a : β) : [a].splitBy R = [[a]] := by
  simp [List.splitBy, List.splitBy.loop]

theorem n_abis_counts_cons_cons (A B : Abi) (rest : List Abi) :
    (n_abis_in_tuple_counts (A :: B :: rest)).toList =
      if A = B then ((n_abis_in_tuple_counts (B :: rest)).I0 + 1) ::
        (n_abis_in_tuple_counts (B :: rest)).Is
      else 1 :: (n_abis_in_tuple_counts (B :: rest)).toList := by
  by_cases h : A = B
  · simp [n_abis_in_tuple_counts, h, seq_op.first_plus_one, IndexSeq.toList]
  · simp [n_abis_in_tuple_counts, h, seq_op.prepend, IndexSeq.toList]

/-- The sequence `counts` holds the lengths of the groups that `List.splitBy` cuts the
tuple into at every change of tag. -/
theorem n_abis_counts_eq_splitBy (rest : List Abi) :
    ∀ A : Abi, (n_abis_in_tuple_counts (A :: rest)).toList =
      ((A :: rest).splitBy (fun a b => a == b)).map List.length := by
  induction rest with
  | nil => intro A; simp [splitBy_singleton, n_abis_in_tuple_counts, IndexSeq.toList]
  | cons B rest ih =>
    intro A
    obtain ⟨h, t, hs, hs2⟩ := splitBy_cons_cons (fun a b : Abi => a == b) A B rest
    have ih' := ih B
    rw [hs] at ih'
    simp only [IndexSeq.toList, List.map_cons, List.cons.injEq] at ih'
    rw [n_abis_counts_cons_cons, hs2]
    by_cases hAB : A = B
    · subst hAB
      simp [ih'.1, ih'.2]
    · have hne : (A == B) = false := by simpa using hAB
      simp [hne, hAB, IndexSeq.toList, ih'.1, ih'.2]

/-- C5: for every non-empty tuple of ABI tags, `counts` lists the lengths of the maximal
runs of equal adjacent tags (the group lengths of `List.splitBy` on equality of adjacent
tags; the tuple is the concatenation of runs `counts[k]` copies of
a tag, adjacent runs having different tags, every count `≥ 1`, the counts summing to the
tuple length) and `begins` lists the start indices of those runs (`begins[0] = 0`,
`begins[k+1] = begins[k] + counts[k]`). -/
theorem n_abis_in_tuple_run_lengths (As : List Abi) (hne : As ≠ []) :
    (n_abis_in_tuple_counts As).toList =
      (As.splitBy (fun a b => a == b)).map List.length ∧
    (∃ tags : List Abi, tags.length = (n_abis_in_tuple_counts As).toList.length ∧
      List.Chain' (fun a b : Abi => a ≠ b) tags ∧
      As = ((((n_abis_in_tuple_counts As).toList).zip tags).map
        (fun p => List.replicate p.1 p.2)).flatten) ∧
    (∀ c ∈ (n_abis_in_tuple_counts As).toList, 1 ≤ c) ∧
    (n_abis_in_tuple_counts As).toList.sum = As.length ∧
    (n_abis_in_tuple_begins As).toList.length = (n_abis_in_tuple_counts As).toList.length ∧
    (n_abis_in_tuple_begins As).toList.getD 0 1 = 0 ∧
    (∀ k, k + 1 < (n_abis_in_tuple_counts As).toList.length →
      (n_abis_in_tuple_begins As).toList.getD (k + 1) 0 =
        (n_abis_in_tuple_begins As).toList.getD k 0 +
          (n_abis_in_tuple_counts As).toList.getD k 0) := by
  cases As with
  | nil => exact absurd rfl hne
  | cons A rest =>
    obtain ⟨c0, cs, ts, hc, hlen, hc0, hcs, hchain, hflat⟩ := n_abis_counts_runs rest A
    obtain ⟨hblen, hpre⟩ := n_abis_begins_prefix_sums rest A
    have hsum : (n_abis_in_tuple_counts (A :: rest)).toList.sum = (A :: rest).length := by
      have h := congrArg List.length hflat
      rw [h, hc]
      simp only [IndexSeq.toList, List.sum_cons, List.length_append, List.length_replicate,
        List.length_flatten, List.map_map, Nat.add_left_cancel_iff]
      clear hflat h hc hchain hcs hpre hblen
      induction cs generalizing ts with
      | nil => simp
      | cons c cs ih =>
        cases ts with
        | nil => simp at hlen
        | cons t ts =>
          simp only [List.length_cons, Nat.add_right_cancel_iff] at hlen
          simp [ih ts hlen]
    refine ⟨n_abis_counts_eq_splitBy rest A, ⟨A :: ts, ?_, hchain, ?_⟩, ?_, hsum, hblen, ?_, ?_⟩
    · simp [hc, IndexSeq.toList, hlen]
    · rw [hc]
      simpa [IndexSeq.toList] using hflat
    · rw [hc]
      intro c hcmem
      rcases List.mem_cons.1 hcmem with rfl | h
      · exact hc0
      · exact hcs c h
    · have := hpre 0 (by rw [hc]; simp [IndexSeq.toList])
      rw [List.getD_eq_getElem?_getD, this]
      simp
    · intro k hk
      rw [List.getD_eq_getElem?_getD, hpre (k + 1) hk, List.getD_eq_getElem?_getD,
        hpre k (by omega)]
      simp only [Option.getD_some]
      exact sum_take_succ_getD _ k (by omega)

/-- The static assertions of `fixed_size.h` on `n_abis_in_tuple`, with the run law of C5
at that tuple. -/
theorem n_abis_in_tuple_run_lengths_witness :
    (n_abis_in_tuple_counts [Abi.sse, Abi.sse, Abi.scalar, Abi.scalar, Abi.scalar]).toList
      = [2, 3] ∧
    (n_abis_in_tuple_begins [Abi.sse, Abi.sse, Abi.scalar, Abi.scalar, Abi.scalar]).toList
      = [0, 2] ∧
    (n_abis_in_tuple_counts [Abi.sse, Abi.sse, Abi.scalar, Abi.scalar, Abi.scalar]).toList.sum
      = [Abi.sse, Abi.sse, Abi.scalar, Abi.scalar, Abi.scalar].length :=
  ⟨by decide, by decide,
    (n_abis_in_tuple_run_lengths [Abi.sse, Abi.sse, Abi.scalar, Abi.scalar, Abi.scalar]
      (by decide)).2.2.2.1⟩

/-! ## Claims about `tree_reduction` -/

theorem next_power_of_2_from_spec (x : Nat) :
    ∀ (fuel p : Nat), (∃ k, p = 2 ^ k) → x ≤ p + fuel → p < 2 * x →
      (∃ k, next_power_of_2_from x fuel p = 2 ^ k) ∧ x ≤ next_power_of_2_from x fuel p ∧
        next_power_of_2_from x fuel p < 2 * x := by
  intro fuel
  induction fuel with
  | zero =>
    intro p hp hx hlt
    exact ⟨hp, by simpa using hx, hlt⟩
  | succ fuel ih =>
    intro p hp hx hlt
    unfold next_power_of_2_from
    split_ifs with h
    · exact ⟨hp, h, hlt⟩
    · obtain ⟨k, hk⟩ := hp
      have hp1 : 1 ≤ p := by rw [hk]; exact Nat.one_le_two_pow
      exact ih (2 * p) ⟨k + 1, by rw [hk, pow_succ]; ring⟩ (by omega) (by omega)

/-- The modelled `next_power_of_2` returns a power of two in `[x, 2x)` for `x ≥ 1`. -/
theorem next_power_of_2_spec (x : Nat) (hx : 1 ≤ x) :
    (∃ k, next_power_of_2 x = 2 ^ k) ∧ x ≤ next_power_of_2 x ∧ next_power_of_2 x < 2 * x :=
  next_power_of_2_from_spec x x 1 ⟨0, rfl⟩ (by omega) (by omega)

/-- The split of the primary template: both parts are non-empty and smaller. -/
theorem tree_split_bounds (Count : Nat) (h3 : 3 ≤ Count) :
    1 ≤ next_power_of_2 Count / 2 ∧ next_power_of_2 Count / 2 < Count := by
  obtain ⟨-, hle, hlt⟩ := next_power_of_2_spec Count (by omega)
  omega

/-- Instantiation depth beyond `Count` does not change the result. -/
theorem tree_reduction_fuel {α : Type} (op : α → α → α) (tup : List α) (Count : Nat) :
    ∀ (fuel1 fuel2 Begin : Nat), Count ≤ fuel1 → Count ≤ fuel2 →
      tree_reduction op tup fuel1 Count Begin = tree_reduction op tup fuel2 Count Begin := by
  induction Count using Nat.strong_induction_on with
  | _ Count ih =>
    intro fuel1 fuel2 Begin h1 h2
    cases fuel1 with
    | zero =>
      have hC : Count = 0 := by omega
      subst hC
      cases fuel2 <;> simp [tree_reduction]
    | succ f1 =>
      cases fuel2 with
      | zero =>
        have hC : Count = 0 := by omega
        subst hC
        simp [tree_reduction]
      | succ f2 =>
        unfold tree_reduction
        by_cases h0 : Count = 0
        · simp [h0]
        by_cases hc1 : Count = 1
        · simp [hc1]
        by_cases hc2 : Count = 2
        · simp [hc2]
        simp only [h0, hc1, hc2, if_false]
        obtain ⟨hl1, hl2⟩ := tree_split_bounds Count (by omega)
        rw [ih _ hl2 f1 f2 Begin (by omega) (by omega),
          ih (Count - next_power_of_2 Count / 2) (by omega) f1 f2 _ (by omega) (by omega)]

theorem foldl_append_cons_of_assoc {α : Type} (op : α → α → α)
    (hassoc : ∀ a b c, op (op a b) c = op a (op b c)) (ys : List α) :
    ∀ (x y : α) (xs : List α),
      (xs ++ y :: ys).foldl op x = op (xs.foldl op x) (ys.foldl op y) := by
  induction ys using List.reverseRecOn with
  | nil => intro x y xs; simp [List.foldl_append]
  | append_singleton ys z ih =>
    intro x y xs
    have : xs ++ y :: (ys ++ [z]) = (xs ++ y :: ys) ++ [z] := by simp
    rw [this, List.foldl_append, ih]
    simp [List.foldl_append, hassoc]

/-- For an associative operation an application tree evaluates to the left-to-right
fold over its leaves. -/
theorem OpTree.eval_eq_fold {α : Type} (op : α → α → α)
    (hassoc : ∀ a b c, op (op a b) c = op a (op b c)) (t : OpTree α) :
    fold_left1 op t.leaves = some (t.eval op) := by
  induction t with
  | leaf a => rfl
  | node l r ihl ihr =>
    simp only [OpTree.leaves, OpTree.eval]
    cases hl : l.leaves with
    | nil => rw [hl] at ihl; simp [fold_left1] at ihl
    | cons x xs =>
      cases hr : r.leaves with
      | nil => rw [hr] at ihr; simp [fold_left1] at ihr
      | cons y ys =>
        rw [hl] at ihl
        rw [hr] at ihr
        simp only [fold_left1, Option.some.injEq] at ihl ihr
        simp only [List.cons_append, fold_left1, Option.some.injEq]
        rw [foldl_append_cons_of_assoc op hassoc ys x y xs, ihl, ihr]

theorem take_drop_split {α : Type} (l : List α) (b m n : Nat) :
    (l.drop b).take m ++ (l.drop (b + m)).take n = (l.drop b).take (m + n) := by
  rw [← List.drop_drop, List.take_add]

/-- Symbolic run of `tree_reduction`: on a range inside the tuple and with
instantiation depth at least `Count` it returns the value of an application tree whose
leaves are the elements `Begin .. Begin + Count - 1` in order, whatever `binary_op` is. -/
theorem tree_reduction_tree {α : Type} (tup : List α) (Count : Nat) :
    ∀ (fuel Begin : Nat), 1 ≤ Count → Begin + Count ≤ tup.length → Count ≤ fuel →
      ∃ t : OpTree α,
        tree_reduction OpTree.node (tup.map OpTree.leaf) fuel Count Begin = some t ∧
        t.leaves = (tup.drop Begin).take Count ∧
        ∀ op : α → α → α, tree_reduction op tup fuel Count Begin = some (t.eval op) := by
  induction Count using Nat.strong_induction_on with
  | _ Count ih =>
    intro fuel Begin h1 hb hf
    cases fuel with
    | zero => omega
    | succ f =>
      by_cases hc1 : Count = 1
      · subst hc1
        have hB : Begin < tup.length := by omega
        refine ⟨OpTree.leaf tup[Begin], ?_, ?_, ?_⟩
        · simp [tree_reduction, List.getElem?_eq_getElem hB]
        · simp only [OpTree.leaves]
          rw [List.take_one, List.head?_drop, List.getElem?_eq_getElem hB]
          rfl
        · intro op
          simp [tree_reduction, List.getElem?_eq_getElem hB, OpTree.eval]
      by_cases hc2 : Count = 2
      · subst hc2
        have hB : Begin < tup.length := by omega
        have hB1 : Begin + 1 < tup.length := by omega
        refine ⟨OpTree.node (OpTree.leaf tup[Begin]) (OpTree.leaf tup[Begin + 1]), ?_, ?_, ?_⟩
        · simp [tree_reduction, List.getElem?_eq_getElem hB, List.getElem?_eq_getElem hB1]
        · simp only [OpTree.leaves, List.singleton_append]
          rw [List.drop_eq_getElem_cons hB, List.take_succ_cons,
            List.drop_eq_getElem_cons hB1, List.take_succ_cons, List.take_zero]
        · intro op
          simp [tree_reduction, List.getElem?_eq_getElem hB, List.getElem?_eq_getElem hB1,
            OpTree.eval]
      have h0 : Count ≠ 0 := by omega
      obtain ⟨hl1, hl2⟩ := tree_split_bounds Count (by omega)
      obtain ⟨tl, htl, hll, hopl⟩ :=
        ih _ hl2 f Begin hl1 (by omega) (by omega)
      obtain ⟨tr, htr, hlr, hopr⟩ :=
        ih (Count - next_power_of_2 Count / 2) (by omega) f
          (Begin + next_power_of_2 Count / 2) (by omega) (by omega) (by omega)
      refine ⟨OpTree.node tl tr, ?_, ?_, ?_⟩
      · simp [tree_reduction, h0, hc1, hc2, htl, htr]
      · simp only [OpTree.leaves, hll, hlr]
        rw [take_drop_split]
        congr 1
        omega
      · intro op
        simp [tree_reduction, h0, hc1, hc2, hopl, hopr, OpTree.eval]

theorem take_drop_range (n b c : Nat) (h : b + c ≤ n) :
    ((List.range n).drop b).take c = List.range' b c := by
  apply List.ext_getElem
  · simp; omega
  · intro i h1 h2
    simp

/-- C6: for `Count ≥ 1` on a range inside the tuple, `tree_reduction<Count, Begin>`
follows the mandated split (`Count = 1`: element `Begin`; `Count = 2`:
`op(e_Begin, e_{Begin+1})`; otherwise `op` of the reductions of the first
`next_power_of_2(Count)/2` and of the remaining elements); run symbolically it builds an
application tree whose leaves are the elements `Begin .. Begin+Count-1`, each once and in
increasing index order, of which the result is the value; and for an associative `op`
the result is the left-to-right fold over those elements. -/
theorem tree_reduction_split_and_fold {α : Type} (op : α → α → α) (tup : List α)
    (Count Begin fuel : Nat) (h1 : 1 ≤ Count) (hb : Begin + Count ≤ tup.length)
    (hf : Count ≤ fuel) :
    (Count = 1 → tree_reduction op tup fuel Count Begin = tup[Begin]?) ∧
    (Count = 2 → ∃ a b, tup[Begin]? = some a ∧ tup[Begin + 1]? = some b ∧
      tree_reduction op tup fuel Count Begin = some (op a b)) ∧
    (3 ≤ Count → ∃ a b,
      tree_reduction op tup fuel (next_power_of_2 Count / 2) Begin = some a ∧
      tree_reduction op tup fuel (Count - next_power_of_2 Count / 2)
        (Begin + next_power_of_2 Count / 2) = some b ∧
      tree_reduction op tup fuel Count Begin = some (op a b)) ∧
    (∃ t : OpTree α,
      tree_reduction OpTree.node (tup.map OpTree.leaf) fuel Count Begin = some t ∧
      t.leaves = (tup.drop Begin).take Count ∧
      tree_reduction op tup fuel Count Begin = some (t.eval op)) ∧
    (∃ t : OpTree Nat,
      tree_reduction OpTree.node ((List.range tup.length).map OpTree.leaf) fuel Count Begin
        = some t ∧ t.leaves = List.range' Begin Count) ∧
    ((∀ a b c, op (op a b) c = op a (op b c)) →
      tree_reduction op tup fuel Count Begin = fold_left1 op ((tup.drop Begin).take Count)) := by
  obtain ⟨t, ht, hleaves, hop⟩ := tree_reduction_tree tup Count fuel Begin h1 hb hf
  have hfuel : fuel = (fuel - 1) + 1 := by omega
  refine ⟨?_, ?_, ?_, ⟨t, ht, hleaves, hop op⟩, ?_, ?_⟩
  · intro hc
    subst hc
    rw [hfuel]
    simp [tree_reduction]
  · intro hc
    subst hc
    have hB : Begin < tup.length := by omega
    have hB1 : Begin + 1 < tup.length := by omega
    refine ⟨tup[Begin], tup[Begin + 1], List.getElem?_eq_getElem hB,
      List.getElem?_eq_getElem hB1, ?_⟩
    rw [hfuel]
    simp [tree_reduction, List.getElem?_eq_getElem hB, List.getElem?_eq_getElem hB1]
  · intro h3
    obtain ⟨hl1, hl2⟩ := tree_split_bounds Count h3
    obtain ⟨tl, -, -, hopl⟩ := tree_reduction_tree tup (next_power_of_2 Count / 2) fuel Begin
      hl1 (by omega) (by omega)
    obtain ⟨tr, -, -, hopr⟩ := tree_reduction_tree tup (Count - next_power_of_2 Count / 2) fuel
      (Begin + next_power_of_2 Count / 2) (by omega) (by omega) (by omega)
    refine ⟨tl.eval op, tr.eval op, hopl op, hopr op, ?_⟩
    have e1 := tree_reduction_fuel op tup (next_power_of_2 Count / 2) (fuel - 1) fuel Begin
      (by omega) (by omega)
    have e2 := tree_reduction_fuel op tup (Count - next_power_of_2 Count / 2) (fuel - 1) fuel
      (Begin + next_power_of_2 Count / 2) (by omega) (by omega)
    rw [hfuel]
    have h0 : Count ≠ 0 := by omega
    have hc1 : Count ≠ 1 := by omega
    have hc2 : Count ≠ 2 := by omega
    simp only [tree_reduction, h0, hc1, hc2, if_false, e1, e2, hopl op, hopr op]
  · obtain ⟨ti, hti, hli, -⟩ := tree_reduction_tree (List.range tup.length) Count fuel Begin h1
      (by simpa using hb) hf
    exact ⟨ti, hti, by rw [hli, take_drop_range _ _ _ hb]⟩
  · intro hassoc
    rw [hop op, ← hleaves, OpTree.eval_eq_fold op hassoc t]

/-- Instance of C6: five elements under addition reduce to their sum, and the tree over
five elements is `((e0 e1) (e2 e3)) e4`. -/
theorem tree_reduction_split_and_fold_witness :
    tree_reduction (fun a b : Nat => a + b) [1, 2, 3, 4, 5] 5 5 0 = some 15 ∧
    tree_reduction OpTree.node ([1, 2, 3, 4, 5].map OpTree.leaf) 5 5 0 =
      some (OpTree.node
        (OpTree.node (OpTree.node (OpTree.leaf 1) (OpTree.leaf 2))
          (OpTree.node (OpTree.leaf 3) (OpTree.leaf 4)))
        (OpTree.leaf 5)) :=
  ⟨((tree_reduction_split_and_fold (fun a b : Nat => a + b) [1, 2, 3, 4, 5] 5 0 5 (by decide)
      (by decide) (by decide)).2.2.2.2.2 (fun a b c => Nat.add_assoc a b c)).trans rfl,
    rfl⟩

/-! ## Runs of chunks -/

/-- The runs of chunks are the pieces of the chunk list cut by `counts`. -/
theorem chunk_runs_eq_split {α : Type} (rest : List Abi) :
    ∀ (A : Abi) (x : List (List α)), x.length = (A :: rest).length →
      chunk_runs (A :: rest) x =
        split_by_counts (n_abis_in_tuple_counts (A :: rest)).toList x := by
  induction rest with
  | nil =>
    intro A x hx
    match x, hx with
    | [c], _ =>
      simp [chunk_runs, splitBy_singleton, n_abis_in_tuple_counts, IndexSeq.toList,
        split_by_counts]
  | cons B rest ih =>
    intro A x hx
    match x, hx with
    | c :: d :: x', hx =>
      have ih' := ih B (d :: x') (by simpa using hx)
      rw [n_abis_counts_cons_cons]
      simp only [chunk_runs, List.zip_cons_cons] at ih' ⊢
      obtain ⟨h, t, hs, hs2⟩ := splitBy_cons_cons (fun p q : Abi × List α => p.1 == q.1)
        (A, c) (B, d) (List.zip rest x')
      rw [hs2]
      rw [hs] at ih'
      simp only [IndexSeq.toList, split_by_counts, List.map_cons, List.cons.injEq] at ih'
      by_cases hAB : A = B
      · subst hAB
        simp only [beq_self_eq_true, if_true, List.map_cons, split_by_counts,
          List.take_succ_cons, List.drop_succ_cons, ih'.1, ih'.2]
      · have hne : (A == B) = false := by simpa using hAB
        simp only [hne, if_neg hAB, List.map_cons, List.map_nil, split_by_counts,
          IndexSeq.toList, List.take_succ_cons, List.take_zero, List.drop_succ_cons,
          List.drop_zero]
        simpa using ih'

theorem tree_reduction_drop {α : Type} (op : α → α → α) (tup : List α) (k : Nat) :
    ∀ (fuel Count Begin : Nat),
      tree_reduction op tup fuel Count (k + Begin) =
        tree_reduction op (tup.drop k) fuel Count Begin := by
  intro fuel
  induction fuel with
  | zero => intro Count Begin; rfl
  | succ fuel ih =>
    intro Count Begin
    simp only [tree_reduction, List.getElem?_drop]
    rw [← ih, ← ih]
    simp only [Nat.add_assoc]

theorem tree_reduction_take {α : Type} (op : α → α → α) (tup : List α) (n : Nat) :
    ∀ (fuel Count Begin : Nat), Begin + Count ≤ n →
      tree_reduction op (tup.take n) fuel Count Begin = tree_reduction op tup fuel Count Begin := by
  intro fuel
  induction fuel with
  | zero => intro Count Begin _; rfl
  | succ fuel ih =>
    intro Count Begin hn
    unfold tree_reduction
    by_cases h0 : Count = 0
    · simp [h0]
    by_cases hc1 : Count = 1
    · simp only [hc1, if_true, if_false, one_ne_zero]
      rw [List.getElem?_take_of_lt (by omega)]
    by_cases hc2 : Count = 2
    · simp only [hc2, if_true, if_false, OfNat.ofNat_ne_zero, OfNat.ofNat_ne_one]
      rw [List.getElem?_take_of_lt (by omega), List.getElem?_take_of_lt (by omega)]
    simp only [h0, hc1, hc2, if_false]
    obtain ⟨hl1, hl2⟩ := tree_split_bounds Count (by omega)
    rw [ih _ _ (by omega), ih _ _ (by omega)]

/-- A reduction over the range `Begin .. Begin + Count - 1` only sees that segment. -/
theorem tree_reduction_segment {α : Type} (op : α → α → α) (tup : List α)
    (fuel Count Begin : Nat) :
    tree_reduction op tup fuel Count Begin =
      tree_reduction op ((tup.drop Begin).take Count) fuel Count 0 := by
  rw [tree_reduction_take op _ Count fuel Count 0 (by omega), ← tree_reduction_drop]
  rfl

theorem length_take_drop_of_le {β : Type} (l : List β) (b c : Nat) (h : b + c ≤ l.length) :
    ((l.drop b).take c).length = c := by
  simp only [List.length_take, List.length_drop]
  omega

/-- The scalars computed from `Counts` and `Begins` that are prefix sums of `Counts`
are the per-piece results of cutting the tuple by `Counts`. -/
theorem reduce_scalars_eq_mapM {α : Type} (native_reduce : List α → (α → α → α) → α)
    (tup : List (List α)) (op : α → α → α) (fuel : Nat) (cs : List Nat) :
    ∀ (bs : List Nat) (off : Nat), bs.length = cs.length →
      (∀ k, k < cs.length → bs[k]? = some (off + (cs.take k).sum)) →
      off + cs.sum ≤ tup.length →
      reduce_scalars native_reduce tup op fuel cs bs =
        (split_by_counts cs (tup.drop off)).mapM (fun run =>
          (tree_reduction (lanewise op) run fuel run.length 0).map
            (fun v => native_reduce v op)) := by
  induction cs with
  | nil =>
    intro bs off hlen _ _
    match bs, hlen with
    | [], _ => rfl
  | cons c cs ih =>
    intro bs off hlen hpre hsum
    match bs, hlen with
    | b :: bs, hlen =>
      have hb : b = off := by
        have := hpre 0 (by simp)
        simpa using this
      subst hb
      simp only [List.sum_cons] at hsum
      have ih' := ih bs (b + c) (by simpa using hlen) (by
        intro k hk
        have := hpre (k + 1) (by simpa using hk)
        simp only [List.getElem?_cons_succ, List.take_succ_cons, List.sum_cons] at this
        rw [this]
        congr 1
        omega) (by omega)
      simp only [reduce_scalars, split_by_counts, List.mapM_cons, ih', List.drop_drop]
      rw [length_take_drop_of_le tup b c (by omega), ← tree_reduction_segment]
      cases tree_reduction (lanewise op) tup fuel c b with
      | none => rfl
      | some v =>
        simp only [Option.map_some', Option.bind_eq_bind, Option.some_bind]
        generalize List.mapM (m := Option) (fun run =>
            (tree_reduction (lanewise op) run fuel run.length 0).map
              (fun v => native_reduce v op)) (split_by_counts cs (List.drop (b + c) tup)) = r
        cases r <;> rfl

theorem n_abis_counts_sum (rest : List Abi) :
    ∀ A : Abi, (n_abis_in_tuple_counts (A :: rest)).toList.sum = rest.length + 1 ∧
      1 ≤ (n_abis_in_tuple_counts (A :: rest)).I0 ∧
      ∀ c ∈ (n_abis_in_tuple_counts (A :: rest)).toList, 1 ≤ c := by
  induction rest with
  | nil => intro A; simp [n_abis_in_tuple_counts, IndexSeq.toList]
  | cons B rest ih =>
    intro A
    obtain ⟨hs, h0, hall⟩ := ih B
    rw [n_abis_counts_cons_cons]
    simp only [IndexSeq.toList, List.sum_cons, List.mem_cons, forall_eq_or_imp] at hs hall
    by_cases hAB : A = B
    · subst hAB
      simp only [if_true, n_abis_in_tuple_counts, seq_op.first_plus_one, List.sum_cons,
        List.mem_cons, forall_eq_or_imp, List.length_cons]
      exact ⟨by omega, by omega, by omega, hall.2⟩
    · simp only [if_neg hAB, n_abis_in_tuple_counts, seq_op.prepend, IndexSeq.toList,
        List.sum_cons, List.mem_cons, forall_eq_or_imp, List.length_cons]
      exact ⟨by omega, le_refl 1, le_refl 1, hall.1, hall.2⟩

theorem length_le_sum_of_pos (cs : List Nat) (h : ∀ c ∈ cs, 1 ≤ c) : cs.length ≤ cs.sum := by
  induction cs with
  | nil => simp
  | cons c cs ih =>
    simp only [List.mem_cons, forall_eq_or_imp] at h
    have := ih h.2
    simp only [List.length_cons, List.sum_cons]
    omega

/-- Every piece of a cut by positive counts within the instantiation depth reduces to a
scalar. -/
theorem mapM_split_defined {α : Type} (native_reduce : List α → (α → α → α) → α)
    (op : α → α → α) (fuel : Nat) (cs : List Nat) :
    ∀ (l : List (List α)), (∀ c ∈ cs, 1 ≤ c ∧ c ≤ fuel) → cs.sum ≤ l.length →
      ∃ scalars, (split_by_counts cs l).mapM (fun run =>
          (tree_reduction (lanewise op) run fuel run.length 0).map
            (fun v => native_reduce v op)) = some scalars ∧ scalars.length = cs.length := by
  induction cs with
  | nil => intro l _ _; exact ⟨[], rfl, rfl⟩
  | cons c cs ih =>
    intro l hall hsum
    simp only [List.mem_cons, forall_eq_or_imp, List.sum_cons] at hall hsum
    obtain ⟨rest, hrest, hlen⟩ := ih (l.drop c) hall.2 (by simp; omega)
    have hlt : (l.take c).length = c := by simp; omega
    obtain ⟨t, -, -, hop⟩ := tree_reduction_tree (l.take c) c fuel 0 hall.1.1 (by omega) hall.1.2
    refine ⟨native_reduce (t.eval (lanewise op)) op :: rest, ?_, by simp [hlen]⟩
    simp only [split_by_counts, List.mapM_cons, hrest, hlt, hop (lanewise op)]
    rfl

theorem n_abis_counts_of_chain (rest : List Abi) :
    ∀ A : Abi, List.Chain' (fun a b : Abi => a ≠ b) (A :: rest) →
      (n_abis_in_tuple_counts (A :: rest)).toList = List.replicate (rest.length + 1) 1 := by
  induction rest with
  | nil => intro A _; rfl
  | cons B rest ih =>
    intro A hchain
    rw [n_abis_counts_cons_cons, if_neg (List.chain'_cons.1 hchain).1,
      ih B (List.chain'_cons.1 hchain).2]
    simp [List.replicate_succ]

theorem split_replicate_one {β : Type} (x : List β) :
    split_by_counts (List.replicate x.length 1) x = x.map (fun c => [c]) := by
  induction x with
  | nil => rfl
  | cons c x ih => simp [List.replicate_succ, split_by_counts, ih]

theorem mapM_singletons {α : Type} (native_reduce : List α → (α → α → α) → α)
    (op : α → α → α) (fuel : Nat) (hf : 1 ≤ fuel) (x : List (List α)) :
    (x.map (fun c => [c])).mapM (fun run =>
        (tree_reduction (lanewise op) run fuel run.length 0).map
          (fun v => native_reduce v op)) = some (x.map (fun c => native_reduce c op)) := by
  induction x with
  | nil => rfl
  | cons c x ih =>
    have hfuel : fuel = (fuel - 1) + 1 := by omega
    have h1 : tree_reduction (lanewise op) [c] fuel 1 0 = some c := by
      rw [hfuel]
      simp [tree_reduction]
    simp only [List.map_cons, List.mapM_cons, ih, List.length_singleton, h1]
    rfl

/-- The code's reduction is the reduction by runs. -/
theorem reduce_eq_runs {α : Type} (native_reduce : List α → (α → α → α) → α) (As : List Abi)
    (x : List (List α)) (op : α → α → α) (fuel : Nat) (hne : As ≠ [])
    (hx : x.length = As.length) :
    reduce native_reduce As x op fuel =
      spec_reduce_runs native_reduce op fuel (chunk_runs As x) := by
  cases As with
  | nil => exact absurd rfl hne
  | cons A rest =>
    obtain ⟨hblen, hpre⟩ := n_abis_begins_prefix_sums rest A
    obtain ⟨hsum, -, -⟩ := n_abis_counts_sum rest A
    unfold reduce reduce_tuple spec_reduce_runs
    rw [reduce_scalars_eq_mapM native_reduce x op fuel _ _ 0 hblen
      (by intro k hk; rw [hpre k hk]; simp) (by rw [hsum, hx]; simp),
      chunk_runs_eq_split rest A x hx]
    rfl


/-- The reduction returns a value on a well-formed composite. -/
theorem reduce_defined {α : Type} (native_reduce : List α → (α → α → α) → α) (As : List Abi)
    (x : List (List α)) (op : α → α → α) (fuel : Nat) (hne : As ≠ [])
    (hx : x.length = As.length) (hf : As.length ≤ fuel) :
    ∃ r, reduce native_reduce As x op fuel = some r := by
  cases As with
  | nil => exact absurd rfl hne
  | cons A rest =>
    obtain ⟨hblen, hpre⟩ := n_abis_begins_prefix_sums rest A
    obtain ⟨hsum, -, hpos⟩ := n_abis_counts_sum rest A
    simp only [List.length_cons] at hx hf
    have hle : ∀ c ∈ (n_abis_in_tuple_counts (A :: rest)).toList, c ≤ fuel := by
      intro c hc
      have := List.single_le_sum (fun _ _ => Nat.zero_le _) c hc
      omega
    obtain ⟨scalars, hsc, hlen⟩ := mapM_split_defined native_reduce op fuel _ x
      (fun c hc => ⟨hpos c hc, hle c hc⟩) (by omega)
    have hlen1 : 1 ≤ scalars.length := by rw [hlen]; simp [IndexSeq.toList]
    have hlen2 : scalars.length ≤ fuel := by
      rw [hlen]
      have := length_le_sum_of_pos _ hpos
      omega
    obtain ⟨t, -, -, hop⟩ := tree_reduction_tree scalars scalars.length fuel 0 hlen1
      (by omega) hlen2
    refine ⟨t.eval op, ?_⟩
    unfold reduce reduce_tuple
    rw [reduce_scalars_eq_mapM native_reduce x op fuel _ _ 0 hblen
      (by intro k hk; rw [hpre k hk]; simp) (by omega)]
    simp only [List.drop_zero, hsc, hop op]

/-- C7 (amended): `fixed_size_datapar_impl::reduce` first combines the chunks of every
maximal run of adjacent chunks with the same ABI lane by lane with `tree_reduction`,
then reduces each combined chunk natively to one scalar per run, and combines the
per-run scalars with `tree_reduction`; it returns a value whenever the instantiation
depth covers the chunk count; and when no two adjacent chunks share an ABI this is the
tree over the per-chunk native reductions. -/
theorem reduce_is_reduction_by_runs {α : Type} (native_reduce : List α → (α → α → α) → α)
    (As : List Abi) (x : List (List α)) (op : α → α → α) (fuel : Nat) (hne : As ≠ [])
    (hx : x.length = As.length) (hf : As.length ≤ fuel) :
    reduce native_reduce As x op fuel =
      spec_reduce_runs native_reduce op fuel (chunk_runs As x) ∧
    (∃ r, reduce native_reduce As x op fuel = some r) ∧
    (List.Chain' (fun a b : Abi => a ≠ b) As →
      reduce native_reduce As x op fuel = spec_reduce_chunks native_reduce op fuel x) := by
  refine ⟨reduce_eq_runs native_reduce As x op fuel hne hx,
    reduce_defined native_reduce As x op fuel hne hx hf, ?_⟩
  intro hchain
  rw [reduce_eq_runs native_reduce As x op fuel hne hx]
  cases As with
  | nil => exact absurd rfl hne
  | cons A rest =>
    have hx' : rest.length + 1 = x.length := by simpa using hx.symm
    rw [chunk_runs_eq_split rest A x hx, n_abis_counts_of_chain rest A hchain, hx',
      split_replicate_one]
    unfold spec_reduce_runs spec_reduce_chunks
    rw [mapM_singletons native_reduce op fuel (by simp at hf; omega) x]
    simp

/-- Instance of the amended C7: `fixed_size_storage<int, 13>` with AVX is
`[avx, sse, scalar]`, where reduction by runs and by chunks agree. -/
theorem reduce_is_reduction_by_runs_witness :
    reduce fold_reduce [Abi.avx, Abi.sse, Abi.scalar]
        [[1, 2, 3, 4, 5, 6, 7, 8], [9, 10, 11, 12], [13]] (fun a b : Int => a * b + 1) 3 =
      spec_reduce_chunks fold_reduce (fun a b : Int => a * b + 1) 3
        [[1, 2, 3, 4, 5, 6, 7, 8], [9, 10, 11, 12], [13]] :=
  (reduce_is_reduction_by_runs fold_reduce [Abi.avx, Abi.sse, Abi.scalar]
    [[1, 2, 3, 4, 5, 6, 7, 8], [9, 10, 11, 12], [13]] (fun a b : Int => a * b + 1) 3
    (by decide) (by decide) (by decide)).2.2 (by simp)

/-- C7 as stated fails: `fixed_size_storage<int, 8>` without AVX is `[sse, sse]`; on the
all-zero composite with `binary_op(a, b) = a * b + 1` and the left-fold native
reduction, `reduce` returns `4` (the two chunks are first combined lane by lane to
`[1, 1, 1, 1]`), while the tree over the per-chunk native reductions gives `2`. -/
theorem reduce_not_per_chunk :
    fixed_size_storage (int_registry false) 8 8 = some [Abi.sse, Abi.sse] ∧
    reduce fold_reduce [Abi.sse, Abi.sse] [[0, 0, 0, 0], [0, 0, 0, 0]]
      (fun a b : Int => a * b + 1) 8 = some 4 ∧
    spec_reduce_chunks fold_reduce (fun a b : Int => a * b + 1) 8
      [[0, 0, 0, 0], [0, 0, 0, 0]] = some 2 ∧
    reduce fold_reduce [Abi.sse, Abi.sse] [[0, 0, 0, 0], [0, 0, 0, 0]]
      (fun a b : Int => a * b + 1) 8 ≠
    spec_reduce_chunks fold_reduce (fun a b : Int => a * b + 1) 8
      [[0, 0, 0, 0], [0, 0, 0, 0]] := by
  decide

/-! ## Reduction with an associative and commutative operation -/

theorem lanewise_assoc {α : Type} (op : α → α → α)
    (hassoc : ∀ a b c, op (op a b) c = op a (op b c)) :
    ∀ a b c : List α, lanewise op (lanewise op a b) c = lanewise op a (lanewise op b c) := by
  intro a
  induction a with
  | nil => intro b c; simp [lanewise]
  | cons x a ih =>
    intro b c
    cases b with
    | nil => simp [lanewise]
    | cons y b =>
      cases c with
      | nil => simp [lanewise]
      | cons z c =>
        have := ih b c
        simp only [lanewise, List.zipWith_cons_cons, List.cons.injEq] at this ⊢
        exact ⟨hassoc x y z, this⟩

theorem lanewise_length {α : Type} (op : α → α → α) (a b : List α) (h : a.length = b.length) :
    (lanewise op a b).length = a.length := by
  simp [lanewise, h]

/-- For an associative operation `tree_reduction` over a whole non-empty tuple is the
left-to-right fold. -/
theorem tree_reduction_eq_fold {α : Type} (op : α → α → α)
    (hassoc : ∀ a b c, op (op a b) c = op a (op b c)) (l : List α) (fuel : Nat)
    (h1 : 1 ≤ l.length) (hf : l.length ≤ fuel) :
    tree_reduction op l fuel l.length 0 = fold_left1 op l := by
  obtain ⟨t, -, hleaves, hop⟩ := tree_reduction_tree l l.length fuel 0 h1 (by omega) hf
  rw [hop op, ← OpTree.eval_eq_fold op hassoc t, hleaves]
  simp

theorem foldl_op_assoc {α : Type} (op : α → α → α)
    (hassoc : ∀ a b c, op (op a b) c = op a (op b c)) (s b : α) (bs : List α) :
    (b :: bs).foldl op s = op s (bs.foldl op b) := by
  have := foldl_append_cons_of_assoc op hassoc bs s b []
  simpa using this

/-- Folding the lane-wise combination of two equally long chunks is combining their
folds (needs associativity and commutativity). -/
theorem foldl_zipWith_medial {α : Type} (op : α → α → α)
    (hassoc : ∀ a b c, op (op a b) c = op a (op b c)) (hcomm : ∀ a b, op a b = op b a)
    (us : List α) :
    ∀ (a b : α) (ds : List α), us.length = ds.length →
      (List.zipWith op us ds).foldl op (op a b) = op (us.foldl op a) (ds.foldl op b) := by
  induction us with
  | nil =>
    intro a b ds h
    match ds, h with
    | [], _ => rfl
  | cons u us ih =>
    intro a b ds h
    match ds, h with
    | d :: ds, h =>
      simp only [List.zipWith_cons_cons, List.foldl_cons]
      have hmed : op (op a b) (op u d) = op (op a u) (op b d) := by
        rw [hassoc a b (op u d), ← hassoc b u d, hcomm b u, hassoc u b d, ← hassoc a u (op b d)]
      rw [hmed]
      exact ih (op a u) (op b d) ds (by simpa using h)

theorem fold_left1_lanewise {α : Type} (op : α → α → α)
    (hassoc : ∀ a b c, op (op a b) c = op a (op b c)) (hcomm : ∀ a b, op a b = op b a)
    (u d : List α) (h : u.length = d.length) :
    fold_left1 op (lanewise op u d) = fold_left1 op (u ++ d) := by
  match u, d, h with
  | [], [], _ => rfl
  | a :: us, b :: ds, h =>
    simp only [lanewise, List.zipWith_cons_cons, fold_left1, List.cons_append,
      Option.some.injEq]
    rw [foldl_zipWith_medial op hassoc hcomm us a b ds (by simpa using h),
      foldl_append_cons_of_assoc op hassoc ds a b us]

theorem fold_left1_append_congr {α : Type} (op : α → α → α) (u u' r : List α)
    (hu : u ≠ []) (h : fold_left1 op u = fold_left1 op u') :
    fold_left1 op (u ++ r) = fold_left1 op (u' ++ r) := by
  cases u with
  | nil => exact absurd rfl hu
  | cons a as =>
    cases u' with
    | nil => simp [fold_left1] at h
    | cons b bs =>
      simp only [fold_left1, Option.some.injEq] at h
      simp only [List.cons_append, fold_left1, List.foldl_append, h]

/-- Combining a run of equally long chunks lane by lane and folding the result is
folding all lanes of the run. -/
theorem fold_run {α : Type} (op : α → α → α)
    (hassoc : ∀ a b c, op (op a b) c = op a (op b c)) (hcomm : ∀ a b, op a b = op b a)
    (L : Nat) (hL : 1 ≤ L) (cs : List (List α)) :
    ∀ c1 : List α, c1.length = L → (∀ c ∈ cs, c.length = L) →
      (cs.foldl (lanewise op) c1).length = L ∧
      fold_left1 op (cs.foldl (lanewise op) c1) = fold_left1 op (c1 ++ cs.flatten) := by
  induction cs with
  | nil => intro c1 h1 _; simp [h1]
  | cons c2 cs ih =>
    intro c1 h1 hall
    simp only [List.mem_cons, forall_eq_or_imp] at hall
    have hlen : (lanewise op c1 c2).length = L := by
      rw [lanewise_length op c1 c2 (by rw [h1, hall.1]), h1]
    obtain ⟨hl, hfold⟩ := ih (lanewise op c1 c2) hlen hall.2
    refine ⟨hl, ?_⟩
    simp only [List.foldl_cons, List.flatten_cons, hfold]
    rw [← List.append_assoc]
    apply fold_left1_append_congr
    · intro hnil
      rw [hnil] at hlen
      simp at hlen
      omega
    · exact fold_left1_lanewise op hassoc hcomm c1 c2 (by rw [h1, hall.1])


/-- One run of equally long chunks: the code's per-run scalar is the fold over all lanes
of the run. -/
theorem run_scalar_eq_fold {α : Type} (native_reduce : List α → (α → α → α) → α)
    (op : α → α → α) (hassoc : ∀ a b c, op (op a b) c = op a (op b c))
    (hcomm : ∀ a b, op a b = op b a)
    (hnat : ∀ a as, native_reduce (a :: as) op = as.foldl op a) (fuel : Nat)
    (run : List (List α)) (hne : run ≠ []) (hf : run.length ≤ fuel) (L : Nat) (hL : 1 ≤ L)
    (hall : ∀ c ∈ run, c.length = L) :
    ∃ s, (tree_reduction (lanewise op) run fuel run.length 0).map
        (fun v => native_reduce v op) = some s ∧ fold_left1 op run.flatten = some s := by
  cases run with
  | nil => exact absurd rfl hne
  | cons c1 cs =>
    simp only [List.mem_cons, forall_eq_or_imp] at hall
    rw [tree_reduction_eq_fold (lanewise op) (lanewise_assoc op hassoc) (c1 :: cs) fuel
      (by simp) hf]
    obtain ⟨hlen, hfold⟩ := fold_run op hassoc hcomm L hL cs c1 hall.1 hall.2
    rw [show fold_left1 (lanewise op) (c1 :: cs) = some (cs.foldl (lanewise op) c1) from rfl]
    simp only [Option.map_some', List.flatten_cons]
    rw [← hfold]
    cases hv : cs.foldl (lanewise op) c1 with
    | nil => rw [hv] at hlen; simp at hlen; omega
    | cons a as => exact ⟨native_reduce (a :: as) op, rfl, by simp [fold_left1, hnat]⟩

/-- The per-run scalars fold to the fold over all lanes of all runs. -/
theorem mapM_runs_fold {α : Type} (native_reduce : List α → (α → α → α) → α)
    (op : α → α → α) (hassoc : ∀ a b c, op (op a b) c = op a (op b c))
    (hcomm : ∀ a b, op a b = op b a)
    (hnat : ∀ a as, native_reduce (a :: as) op = as.foldl op a) (fuel : Nat)
    (runs : List (List (List α)))
    (hgood : ∀ run ∈ runs, run ≠ [] ∧ run.length ≤ fuel ∧
      ∃ L, 1 ≤ L ∧ ∀ c ∈ run, c.length = L) :
    ∃ ss, runs.mapM (fun run =>
        (tree_reduction (lanewise op) run fuel run.length 0).map
          (fun v => native_reduce v op)) = some ss ∧ ss.length = runs.length ∧
      (∀ s0, ss.foldl op s0 = (runs.flatten.flatten).foldl op s0) ∧
      (runs ≠ [] → fold_left1 op ss = fold_left1 op runs.flatten.flatten) := by
  induction runs with
  | nil => exact ⟨[], rfl, rfl, fun _ => rfl, fun h => absurd rfl h⟩
  | cons run runs ih =>
    simp only [List.mem_cons, forall_eq_or_imp] at hgood
    obtain ⟨⟨hne, hf, L, hL, hall⟩, hrest⟩ := hgood
    obtain ⟨ss, hss, hlen, hfold, -⟩ := ih hrest
    obtain ⟨s, hs, hsf⟩ := run_scalar_eq_fold native_reduce op hassoc hcomm hnat fuel run hne hf
      L hL hall
    cases hrf : run.flatten with
    | nil => rw [hrf] at hsf; simp [fold_left1] at hsf
    | cons b bs =>
      rw [hrf] at hsf
      simp only [fold_left1, Option.some.injEq] at hsf
      refine ⟨s :: ss, ?_, by simp [hlen], ?_, ?_⟩
      · simp only [List.mapM_cons, hs, hss]
        rfl
      · intro s0
        simp only [List.foldl_cons, List.flatten_cons, List.flatten_append, List.foldl_append,
          hrf, hfold]
        rw [← hsf, ← foldl_op_assoc op hassoc s0 b bs]
        rfl
      · intro _
        simp only [fold_left1, List.flatten_cons, List.flatten_append, hrf, List.cons_append,
          List.foldl_append, hfold, hsf]

theorem chunk_runs_flatten {α : Type} (As : List Abi) (x : List (List α))
    (hx : x.length = As.length) : (chunk_runs As x).flatten = x := by
  unfold chunk_runs
  rw [← List.map_flatten, List.flatten_splitBy]
  exact List.map_snd_zip As x (by omega)

theorem chain_same_tag {β : Type} (m : List (Abi × β))
    (hchain : List.Chain' (fun p q : Abi × β => (p.1 == q.1) = true) m) :
    ∀ p ∈ m, ∀ q ∈ m, p.1 = q.1 := by
  induction m with
  | nil => intro p hp; simp at hp
  | cons a m ih =>
    cases m with
    | nil =>
      intro p hp q hq
      simp only [List.mem_singleton] at hp hq
      rw [hp, hq]
    | cons b m =>
      have hab : a.1 = b.1 := by simpa using (List.chain'_cons.1 hchain).1
      have ih' := ih (List.chain'_cons.1 hchain).2
      have hb : ∀ q ∈ b :: m, a.1 = q.1 := fun q hq =>
        hab.trans (ih' b (List.mem_cons_self _ _) q hq)
      intro p hp q hq
      rcases List.mem_cons.1 hp with hpa | hpm
      · rcases List.mem_cons.1 hq with hqa | hqm
        · rw [hpa, hqa]
        · rw [hpa]
          exact hb q hqm
      · rcases List.mem_cons.1 hq with hqa | hqm
        · rw [hqa]
          exact (hb p hpm).symm
        · exact ih' p hpm q hqm

theorem well_shaped_zip {α : Type} (reg : Registry) (As : List Abi) :
    ∀ (x : List (List α)), well_shaped reg As x →
      ∀ p ∈ As.zip x, p.2.length = lanes reg p.1 := by
  induction As with
  | nil => intro x _ p hp; simp at hp
  | cons A As ih =>
    intro x hw p hp
    cases x with
    | nil => simp at hp
    | cons c x =>
      simp only [well_shaped, List.map_cons, List.cons.injEq] at hw
      rcases List.mem_cons.1 (by simpa using hp) with rfl | h
      · exact hw.1
      · exact ih x hw.2 p h

theorem length_le_flatten {β : Type} (ls : List (List β)) :
    (∀ l ∈ ls, l.length ≤ ls.flatten.length) ∧
    ((∀ l ∈ ls, l ≠ []) → ls.length ≤ ls.flatten.length) := by
  induction ls with
  | nil => simp
  | cons a ls ih =>
    refine ⟨?_, ?_⟩
    · intro l hl
      simp only [List.flatten_cons, List.length_append]
      rcases List.mem_cons.1 hl with rfl | h
      · omega
      · have := ih.1 l h
        omega
    · intro hne
      simp only [List.mem_cons, forall_eq_or_imp] at hne
      have := ih.2 hne.2
      have ha : 1 ≤ a.length := by
        cases a with
        | nil => exact absurd rfl hne.1
        | cons _ _ => simp
      simp only [List.flatten_cons, List.length_append, List.length_cons]
      omega

/-- Every run of a well-shaped composite is non-empty, within the chunk count, and made
of equally long non-empty chunks. -/
theorem chunk_runs_good {α : Type} (reg : Registry) (As : List Abi) (x : List (List α))
    (hreg : ∀ A ∈ As, 1 ≤ lanes reg A) (hw : well_shaped reg As x) :
    ∀ run ∈ chunk_runs As x, run ≠ [] ∧ run.length ≤ As.length ∧
      ∃ L, 1 ≤ L ∧ ∀ c ∈ run, c.length = L := by
  intro run hrun
  obtain ⟨m, hm, rfl⟩ := List.mem_map.1 hrun
  have hne : m ≠ [] := List.ne_nil_of_mem_splitBy _ hm
  have hsub : ∀ p ∈ m, p ∈ As.zip x := by
    intro p hp
    have : p ∈ ((As.zip x).splitBy (fun p q => p.1 == q.1)).flatten :=
      List.mem_flatten.2 ⟨m, hm, hp⟩
    rwa [List.flatten_splitBy] at this
  have hlen : m.length ≤ As.length := by
    have h1 := (length_le_flatten ((As.zip x).splitBy (fun p q => p.1 == q.1))).1 m hm
    rw [List.flatten_splitBy, List.length_zip] at h1
    omega
  have htag := chain_same_tag m (List.chain'_of_mem_splitBy hm)
  cases m with
  | nil => exact absurd rfl hne
  | cons a m =>
    refine ⟨by simp, by simpa using hlen, lanes reg a.1,
      hreg a.1 (List.of_mem_zip (hsub a (List.mem_cons_self _ _))).1, ?_⟩
    intro c hc
    obtain ⟨p, hp, rfl⟩ := List.mem_map.1 hc
    rw [well_shaped_zip reg As x hw p (hsub p hp), htag p hp a (List.mem_cons_self _ _)]


theorem well_shaped_length {α : Type} (reg : Registry) (As : List Abi) (x : List (List α))
    (hw : well_shaped reg As x) : x.length = As.length := by
  have := congrArg List.length hw
  simpa using this

/-- With an associative and commutative operation and native reductions that fold the
lanes of a chunk, the reduction of a well-shaped composite is the fold over all lanes. -/
theorem reduce_eq_fold_lanes {α : Type} (native_reduce : List α → (α → α → α) → α)
    (reg : Registry) (As : List Abi) (x : List (List α)) (op : α → α → α) (fuel : Nat)
    (hassoc : ∀ a b c, op (op a b) c = op a (op b c)) (hcomm : ∀ a b, op a b = op b a)
    (hnat : ∀ a as, native_reduce (a :: as) op = as.foldl op a) (hne : As ≠ [])
    (hreg : ∀ A ∈ As, 1 ≤ lanes reg A) (hw : well_shaped reg As x) (hf : As.length ≤ fuel) :
    reduce native_reduce As x op fuel = fold_left1 op (all_lanes x) := by
  have hx := well_shaped_length reg As x hw
  rw [reduce_eq_runs native_reduce As x op fuel hne hx]
  have hgood := chunk_runs_good reg As x hreg hw
  have hflat := chunk_runs_flatten As x hx
  obtain ⟨ss, hss, hlen, -, hfold⟩ := mapM_runs_fold native_reduce op hassoc hcomm hnat fuel
    (chunk_runs As x) (fun run hrun =>
      ⟨(hgood run hrun).1, le_trans (hgood run hrun).2.1 hf, (hgood run hrun).2.2⟩)
  have hrne : chunk_runs As x ≠ [] := by
    intro h
    rw [h] at hflat
    have hxl : x.length = 0 := by rw [← hflat]; rfl
    cases As with
    | nil => exact hne rfl
    | cons _ _ => simp at hx; omega
  have hcount : (chunk_runs As x).length ≤ As.length := by
    have := (length_le_flatten (chunk_runs As x)).2 (fun run hrun => (hgood run hrun).1)
    rw [hflat] at this
    omega
  have hpos : 1 ≤ (chunk_runs As x).length := by
    cases hc : chunk_runs As x with
    | nil => exact absurd hc hrne
    | cons _ _ => simp
  unfold spec_reduce_runs
  simp only [hss]
  rw [tree_reduction_eq_fold op hassoc ss fuel (by omega) (by omega), hfold hrne, hflat]
  rfl

theorem all_lanes_length {α : Type} (reg : Registry) (As : List Abi) :
    ∀ (x : List (List α)), well_shaped reg As x → (all_lanes x).length = total_lanes reg As := by
  induction As with
  | nil =>
    intro x hw
    cases x with
    | nil => rfl
    | cons _ _ => simp [well_shaped] at hw
  | cons A As ih =>
    intro x hw
    cases x with
    | nil => simp [well_shaped] at hw
    | cons c x =>
      simp only [well_shaped, List.map_cons, List.cons.injEq] at hw
      have := ih x hw.2
      simp only [all_lanes, total_lanes, List.flatten_cons, List.length_append, List.map_cons,
        List.sum_cons] at this ⊢
      omega

/-- C8: for a well-shaped composite with at least one chunk, an associative and
commutative `binary_op`, and native reductions equal to the fold of `binary_op` over the
lanes of a chunk, `fixed_size_datapar_impl::reduce(x, binary_op)` is the fold of
`binary_op` over all lanes `get(x, 0), ..., get(x, N-1)`, each lane once; `N ≥ 1` is the
total lane count. -/
theorem reduce_folds_every_lane_once {α : Type} (native_reduce : List α → (α → α → α) → α)
    (reg : Registry) (As : List Abi) (x : List (List α)) (op : α → α → α) (fuel : Nat)
    (hassoc : ∀ a b c, op (op a b) c = op a (op b c)) (hcomm : ∀ a b, op a b = op b a)
    (hnat : ∀ a as, native_reduce (a :: as) op = as.foldl op a) (hne : As ≠ [])
    (hreg : ∀ A ∈ As, 1 ≤ lanes reg A) (hw : well_shaped reg As x) (hf : As.length ≤ fuel) :
    reduce native_reduce As x op fuel = fold_left1 op (all_lanes x) ∧
    (all_lanes x).length = total_lanes reg As ∧ 1 ≤ total_lanes reg As := by
  refine ⟨reduce_eq_fold_lanes native_reduce reg As x op fuel hassoc hcomm hnat hne hreg hw hf,
    all_lanes_length reg As x hw, ?_⟩
  cases As with
  | nil => exact absurd rfl hne
  | cons A As =>
    have := hreg A (List.mem_cons_self _ _)
    simp only [total_lanes, List.map_cons, List.sum_cons]
    omega

/-- Instance of C8: a 20-lane `int` composite of shape `[avx, avx, sse]` under addition. -/
theorem reduce_folds_every_lane_once_witness :
    reduce fold_reduce [Abi.avx, Abi.avx, Abi.sse]
      [[1, 2, 3, 4, 5, 6, 7, 8], [9, 10, 11, 12, 13, 14, 15, 16], [17, 18, 19, 20]]
      (fun a b : Int => a + b) 3 = some 210 :=
  ((reduce_folds_every_lane_once fold_reduce (int_registry true) [Abi.avx, Abi.avx, Abi.sse]
    [[1, 2, 3, 4, 5, 6, 7, 8], [9, 10, 11, 12, 13, 14, 15, 16], [17, 18, 19, 20]]
    (fun a b : Int => a + b) 3 (fun a b c => Int.add_assoc a b c) (fun a b => Int.add_comm a b)
    (fun _ _ => rfl) (by decide) (by decide) (by decide) (by decide)).1).trans (by decide)


/-! ## Reduction of a broadcast value -/

theorem add_mod_assoc (w a b c : Nat) :
    add_mod w (add_mod w a b) c = add_mod w a (add_mod w b c) := by
  unfold add_mod
  rw [Nat.add_mod, Nat.mod_mod, ← Nat.add_mod, Nat.add_mod a, Nat.mod_mod, ← Nat.add_mod,
    Nat.add_assoc]

theorem add_mod_comm (w a b : Nat) : add_mod w a b = add_mod w b a := by
  unfold add_mod
  rw [Nat.add_comm]

theorem foldl_add_mod_replicate (w v : Nat) (k : Nat) :
    ∀ s, (List.replicate k v).foldl (add_mod w) s = if k = 0 then s else (s + k * v) % 2 ^ w := by
  induction k with
  | zero => intro s; rfl
  | succ k ih =>
    intro s
    simp only [List.replicate_succ, List.foldl_cons, ih, Nat.add_one_ne_zero, if_false]
    split_ifs with hk
    · subst hk
      simp [add_mod]
    · unfold add_mod
      rw [Nat.add_mod, Nat.mod_mod, ← Nat.add_mod]
      congr 1
      ring

theorem fold_left1_add_mod_replicate (w v n : Nat) (hv : v < 2 ^ w) (hn : 1 ≤ n) :
    fold_left1 (add_mod w) (List.replicate n v) = some ((n * v) % 2 ^ w) := by
  obtain ⟨k, rfl⟩ : ∃ k, n = k + 1 := ⟨n - 1, by omega⟩
  simp only [List.replicate_succ, fold_left1, foldl_add_mod_replicate, Option.some.injEq]
  split_ifs with hk
  · subst hk
    simp [Nat.mod_eq_of_lt hv]
  · congr 1
    ring

theorem all_lanes_broadcast {α : Type} (reg : Registry) (As : List Abi) (v : α) :
    all_lanes (broadcast reg As v) = List.replicate (total_lanes reg As) v := by
  induction As with
  | nil => rfl
  | cons A As ih =>
    simp only [all_lanes, broadcast, native_broadcast, total_lanes, List.map_cons,
      List.flatten_cons, List.sum_cons] at ih ⊢
    rw [ih, List.replicate_add]

theorem well_shaped_broadcast {α : Type} (reg : Registry) (As : List Abi) (v : α) :
    well_shaped reg As (broadcast reg As v) := by
  simp [well_shaped, broadcast, native_broadcast]

/-- C9: for a `w`-bit integer element type (values as residues modulo `2 ^ w`), every
`N ≥ 1` and every value `v`, the composite `broadcast(v)` of shape
`fixed_size_storage<T, N>` reduces under addition to `N * v` modulo `2 ^ w`. -/
theorem reduce_broadcast_add (reg : Registry) (hok : reg.ok) (N : Int) (h1 : 1 ≤ N)
    (hN : N < 2 ^ 31) (w v : Nat) (hv : v < 2 ^ w)
    (native_reduce : List Nat → (Nat → Nat → Nat) → Nat)
    (hnat : ∀ a as, native_reduce (a :: as) (add_mod w) = as.foldl (add_mod w) a)
    (fuel : Nat) (hf : N ≤ fuel) :
    ∃ As, fixed_size_storage reg fuel N = some As ∧
      reduce native_reduce As (broadcast reg As v) (add_mod w) fuel =
        some ((N.toNat * v) % 2 ^ w) := by
  obtain ⟨steps, hsteps, hhead, hlast, hchain, hall, hsum, hlen⟩ :=
    builder_steps_spec reg hok fuel N h1 hN hf
  refine ⟨steps.map BuilderStep.Next, by simp [fixed_size_storage, builder_eq_steps, hsteps], ?_⟩
  have hne : steps.map BuilderStep.Next ≠ [] := by
    cases steps with
    | nil => simp at hhead
    | cons _ _ => simp
  have hreg : ∀ A ∈ steps.map BuilderStep.Next, 1 ≤ lanes reg A := by
    intro A hA
    obtain ⟨s, hs, rfl⟩ := List.mem_map.1 hA
    exact (hall s hs).1
  rw [reduce_eq_fold_lanes native_reduce reg _ _ (add_mod w) fuel (add_mod_assoc w)
    (add_mod_comm w) hnat hne hreg (well_shaped_broadcast reg _ v)
    (by simp only [List.length_map]; omega), all_lanes_broadcast]
  have htot : total_lanes reg (steps.map BuilderStep.Next) = N.toNat := by omega
  rw [htot]
  exact fold_left1_add_mod_replicate w v N.toNat hv (by omega)

/-- The scenario of the specification as an instance of C9: a 4-byte integer, `N = 12`,
tier widths `{8, 4, 1}`: the shape is `[(width 8, offset 0), (width 4, offset 8)]` and
broadcasting `3` then reducing with addition yields `36`. -/
theorem reduce_broadcast_add_witness :
    fixed_size_storage (int_registry true) 12 12 = some [Abi.avx, Abi.sse] ∧
    [Abi.avx, Abi.sse].map (lanes (int_registry true)) = [8, 4] ∧
    chunk_offsets (int_registry true) 0 [Abi.avx, Abi.sse] = [0, 8] ∧
    reduce fold_reduce [Abi.avx, Abi.sse] (broadcast (int_registry true) [Abi.avx, Abi.sse] 3)
      (add_mod 32) 12 = some 36 := by
  have hok : (int_registry true).ok :=
    ⟨rfl, by intro A w h; cases A <;> simp [int_registry] at h <;> omega⟩
  obtain ⟨As, hAs, hred⟩ := reduce_broadcast_add (int_registry true) hok 12 (by decide)
    (by decide) 32 3 (by decide) fold_reduce (fun _ _ => rfl) 12 (by decide)
  have hshape : fixed_size_storage (int_registry true) 12 12 = some [Abi.avx, Abi.sse] := by
    decide
  rw [hshape] at hAs
  simp only [Option.some.injEq] at hAs
  subst hAs
  exact ⟨hshape, by decide, by decide, hred⟩

/-! ## Claims about the compare operations -/

theorem testBit_bits_to_nat (m : List Bool) :
    ∀ g, (bits_to_nat m).testBit g = m.getD g false := by
  induction m with
  | nil => intro g; simp [bits_to_nat]
  | cons b bs ih =>
    intro g
    cases g with
    | zero => simp [bits_to_nat, Nat.testBit_bit_zero]
    | succ g =>
      rw [bits_to_nat, Nat.testBit_bit_succ, ih g]
      rfl

theorem bits_to_nat_lt (m : List Bool) : bits_to_nat m < 2 ^ m.length := by
  apply Nat.lt_pow_two_of_testBit
  intro i hi
  rw [testBit_bits_to_nat, List.getD_eq_default _ _ hi]

theorem native_cmp_length {α : Type} (cmp : α → α → Bool) (a b : List α)
    (h : a.length = b.length) : (native_cmp cmp a b).length = a.length := by
  simp [native_cmp, h]

/-- Invariant of the compare loop: the chunks still to visit contribute their native
masks at consecutive positions from the current offset, nothing else changes. -/
theorem cmp_loop_spec {α : Type} (cmp : α → α → Bool) (N : Nat) (xs : List (List α)) :
    ∀ (ys : List (List α)) (off bits : Nat), xs.map List.length = ys.map List.length →
      (∀ c ∈ xs, c.length ≤ 64) → off + xs.flatten.length ≤ N →
      ∃ r, for_each2 (cmp_step cmp N) off bits xs ys = some r ∧
        ∀ g, r.testBit g = (bits.testBit g ||
          (decide (off ≤ g) &&
            ((List.zipWith (native_cmp cmp) xs ys).flatten).getD (g - off) false)) := by
  induction xs with
  | nil =>
    intro ys off bits hshape _ _
    cases ys with
    | nil => exact ⟨bits, rfl, by intro g; simp⟩
    | cons _ _ => simp at hshape
  | cons cx xs ih =>
    intro ys off bits hshape h64 hN
    cases ys with
    | nil => simp at hshape
    | cons cy ys =>
      simp only [List.map_cons, List.cons.injEq] at hshape
      simp only [List.mem_cons, forall_eq_or_imp] at h64
      simp only [List.flatten_cons, List.length_append] at hN
      have hmlen := native_cmp_length cmp cx cy hshape.1
      have hv : bits_to_nat (native_cmp cmp cx cy) < 2 ^ 64 :=
        lt_of_lt_of_le (bits_to_nat_lt _)
          (Nat.pow_le_pow_right (by decide) (by rw [hmlen]; exact h64.1))
      obtain ⟨r, hr, hbits⟩ := ih ys (off + cx.length)
        (bits ||| bitset_shl N (bitset_of_ullong N (bits_to_nat (native_cmp cmp cx cy))) off)
        hshape.2 h64.2 (by omega)
      refine ⟨r, ?_, ?_⟩
      · simp only [for_each2, cmp_step, to_ullong, hv, if_true, hr]
      · intro g
        rw [hbits g]
        simp only [bitset_shl, bitset_of_ullong, Nat.testBit_or, Nat.testBit_mod_two_pow,
          Nat.testBit_shiftLeft, testBit_bits_to_nat, List.zipWith_cons_cons,
          List.flatten_cons]
        by_cases h1 : off ≤ g
        · by_cases h2 : g - off < cx.length
          · rw [List.getD_append _ _ _ _ (by rw [hmlen]; exact h2)]
            have e1 : decide (g < N) = true := by simp; omega
            have e2 : decide (g ≥ off) = true := by simp; omega
            have e3 : decide (g - off < N) = true := by simp; omega
            have e4 : decide (off + cx.length ≤ g) = false := by simp; omega
            have e5 : decide (off ≤ g) = true := by simp; omega
            simp only [e1, e2, e3, e4, e5, Bool.true_and, Bool.false_and, Bool.or_false]
          · rw [List.getD_append_right _ _ _ _ (by rw [hmlen]; omega),
              List.getD_eq_default (native_cmp cmp cx cy) false (by rw [hmlen]; omega), hmlen]
            have e4 : decide (off + cx.length ≤ g) = true := by simp; omega
            have e5 : decide (off ≤ g) = true := by simp; omega
            have e6 : g - (off + cx.length) = g - off - cx.length := by omega
            simp only [e4, e5, e6, Bool.and_false, Bool.or_false, Bool.true_and]
        · have e2 : decide (g ≥ off) = false := by simp; omega
          have e4 : decide (off + cx.length ≤ g) = false := by simp; omega
          have e5 : decide (off ≤ g) = false := by simp; omega
          simp only [e2, e4, e5, Bool.false_and, Bool.and_false, Bool.or_false]

theorem flatten_native_cmp {α : Type} (cmp : α → α → Bool) (xs : List (List α)) :
    ∀ ys : List (List α), xs.map List.length = ys.map List.length →
      (List.zipWith (native_cmp cmp) xs ys).flatten =
        List.zipWith cmp (all_lanes xs) (all_lanes ys) := by
  induction xs with
  | nil => intro ys _; simp [all_lanes]
  | cons cx xs ih =>
    intro ys hshape
    cases ys with
    | nil => simp at hshape
    | cons cy ys =>
      simp only [List.map_cons, List.cons.injEq] at hshape
      simp only [List.zipWith_cons_cons, List.flatten_cons, all_lanes, ih ys hshape.2,
        native_cmp]
      rw [List.zipWith_append _ _ _ _ _ hshape.1]


theorem flatten_getElem? {β : Type} (L : List (List β)) :
    ∀ (i : Nat) (ch : List β) (j : Nat), L[i]? = some ch → j < ch.length →
      L.flatten[((L.take i).map List.length).sum + j]? = ch[j]? := by
  induction L with
  | nil => intro i ch j h; simp at h
  | cons a L ih =>
    intro i ch j h hj
    cases i with
    | zero =>
      simp only [List.getElem?_cons_zero, Option.some.injEq] at h
      subst h
      simp only [List.take_zero, List.map_nil, List.sum_nil, Nat.zero_add, List.flatten_cons]
      exact List.getElem?_append_left hj
    | succ i =>
      simp only [List.getElem?_cons_succ] at h
      simp only [List.take_succ_cons, List.map_cons, List.sum_cons, List.flatten_cons]
      rw [List.getElem?_append_right (by omega)]
      have e : a.length + ((L.take i).map List.length).sum + j - a.length =
          ((L.take i).map List.length).sum + j := by omega
      rw [e]
      exact ih i ch j h hj

theorem zipWith_getD_false {α : Type} (cmp : α → α → Bool) (X Y : List α) (g : Nat) (a b : α)
    (ha : X[g]? = some a) (hb : Y[g]? = some b) :
    (List.zipWith cmp X Y).getD g false = cmp a b := by
  rw [List.getD_eq_getElem?_getD, List.getElem?_zipWith, ha, hb]
  rfl

/-- C10: for each of the six compare operations and two composites of the same shape
with `N` lanes (native chunks of at most 64 lanes), the function generated by
`Vc_CMP_OPERATIONS` returns an `N`-bit mask; for every chunk `i` and `j < width_i`, bit
`offset_i + j` is bit `j` of the native compare mask of chunk `i`; bit `g` is
`cmp(get(x, g), get(y, g))` for every `g < N`; no bit at index `≥ N` is set. -/
theorem cmp_mask_bits {α : Type} [LinearOrder α] (cmp_ : CmpName) (N : Nat)
    (x y : List (List α)) (hshape : x.map List.length = y.map List.length)
    (hN : (all_lanes x).length = N) (h64 : ∀ c ∈ x, c.length ≤ 64) :
    ∃ bits, Vc_CMP_OPERATIONS cmp_ N x y = some bits ∧ bits < 2 ^ N ∧
      (∀ g, N ≤ g → bits.testBit g = false) ∧
      (∀ g, g < N → ∃ a b, (all_lanes x)[g]? = some a ∧ (all_lanes y)[g]? = some b ∧
        bits.testBit g = std_cmp cmp_ a b) ∧
      (∀ i j cx cy, x[i]? = some cx → y[i]? = some cy → j < cx.length →
        bits.testBit (((x.take i).map List.length).sum + j) =
          (native_cmp (std_cmp cmp_) cx cy).getD j false) := by
  have hNy : (all_lanes y).length = N := by
    rw [← hN]
    simp only [all_lanes, List.length_flatten, hshape]
  obtain ⟨bits, hbits, htest⟩ := cmp_loop_spec (std_cmp cmp_) N x y 0 0 hshape h64
    (by simp only [all_lanes] at hN; omega)
  simp only [Nat.zero_testBit, Bool.false_or, Nat.zero_le, decide_True, Bool.true_and,
    Nat.sub_zero, flatten_native_cmp (std_cmp cmp_) x y hshape] at htest
  have hhigh : ∀ g, N ≤ g → bits.testBit g = false := by
    intro g hg
    rw [htest g]
    exact List.getD_eq_default _ _ (by simp [hN, hNy, hg])
  have hlane : ∀ g a b, (all_lanes x)[g]? = some a → (all_lanes y)[g]? = some b →
      bits.testBit g = std_cmp cmp_ a b := by
    intro g a b ha hb
    rw [htest g]
    exact zipWith_getD_false _ _ _ g a b ha hb
  refine ⟨bits, hbits, Nat.lt_pow_two_of_testBit bits hhigh, hhigh, ?_, ?_⟩
  · intro g hg
    refine ⟨(all_lanes x)[g], (all_lanes y)[g], List.getElem?_eq_getElem (by omega),
      List.getElem?_eq_getElem (by omega), ?_⟩
    exact hlane g _ _ (List.getElem?_eq_getElem (by omega)) (List.getElem?_eq_getElem (by omega))
  · intro i j cx cy hcx hcy hj
    have hi : i < x.length := by
      by_contra hcon
      rw [List.getElem?_eq_none (by omega)] at hcx
      exact absurd hcx (by simp)
    have hlen : cy.length = cx.length := by
      have h1 := congrArg (fun l => l[i]?) hshape
      simp only [List.getElem?_map, hcx, hcy, Option.map_some', Option.some.injEq] at h1
      exact h1.symm
    have hoff : ((y.take i).map List.length).sum = ((x.take i).map List.length).sum := by
      rw [List.map_take, List.map_take, hshape]
    have hxj := flatten_getElem? x i cx j hcx hj
    have hyj := flatten_getElem? y i cy j hcy (by omega)
    rw [hoff] at hyj
    rw [List.getElem?_eq_getElem hj] at hxj
    rw [List.getElem?_eq_getElem (by omega : j < cy.length)] at hyj
    rw [hlane _ _ _ hxj hyj]
    symm
    exact zipWith_getD_false _ _ _ j _ _ (List.getElem?_eq_getElem hj)
      (List.getElem?_eq_getElem (by omega))

/-- Instance of C10: `less` on a 5-lane composite of shape `[sse, scalar]`. -/
theorem cmp_mask_bits_witness :
    Vc_CMP_OPERATIONS CmpName.less 5 [[1, 2, 3, 4], [5]] [[4, 4, 4, 4], [(6 : Int)]] = some 23 ∧
    (23 : Nat) < 2 ^ 5 := by
  obtain ⟨bits, hbits, hlt, -⟩ := cmp_mask_bits CmpName.less 5 [[1, 2, 3, 4], [5]]
    [[4, 4, 4, 4], [(6 : Int)]] (by decide) (by decide) (by decide)
  have hval : Vc_CMP_OPERATIONS CmpName.less 5 [[1, 2, 3, 4], [5]] [[4, 4, 4, 4], [(6 : Int)]]
      = some 23 := by decide
  rw [hval] at hbits
  simp only [Option.some.injEq] at hbits
  subst hbits
  exact ⟨hval, hlt⟩

/-! ## Claims about popcount and mask slicing -/

theorem countP_range_getD (M : List Bool) :
    (List.range M.length).countP (fun g => M.getD g false) = M.count true := by
  induction M using List.reverseRecOn with
  | nil => rfl
  | append_singleton M b ih =>
    rw [List.length_append, List.length_singleton, List.range_succ, List.countP_append,
      List.count_append]
    congr 1
    · rw [← ih]
      apply List.countP_congr
      intro g hg
      rw [List.getD_append _ _ _ _ (List.mem_range.1 hg)]
    · rw [List.countP_singleton, List.getD_append_right _ _ _ _ (le_refl _)]
      cases b <;> simp

/-- The set bits of a bitset all of whose bits are those of a bit list of length `N`. -/
theorem bitset_count_of_testBit (N : Nat) (bits : Nat) (M : List Bool) (hM : M.length = N)
    (h : ∀ g, bits.testBit g = M.getD g false) : bitset_count N bits = M.count true := by
  unfold bitset_count
  rw [← hM, ← countP_range_getD]
  apply List.countP_congr
  intro g _
  rw [h g]

/-- C11: for each compare of two composites of the same shape with `N` lanes, popcount
of the assembled `N`-bit mask equals the sum over all chunks of the number of set bits of
that chunk's native compare mask. -/
theorem popcount_cmp_mask {α : Type} [LinearOrder α] (cmp_ : CmpName) (N : Nat)
    (x y : List (List α)) (hshape : x.map List.length = y.map List.length)
    (hN : (all_lanes x).length = N) (h64 : ∀ ch ∈ x, ch.length ≤ 64)
    (hint : (N : Int) < 2 ^ 31) :
    ∃ bits, Vc_CMP_OPERATIONS cmp_ N x y = some bits ∧
      popcount N bits =
        (((List.zipWith (native_cmp (std_cmp cmp_)) x y).map native_popcount).sum : Nat) := by
  obtain ⟨bits, hbits, htest⟩ := cmp_loop_spec (std_cmp cmp_) N x y 0 0 hshape h64
    (by simp only [all_lanes] at hN; omega)
  simp only [Nat.zero_testBit, Bool.false_or, Nat.zero_le, decide_True, Bool.true_and,
    Nat.sub_zero] at htest
  have hlen : ((List.zipWith (native_cmp (std_cmp cmp_)) x y).flatten).length = N := by
    rw [flatten_native_cmp (std_cmp cmp_) x y hshape, List.length_zipWith, ← hN]
    have : (all_lanes y).length = (all_lanes x).length := by
      simp only [all_lanes, List.length_flatten, hshape]
    omega
  have hcount := bitset_count_of_testBit N bits _ hlen htest
  refine ⟨bits, hbits, ?_⟩
  have hle : bitset_count N bits ≤ N := by
    unfold bitset_count
    exact le_trans (List.countP_le_length _) (by simp)
  unfold popcount
  rw [to_int_of_small _ (by omega), hcount, List.count_flatten]
  rfl

/-- Instance of C11: `less` on a 5-lane composite of shape `[sse, scalar]`: the mask
`0b10111` has four set bits, three from the first chunk and one from the second. -/
theorem popcount_cmp_mask_witness :
    Vc_CMP_OPERATIONS CmpName.less 5 [[1, 2, 3, 4], [5]] [[4, 4, 4, 4], [(6 : Int)]] = some 23 ∧
    popcount 5 23 = 4 := by
  obtain ⟨bits, hbits, hpop⟩ := popcount_cmp_mask CmpName.less 5 [[1, 2, 3, 4], [5]]
    [[4, 4, 4, 4], [(6 : Int)]] (by decide) (by decide) (by decide) (by decide)
  have hval : Vc_CMP_OPERATIONS CmpName.less 5 [[1, 2, 3, 4], [5]] [[4, 4, 4, 4], [(6 : Int)]]
      = some 23 := by decide
  rw [hval] at hbits
  simp only [Option.some.injEq] at hbits
  subst hbits
  exact ⟨hval, hpop.trans (by decide)⟩

/-- The compare loop assembles the native compare masks of the chunk pairs. -/
theorem cmp_loop_eq_assemble {α : Type} (cmp : α → α → Bool) (N : Nat) (xs : List (List α)) :
    ∀ (ys : List (List α)) (off bits : Nat), xs.map List.length = ys.map List.length →
      for_each2 (cmp_step cmp N) off bits xs ys =
        assemble_masks N off bits (List.zipWith (native_cmp cmp) xs ys) := by
  induction xs with
  | nil =>
    intro ys off bits hshape
    cases ys with
    | nil => rfl
    | cons _ _ => simp at hshape
  | cons cx xs ih =>
    intro ys off bits hshape
    cases ys with
    | nil => simp at hshape
    | cons cy ys =>
      simp only [List.map_cons, List.cons.injEq] at hshape
      simp only [for_each2, cmp_step, List.zipWith_cons_cons, assemble_masks]
      cases to_ullong (native_cmp cmp cx cy) with
      | none => rfl
      | some v =>
        simp only
        rw [ih ys _ _ hshape.2, native_cmp_length cmp cx cy hshape.1]

/-- Bits of an assembled mask: the given masks at consecutive positions from the
offset, the earlier bits unchanged. -/
theorem assemble_masks_spec (N : Nat) (ms : List (List Bool)) :
    ∀ (off bits : Nat), (∀ m ∈ ms, m.length ≤ 64) → off + ms.flatten.length ≤ N →
      ∃ r, assemble_masks N off bits ms = some r ∧
        ∀ g, r.testBit g = (bits.testBit g ||
          (decide (off ≤ g) && ms.flatten.getD (g - off) false)) := by
  induction ms with
  | nil => intro off bits _ _; exact ⟨bits, rfl, by intro g; simp⟩
  | cons m ms ih =>
    intro off bits h64 hN
    simp only [List.mem_cons, forall_eq_or_imp] at h64
    simp only [List.flatten_cons, List.length_append] at hN
    have hv : bits_to_nat m < 2 ^ 64 :=
      lt_of_lt_of_le (bits_to_nat_lt _) (Nat.pow_le_pow_right (by decide) h64.1)
    obtain ⟨r, hr, hbits⟩ := ih (off + m.length)
      (bits ||| bitset_shl N (bitset_of_ullong N (bits_to_nat m)) off) h64.2 (by omega)
    refine ⟨r, ?_, ?_⟩
    · simp only [assemble_masks, to_ullong, hv, if_true, hr]
    · intro g
      rw [hbits g]
      simp only [bitset_shl, bitset_of_ullong, Nat.testBit_or, Nat.testBit_mod_two_pow,
        Nat.testBit_shiftLeft, testBit_bits_to_nat, List.flatten_cons]
      by_cases h1 : off ≤ g
      · by_cases h2 : g - off < m.length
        · rw [List.getD_append _ _ _ _ h2]
          have e1 : decide (g < N) = true := by simp; omega
          have e2 : decide (g ≥ off) = true := by simp; omega
          have e3 : decide (g - off < N) = true := by simp; omega
          have e4 : decide (off + m.length ≤ g) = false := by simp; omega
          have e5 : decide (off ≤ g) = true := by simp; omega
          simp only [e1, e2, e3, e4, e5, Bool.true_and, Bool.false_and, Bool.or_false]
        · rw [List.getD_append_right _ _ _ _ (by omega),
            List.getD_eq_default m false (by omega)]
          have e4 : decide (off + m.length ≤ g) = true := by simp; omega
          have e5 : decide (off ≤ g) = true := by simp; omega
          have e6 : g - (off + m.length) = g - off - m.length := by omega
          simp only [e4, e5, e6, Bool.and_false, Bool.or_false, Bool.true_and]
      · have e2 : decide (g ≥ off) = false := by simp; omega
        have e4 : decide (off + m.length ≤ g) = false := by simp; omega
        have e5 : decide (off ≤ g) = false := by simp; omega
        simp only [e2, e4, e5, Bool.false_and, Bool.and_false, Bool.or_false]

/-- A slice of an `N`-bit mask (`N ≤ 64`) holds the `w` bits from position `off`. -/
theorem partial_bitset_spec (N w off bits : Nat) (hN : N ≤ 64) (hb : bits < 2 ^ N)
    (hw : w ≤ N) :
    partial_bitset_to_member_type N w (bitset_shr bits off) =
      some ((List.range' off w).map (fun g => bits.testBit g)) := by
  have hlt : bits >>> off < 2 ^ 64 := by
    have h1 : bits >>> off ≤ bits := by
      rw [Nat.shiftRight_eq_div_pow]
      exact Nat.div_le_self _ _
    have h2 : 2 ^ N ≤ 2 ^ 64 := Nat.pow_le_pow_right (by decide) hN
    omega
  simp only [partial_bitset_to_member_type, hw, if_true, bitset_to_ullong, bitset_shr, hlt,
    native_from_bitset, bitset_of_ullong, Option.some.injEq]
  apply List.ext_getElem
  · simp
  · intro j h1 h2
    simp only [List.length_map, List.length_range] at h1
    simp [h1]


/-- Slicing a mask along chunk widths yields the bits of the mask, cut at the widths. -/
theorem slice_masks_spec (N bits : Nat) (hN : N ≤ 64) (hb : bits < 2 ^ N) (ws : List Nat) :
    ∀ off, off + ws.sum ≤ N →
      ∃ sl, slice_masks N bits off ws = some sl ∧ sl.map List.length = ws ∧
        sl.flatten = (List.range' off ws.sum).map (fun g => bits.testBit g) := by
  induction ws with
  | nil => intro off _; exact ⟨[], rfl, rfl, rfl⟩
  | cons w ws ih =>
    intro off hoff
    simp only [List.sum_cons] at hoff
    obtain ⟨sl, hsl, hlen, hflat⟩ := ih (off + w) (by omega)
    refine ⟨(List.range' off w).map (fun g => bits.testBit g) :: sl, ?_, ?_, ?_⟩
    · simp only [slice_masks, partial_bitset_spec N w off bits hN hb (by omega), hsl]
    · simp [hlen]
    · simp only [List.flatten_cons, hflat, List.sum_cons, ← List.map_append,
        List.range'_append_1, Nat.add_comm ws.sum w]

theorem eq_of_flatten_eq {β : Type} (L1 : List (List β)) :
    ∀ L2 : List (List β), L1.map List.length = L2.map List.length →
      L1.flatten = L2.flatten → L1 = L2 := by
  induction L1 with
  | nil =>
    intro L2 hlen _
    cases L2 with
    | nil => rfl
    | cons _ _ => simp at hlen
  | cons a L1 ih =>
    intro L2 hlen hflat
    cases L2 with
    | nil => simp at hlen
    | cons b L2 =>
      simp only [List.map_cons, List.cons.injEq] at hlen
      simp only [List.flatten_cons] at hflat
      obtain ⟨hab, hrest⟩ := List.append_inj hflat hlen.1
      rw [hab, ih L2 hlen.2 hrest]

theorem bits_list_eq_of_testBit (N bits : Nat) (M : List Bool) (hM : M.length = N)
    (h : ∀ g, bits.testBit g = M.getD g false) :
    (List.range' 0 N).map (fun g => bits.testBit g) = M := by
  apply List.ext_getElem
  · simp [hM]
  · intro j h1 h2
    simp only [List.getElem_map, List.getElem_range', Nat.zero_add, Nat.one_mul, h j]
    exact List.getD_eq_getElem _ _ h2

/-- C12: slicing is the inverse of assembly. For per-chunk masks `ms` covering `N ≤ 64`
bits, assembled as in the compare loop (`bits = OR_i (m_i << offset_i)`),
`partial_bitset_to_member_type` applied to `bits >> offset_i` returns exactly `m_i` for
every chunk `i`; conversely, for chunk widths `ws` summing to `N`, assembling the slices
of any `N`-bit mask `b` reproduces `b`. -/
theorem slice_inverts_assembly (N : Nat) (ms : List (List Bool)) (ws : List Nat) (b : Nat)
    (hN : N ≤ 64) (hms : ms.flatten.length = N) (hws : ws.sum = N) (hb : b < 2 ^ N) :
    (∃ bits, assemble_masks N 0 0 ms = some bits ∧ bits < 2 ^ N ∧
      (∀ i m, ms[i]? = some m →
        partial_bitset_to_member_type N m.length
          (bitset_shr bits ((ms.take i).map List.length).sum) = some m) ∧
      slice_masks N bits 0 (ms.map List.length) = some ms) ∧
    (∃ slices, slice_masks N b 0 ws = some slices ∧ slices.map List.length = ws ∧
      assemble_masks N 0 0 slices = some b) := by
  have hlen64 : ∀ (L : List (List Bool)), L.flatten.length = N → ∀ m ∈ L, m.length ≤ 64 := by
    intro L hL m hm
    have := (length_le_flatten L).1 m hm
    omega
  constructor
  · obtain ⟨bits, hbits, htest⟩ := assemble_masks_spec N ms 0 0 (hlen64 ms hms) (by omega)
    simp only [Nat.zero_testBit, Bool.false_or, Nat.zero_le, decide_True, Bool.true_and,
      Nat.sub_zero] at htest
    have hlt : bits < 2 ^ N := by
      apply Nat.lt_pow_two_of_testBit
      intro g hg
      rw [htest g]
      exact List.getD_eq_default _ _ (by omega)
    have hall := bits_list_eq_of_testBit N bits ms.flatten hms htest
    refine ⟨bits, hbits, hlt, ?_, ?_⟩
    · intro i m hm
      have hmN : m.length ≤ N := by
        have := (length_le_flatten ms).1 m (List.getElem?_mem hm)
        omega
      rw [partial_bitset_spec N m.length _ bits hN hlt hmN]
      congr 1
      apply List.ext_getElem
      · simp
      · intro j h1 h2
        simp only [List.getElem_map, List.getElem_range', Nat.one_mul, htest]
        rw [List.getD_eq_getElem?_getD, flatten_getElem? ms i m j hm h2,
          List.getElem?_eq_getElem h2]
        rfl
    · obtain ⟨sl, hsl, hsllen, hslflat⟩ := slice_masks_spec N bits hN hlt (ms.map List.length) 0
        (by rw [← List.length_flatten]; omega)
      rw [hsl]
      congr 1
      apply eq_of_flatten_eq sl ms hsllen
      rw [hslflat, ← List.length_flatten, hms, hall]
  · obtain ⟨sl, hsl, hsllen, hslflat⟩ := slice_masks_spec N b hN hb ws 0 (by omega)
    refine ⟨sl, hsl, hsllen, ?_⟩
    have hsln : sl.flatten.length = N := by rw [hslflat]; simp [hws]
    obtain ⟨r, hr, htest⟩ := assemble_masks_spec N sl 0 0 (hlen64 sl hsln) (by omega)
    rw [hr]
    congr 1
    apply Nat.eq_of_testBit_eq
    intro g
    rw [htest g]
    simp only [Nat.zero_testBit, Bool.false_or, Nat.zero_le, decide_True, Bool.true_and,
      Nat.sub_zero, hslflat, hws]
    by_cases hg : g < N
    · rw [List.getD_eq_getElem _ _ (by simpa using hg)]
      simp
    · rw [List.getD_eq_default _ _ (by simp; omega)]
      symm
      apply Nat.testBit_lt_two_pow
      exact lt_of_lt_of_le hb (Nat.pow_le_pow_right (by decide) (by omega))

/-- Instance of C12: widths `[4, 1]`; the masks `0b0111` and `0b1` assemble to `0b10111`
and the slices of `0b10111` are those masks again. -/
theorem slice_inverts_assembly_witness :
    assemble_masks 5 0 0 [[true, true, true, false], [true]] = some 23 ∧
    slice_masks 5 23 0 [4, 1] = some [[true, true, true, false], [true]] ∧
    (∃ slices, slice_masks 5 21 0 [4, 1] = some slices ∧ slices.map List.length = [4, 1] ∧
      assemble_masks 5 0 0 slices = some 21) :=
  ⟨by decide, by decide,
    (slice_inverts_assembly 5 [[true, true, true, false], [true]] [4, 1] 21 (by decide)
      (by decide) (by decide) (by decide)).2⟩

/-! ## Claims about the elementwise dispatch -/

theorem lookup_zipWith {α β γ : Type} (f : α → β → γ) (X : List α) (Y : List β)
    (h : X.length = Y.length) (i : Nat) (hi : i < X.length) :
    ∃ a b, X[i]? = some a ∧ Y[i]? = some b ∧ (List.zipWith f X Y)[i]? = some (f a b) := by
  refine ⟨X[i], Y[i], List.getElem?_eq_getElem hi, List.getElem?_eq_getElem (by omega), ?_⟩
  rw [List.getElem?_zipWith, List.getElem?_eq_getElem hi,
    List.getElem?_eq_getElem (by omega : i < Y.length)]

/-- Chunkwise application of a lane-wise operation is the lane-wise operation on all
lanes and keeps the shape. -/
theorem apply2_lanewise {α : Type} (op : α → α → α) (x : List (List α)) :
    ∀ y : List (List α), x.map List.length = y.map List.length →
      ∃ r, apply2 (fun xx yy => lanewise op xx yy) x y = some r ∧
        r.map List.length = x.map List.length ∧
        all_lanes r = List.zipWith op (all_lanes x) (all_lanes y) := by
  induction x with
  | nil =>
    intro y hshape
    cases y with
    | nil => exact ⟨[], rfl, rfl, rfl⟩
    | cons _ _ => simp at hshape
  | cons xx xs ih =>
    intro y hshape
    cases y with
    | nil => simp at hshape
    | cons yy ys =>
      simp only [List.map_cons, List.cons.injEq] at hshape
      obtain ⟨r, hr, hlen, hlanes⟩ := ih ys hshape.2
      refine ⟨lanewise op xx yy :: r, ?_, ?_, ?_⟩
      · simp only [apply2, hr]
      · simp [hlen, lanewise, hshape.1]
      · simp only [all_lanes, List.flatten_cons] at hlanes ⊢
        rw [hlanes, List.zipWith_append _ _ _ _ _ hshape.1]
        rfl

theorem all_lanes_length_eq {α : Type} (x y : List (List α))
    (hshape : x.map List.length = y.map List.length) :
    (all_lanes x).length = (all_lanes y).length := by
  simp only [all_lanes, List.length_flatten, hshape]

/-- C13: for every operation generated by `Vc_FIXED_OP` (plus, minus, multiplies, divides,
modulus, bit_and, bit_or, bit_xor, bit_shift_left, bit_shift_right) and two composites
`x`, `y` of the same shape, the result has the same shape and its lane `i` is the
operation applied to lane `i` of `x` and lane `i` of `y`, for every `i < N`. -/
theorem fixed_op_lanewise {α : Type} (scalar_op : FixedOpName → α → α → α)
    (name_ : FixedOpName) (x y : List (List α))
    (hshape : x.map List.length = y.map List.length) :
    ∃ r, Vc_FIXED_OP scalar_op name_ x y = some r ∧
      r.map List.length = x.map List.length ∧
      all_lanes r = List.zipWith (scalar_op name_) (all_lanes x) (all_lanes y) ∧
      ∀ i, i < (all_lanes x).length → ∃ a b, (all_lanes x)[i]? = some a ∧
        (all_lanes y)[i]? = some b ∧ (all_lanes r)[i]? = some (scalar_op name_ a b) := by
  obtain ⟨r, hr, hlen, hlanes⟩ := apply2_lanewise (scalar_op name_) x y hshape
  refine ⟨r, hr, hlen, hlanes, ?_⟩
  intro i hi
  rw [hlanes]
  exact lookup_zipWith _ _ _ (all_lanes_length_eq x y hshape) i hi

/-- Instance of C13: `plus` and `bit_shift_left` of 32-bit unsigned integers on a 5-lane
composite of shape `[sse, scalar]`. -/
theorem fixed_op_lanewise_witness :
    Vc_FIXED_OP (uint_op 32) FixedOpName.plus [[1, 2, 3, 4294967295], [5]] [[10, 20, 30, 1], [50]]
      = some [[11, 22, 33, 0], [55]] ∧
    (∃ r, Vc_FIXED_OP (uint_op 32) FixedOpName.bit_shift_left [[1, 2, 3, 4], [5]]
        [[1, 1, 1, 1], [2]] = some r ∧ all_lanes r = [2, 4, 6, 8, 20]) := by
  refine ⟨by decide, ?_⟩
  obtain ⟨r, hr, -, hlanes, -⟩ := fixed_op_lanewise (uint_op 32) FixedOpName.bit_shift_left
    [[1, 2, 3, 4], [5]] [[1, 1, 1, 1], [2]] (by decide)
  exact ⟨r, hr, hlanes.trans (by decide)⟩

/-! ## Claims about the masked operations -/

theorem lanes3_length {α : Type} (h : Bool → α → α → α) (k : List Bool) (a b : List α)
    (hka : k.length = a.length) (hab : a.length = b.length) :
    (lanes3 h k a b).length = a.length := by
  simp [lanes3, hka, hab]

theorem lanes3_append {α : Type} (h : Bool → α → α → α) (k1 k2 : List Bool)
    (a1 a2 b1 b2 : List α) (hka : k1.length = a1.length) (hab : a1.length = b1.length) :
    lanes3 h (k1 ++ k2) (a1 ++ a2) (b1 ++ b2) = lanes3 h k1 a1 b1 ++ lanes3 h k2 a2 b2 := by
  unfold lanes3
  rw [List.zip_append hka, List.zipWith_append _ _ _ _ _ (by simp [hka, hab])]

theorem lanes2_append {α : Type} (h : Bool → α → α) (k1 k2 : List Bool) (a1 a2 : List α)
    (hka : k1.length = a1.length) :
    lanes2 h (k1 ++ k2) (a1 ++ a2) = lanes2 h k1 a1 ++ lanes2 h k2 a2 := by
  unfold lanes2
  rw [List.zipWith_append _ _ _ _ _ hka]

theorem range'_split_map (tb : Nat → Bool) (off w s : Nat) :
    (List.range' off (w + s)).map tb =
      (List.range' off w).map tb ++ (List.range' (off + w) s).map tb := by
  rw [← List.map_append, List.range'_append_1, Nat.add_comm s w]

/-- A loop over two tuples whose body applies a masked lane operation with the mask bits
of the chunk's own offset range applies it to all lanes with the bits of the whole
range, and keeps the shape. -/
theorem for_each_update2_lanes {α : Type} (N : Nat) (tb : Nat → Bool)
    (h : Bool → α → α → α) (f : List α → List α → Nat → Option (List α))
    (hf : ∀ nl nr o, nl.length = nr.length → o + nl.length ≤ N →
      f nl nr o = some (lanes3 h ((List.range' o nl.length).map tb) nl nr))
    (lhs : List (List α)) :
    ∀ (rhs : List (List α)) (off : Nat), lhs.map List.length = rhs.map List.length →
      off + (all_lanes lhs).length ≤ N →
      ∃ r, for_each_update2 f off lhs rhs = some r ∧
        r.map List.length = lhs.map List.length ∧
        all_lanes r = lanes3 h ((List.range' off (all_lanes lhs).length).map tb)
          (all_lanes lhs) (all_lanes rhs) ∧
        ∀ i nl nr, lhs[i]? = some nl → rhs[i]? = some nr →
          r[i]? = some (lanes3 h
            ((List.range' (off + ((lhs.take i).map List.length).sum) nl.length).map tb)
            nl nr) := by
  induction lhs with
  | nil =>
    intro rhs off hshape _
    cases rhs with
    | nil => exact ⟨[], rfl, rfl, rfl, by intro i nl nr hnl; simp at hnl⟩
    | cons _ _ => simp at hshape
  | cons nl ls ih =>
    intro rhs off hshape hN
    cases rhs with
    | nil => simp at hshape
    | cons nr rs =>
      simp only [List.map_cons, List.cons.injEq] at hshape
      simp only [all_lanes, List.flatten_cons, List.length_append] at hN ⊢
      obtain ⟨r, hr, hlen, hlanes, hchunk⟩ := ih rs (off + nl.length) hshape.2
        (by simp only [all_lanes]; omega)
      simp only [all_lanes] at hlanes
      refine ⟨lanes3 h ((List.range' off nl.length).map tb) nl nr :: r, ?_, ?_, ?_, ?_⟩
      rotate_left 3
      · intro i cl cr hcl hcr
        cases i with
        | zero =>
          simp only [List.getElem?_cons_zero, Option.some.injEq] at hcl hcr
          subst hcl
          subst hcr
          simp
        | succ i =>
          simp only [List.getElem?_cons_succ] at hcl hcr ⊢
          rw [hchunk i cl cr hcl hcr]
          simp only [List.take_succ_cons, List.map_cons, List.sum_cons, Nat.add_assoc]
      · simp only [for_each_update2, hf nl nr off hshape.1 (by omega), hr]
      · simp only [List.map_cons, hlen,
          lanes3_length h ((List.range' off nl.length).map tb) nl nr (by simp) hshape.1]
      · rw [List.flatten_cons, hlanes, range'_split_map,
          lanes3_append h _ _ nl _ nr _ (by simp) hshape.1]

/-- The one-tuple counterpart of `for_each_update2_lanes`. -/
theorem for_each_update1_lanes {α : Type} (N : Nat) (tb : Nat → Bool) (h : Bool → α → α)
    (f : List α → Nat → Option (List α))
    (hf : ∀ nl o, o + nl.length ≤ N →
      f nl o = some (lanes2 h ((List.range' o nl.length).map tb) nl))
    (lhs : List (List α)) :
    ∀ (off : Nat), off + (all_lanes lhs).length ≤ N →
      ∃ r, for_each_update1 f off lhs = some r ∧ r.map List.length = lhs.map List.length ∧
        all_lanes r =
          lanes2 h ((List.range' off (all_lanes lhs).length).map tb) (all_lanes lhs) := by
  induction lhs with
  | nil => intro off _; exact ⟨[], rfl, rfl, rfl⟩
  | cons nl ls ih =>
    intro off hN
    simp only [all_lanes, List.flatten_cons, List.length_append] at hN ⊢
    obtain ⟨r, hr, hlen, hlanes⟩ := ih (off + nl.length) (by simp only [all_lanes]; omega)
    simp only [all_lanes] at hlanes
    refine ⟨lanes2 h ((List.range' off nl.length).map tb) nl :: r, ?_, ?_, ?_⟩
    · simp only [for_each_update1, hf nl off (by omega), hr]
    · simp [hlen, lanes2]
    · rw [List.flatten_cons, hlanes, range'_split_map, lanes2_append h _ _ nl _ (by simp)]

theorem native_from_bitset_eq (N bits : Nat) :
    native_from_bitset N bits = (List.range' 0 N).map (fun g => bits.testBit g) := by
  simp [native_from_bitset, List.range_eq_range']

/-- Lookup in a masked lane operation on equally long lists. -/
theorem lookup_lanes3 {α : Type} (h : Bool → α → α → α) (N bits : Nat) (L R : List α)
    (hL : L.length = N) (hR : R.length = N) (i : Nat) (hi : i < N) :
    ∃ l r, L[i]? = some l ∧ R[i]? = some r ∧
      (lanes3 h (native_from_bitset N bits) L R)[i]? = some (h (bits.testBit i) l r) := by
  refine ⟨L[i], R[i], List.getElem?_eq_getElem (by omega), List.getElem?_eq_getElem (by omega),
    ?_⟩
  have hk : (native_from_bitset N bits)[i]? = some (bits.testBit i) := by
    simp [native_from_bitset, hi]
  have hz : ((native_from_bitset N bits).zip L)[i]? = some (bits.testBit i, L[i]) :=
    List.getElem?_zip_eq_some.2 ⟨hk, List.getElem?_eq_getElem (by omega : i < L.length)⟩
  simp only [lanes3, List.getElem?_zipWith, hz,
    List.getElem?_eq_getElem (by omega : i < R.length)]

theorem lookup_lanes2 {α : Type} (h : Bool → α → α) (N bits : Nat) (L : List α)
    (hL : L.length = N) (i : Nat) (hi : i < N) :
    ∃ l, L[i]? = some l ∧
      (lanes2 h (native_from_bitset N bits) L)[i]? = some (h (bits.testBit i) l) := by
  refine ⟨L[i], List.getElem?_eq_getElem (by omega), ?_⟩
  have hk : (native_from_bitset N bits)[i]? = some (bits.testBit i) := by
    simp [native_from_bitset, hi]
  simp only [lanes2, List.getElem?_zipWith, hk,
    List.getElem?_eq_getElem (by omega : i < L.length)]


theorem lanes3_replicate {α : Type} (h : Bool → α → α → α) (s : α) (K : List Bool) :
    ∀ L : List α, K.length = L.length →
      lanes3 h K L (List.replicate L.length s) = lanes2 (fun k l => h k l s) K L := by
  induction K with
  | nil => intro L hL; simp [lanes3, lanes2]
  | cons k K ih =>
    intro L hL
    cases L with
    | nil => simp at hL
    | cons l L =>
      have := ih L (by simpa using hL)
      simp only [lanes3, lanes2, List.length_cons, List.replicate_succ, List.zip_cons_cons,
        List.zipWith_cons_cons, List.cons.injEq, true_and] at this ⊢
      exact this

theorem lanes3_ignore_left {α : Type} (g : Bool → α → α) (K : List Bool) :
    ∀ (L R : List α), K.length = L.length → L.length = R.length →
      lanes3 (fun k _ d => g k d) K L R = lanes2 g K R := by
  induction K with
  | nil => intro L R _ _; simp [lanes3, lanes2]
  | cons k K ih =>
    intro L R hL hR
    cases L with
    | nil => simp at hL
    | cons l L =>
      cases R with
      | nil => simp at hR
      | cons r R =>
        have := ih L R (by simpa using hL) (by simpa using hR)
        simp only [lanes3, lanes2, List.zip_cons_cons, List.zipWith_cons_cons, List.cons.injEq,
          true_and] at this ⊢
        exact this

theorem lanes3_all_false {α : Type} (h : Bool → α → α → α) (hfalse : ∀ l r, h false l r = l)
    (K : List Bool) :
    ∀ (L R : List α), K.length = L.length → L.length = R.length → (∀ k ∈ K, k = false) →
      lanes3 h K L R = L := by
  induction K with
  | nil =>
    intro L R hL _ _
    cases L with
    | nil => simp [lanes3]
    | cons _ _ => simp at hL
  | cons k K ih =>
    intro L R hL hR hall
    cases L with
    | nil => simp at hL
    | cons l L =>
      cases R with
      | nil => simp at hR
      | cons r R =>
        simp only [List.mem_cons, forall_eq_or_imp] at hall
        have := ih L R (by simpa using hL) (by simpa using hR) hall.2
        simp only [lanes3, List.zip_cons_cons, List.zipWith_cons_cons, List.cons.injEq] at this ⊢
        exact ⟨by rw [hall.1]; exact hfalse l r, this⟩


/-- C14: for an `N`-bit mask `bits` (`N ≤ 64`) and composites `lhs`, `rhs` of the same
tuple type with `N` lanes, `fixed_size_datapar_impl::masked_assign(bits, lhs, rhs)`
completes, keeps the shape of `lhs`, and leaves in lane `i` of `lhs` the lane `get(rhs, i)`
when bit `i` of `bits` is set and the previous lane when it is clear, for every `i < N`;
the scalar overload gives the same result as the tuple overload with `broadcast(rhs)`. -/
theorem masked_assign_lanes {α : Type} (reg : Registry) (As : List Abi) (N bits : Nat)
    (hN : N ≤ 64) (hb : bits < 2 ^ N) (lhs rhs : List (List α))
    (hl : well_shaped reg As lhs) (hr : well_shaped reg As rhs)
    (hlanes : total_lanes reg As = N) (s : α) :
    (∃ lhs1, fixed_size_datapar_impl.masked_assign N bits lhs rhs = some lhs1 ∧
      well_shaped reg As lhs1 ∧
      ∀ i, i < N → ∃ l r, (all_lanes lhs)[i]? = some l ∧ (all_lanes rhs)[i]? = some r ∧
        (all_lanes lhs1)[i]? = some (if bits.testBit i then r else l)) ∧
    fixed_size_datapar_impl.masked_assign_scalar N bits lhs s =
      fixed_size_datapar_impl.masked_assign N bits lhs (broadcast reg As s) := by
  have hL : (all_lanes lhs).length = N := by rw [all_lanes_length reg As lhs hl, hlanes]
  have hR : (all_lanes rhs).length = N := by rw [all_lanes_length reg As rhs hr, hlanes]
  have hf : ∀ (nl nr : List α) (o : Nat), nl.length = nr.length → o + nl.length ≤ N →
      (match partial_bitset_to_member_type N nl.length (bitset_shr bits o) with
        | none => none
        | some k => some (native_masked_assign k nl nr)) =
      some (lanes3 masked_assign ((List.range' o nl.length).map (fun g => bits.testBit g))
        nl nr) := by
    intro nl nr o _ ho
    rw [partial_bitset_spec N nl.length o bits hN hb (by omega)]
    rfl
  have hf1 : ∀ (nl : List α) (o : Nat), o + nl.length ≤ N →
      (match partial_bitset_to_member_type N nl.length (bitset_shr bits o) with
        | none => none
        | some k => some (native_masked_assign_scalar k nl s)) =
      some (lanes2 (fun k l => masked_assign k l s)
        ((List.range' o nl.length).map (fun g => bits.testBit g)) nl) := by
    intro nl o ho
    rw [partial_bitset_spec N nl.length o bits hN hb (by omega)]
    rfl
  constructor
  · obtain ⟨r, hr1, hlen, hall, _⟩ := for_each_update2_lanes N (fun g => bits.testBit g)
      masked_assign _ hf lhs rhs 0 (by rw [hl, hr]) (by omega)
    refine ⟨r, hr1, by rw [well_shaped, hlen, hl], ?_⟩
    intro i hi
    rw [hall, hL, ← native_from_bitset_eq]
    obtain ⟨l, r0, h1, h2, h3⟩ := lookup_lanes3 masked_assign N bits (all_lanes lhs)
      (all_lanes rhs) hL hR i hi
    exact ⟨l, r0, h1, h2, by rw [h3]; rfl⟩
  · obtain ⟨r1, hr1, hlen1, hall1⟩ := for_each_update1_lanes N (fun g => bits.testBit g)
      (fun k l => masked_assign k l s) _ hf1 lhs 0 (by omega)
    obtain ⟨r2, hr2, hlen2, hall2, _⟩ := for_each_update2_lanes N (fun g => bits.testBit g)
      masked_assign _ hf lhs (broadcast reg As s) 0
      (by rw [hl, well_shaped_broadcast reg As s]) (by omega)
    have heq : r1 = r2 := by
      apply eq_of_flatten_eq r1 r2 (by rw [hlen1, hlen2])
      have h1 := hall1
      have h2 := hall2
      simp only [all_lanes] at h1 h2
      rw [h1, h2]
      have hrep := lanes3_replicate masked_assign s
        ((List.range' 0 (all_lanes lhs).length).map (fun g => bits.testBit g))
        (all_lanes lhs) (by simp)
      have hb2 := all_lanes_broadcast reg As s
      rw [hlanes, ← hL] at hb2
      simp only [all_lanes] at hrep hb2
      rw [hb2, hrep]
    unfold fixed_size_datapar_impl.masked_assign_scalar fixed_size_datapar_impl.masked_assign
    rw [hr1, hr2, heq]

/-- An instance of C14: a 4-byte integer with `N = 5` on an SSE build (chunks of 4 and 1
lanes) and the mask `0b10101`. -/
theorem masked_assign_lanes_witness :
    (∃ lhs1, fixed_size_datapar_impl.masked_assign 5 0b10101 [[1, 2, 3, 4], [5]]
        [[10, 20, 30, 40], [50]] = some lhs1 ∧
      well_shaped (int_registry false) [Abi.sse, Abi.scalar] lhs1 ∧
      ∀ i, i < 5 → ∃ l r, (all_lanes [[1, 2, 3, 4], [5]])[i]? = some l ∧
        (all_lanes [[10, 20, 30, 40], [50]])[i]? = some r ∧
        (all_lanes lhs1)[i]? = some (if (0b10101 : Nat).testBit i then r else l)) ∧
    fixed_size_datapar_impl.masked_assign_scalar 5 0b10101 [[1, 2, 3, 4], [5]] 9 =
      fixed_size_datapar_impl.masked_assign 5 0b10101 [[1, 2, 3, 4], [5]]
        (broadcast (int_registry false) [Abi.sse, Abi.scalar] 9) :=
  masked_assign_lanes (int_registry false) [Abi.sse, Abi.scalar] 5 0b10101 (by decide)
    (by decide) [[1, 2, 3, 4], [5]] [[10, 20, 30, 40], [50]] (by decide) (by decide)
    (by decide) 9

/-- The typed loop over chunk pairs is the untyped loop when the body does not depend on
the chunk type for the chunks it meets. -/
theorem for_each_update2_typed_eq {α : Type}
    (f : Abi → List α → List α → Nat → Option (List α))
    (g : List α → List α → Nat → Option (List α)) (As : List Abi) :
    ∀ (lhs rhs : List (List α)) (off : Nat), As.length = lhs.length →
      lhs.length = rhs.length →
      (∀ q, q ∈ As.zip (lhs.zip rhs) → ∀ o, f q.1 q.2.1 q.2.2 o = g q.2.1 q.2.2 o) →
      for_each_update2_typed f off As lhs rhs = for_each_update2 g off lhs rhs := by
  induction As with
  | nil =>
    intro lhs rhs off h1 h2 _
    cases lhs with
    | nil =>
      cases rhs with
      | nil => rfl
      | cons _ _ => simp at h2
    | cons _ _ => simp at h1
  | cons A As ih =>
    intro lhs rhs off h1 h2 hq
    cases lhs with
    | nil => simp at h1
    | cons nl ls =>
      cases rhs with
      | nil => simp at h2
      | cons nr rs =>
        have e1 : f A nl nr off = g nl nr off := hq (A, nl, nr) (by simp) off
        have e2 := ih ls rs (off + nl.length) (by simpa using h1) (by simpa using h2)
          (fun q hq1 o => hq q (by
            simp only [List.zip_cons_cons, List.mem_cons]
            exact Or.inr hq1) o)
        simp only [for_each_update2_typed, for_each_update2, e1, e2]

/-- Unit `j` of the register that holds the lanes `l` is lane `j`, cut to `w` bits. -/
theorem register_unit_to_register (w : Nat) (l : List Nat) :
    ∀ j, register_unit w (to_register w l) j = l.getD j 0 % 2 ^ w := by
  induction l with
  | nil => intro j; simp [register_unit, to_register]
  | cons x xs ih =>
    intro j
    have hpos : 0 < 2 ^ w := Nat.two_pow_pos w
    cases j with
    | zero =>
      simp only [register_unit, to_register, Nat.mul_zero, Nat.shiftRight_zero,
        Nat.add_mul_mod_self_left, Nat.mod_mod, List.getD_cons_zero]
    | succ j =>
      have hdiv : (x % 2 ^ w + 2 ^ w * to_register w xs) / 2 ^ w = to_register w xs := by
        rw [Nat.add_mul_div_left _ _ hpos, Nat.div_eq_of_lt (Nat.mod_lt _ hpos), Nat.zero_add]
      have := ih j
      simp only [register_unit, Nat.shiftRight_eq_div_pow] at this ⊢
      simp only [to_register, List.getD_cons_succ, Nat.mul_succ, Nat.pow_add]
      rw [Nat.mul_comm (2 ^ (w * j)) (2 ^ w), ← Nat.div_div_eq_div_mul, hdiv]
      exact this

/-- Lookup in a masked lane operation on lists of one length. -/
theorem getElem?_lanes3 {α : Type} (h : Bool → α → α → α) (K : List Bool) (L R : List α)
    (j : Nat) (hK : j < K.length) (hL : j < L.length) (hR : j < R.length) :
    (lanes3 h K L R)[j]? = some (h K[j] L[j] R[j]) := by
  have hz : (K.zip L)[j]? = some (K[j], L[j]) :=
    List.getElem?_zip_eq_some.2 ⟨List.getElem?_eq_getElem hK, List.getElem?_eq_getElem hL⟩
  simp only [lanes3, List.getElem?_zipWith, hz, List.getElem?_eq_getElem hR]

theorem getD_of_lt {β : Type} (l : List β) (j : Nat) (d : β) (h : j < l.length) :
    l.getD j d = l[j] := by
  rw [List.getD_eq_getElem?_getD, List.getElem?_eq_getElem h]
  rfl

/-- A masked operation on the units of registers, read back as lanes, is the masked lane
operation when units and lanes have the same width, the operands are valid
representations and the unit operation agrees with `Op` on them. -/
theorem masked_units_lanewise (w n : Nat) (unit_op Op : Nat → Nat → Nat) (k : List Bool)
    (lhs rhs : List Nat) (hk : k.length = n) (hl : lhs.length = n) (hr : rhs.length = n)
    (hlb : ∀ x ∈ lhs, x < 2 ^ w) (hrb : ∀ x ∈ rhs, x < 2 ^ w)
    (hop : ∀ a b, a < 2 ^ w → b < 2 ^ w → unit_op a b = Op a b ∧ Op a b < 2 ^ w) :
    from_register w n (to_register w ((List.range n).map (fun j =>
        if (bits_to_nat k % 2 ^ n).testBit j then
          unit_op (register_unit w (to_register w lhs) j) (register_unit w (to_register w rhs) j)
        else register_unit w (to_register w lhs) j))) =
      lanes3 (masked_cassign Op) k lhs rhs := by
  have hkb : bits_to_nat k < 2 ^ n := by
    have := bits_to_nat_lt k
    rwa [hk] at this
  apply List.ext_getElem?
  intro j
  by_cases hj : j < n
  · have hjk : j < k.length := by omega
    have hjl : j < lhs.length := by omega
    have hjr : j < rhs.length := by omega
    rw [getElem?_lanes3 _ k lhs rhs j hjk hjl hjr]
    have hlj : lhs[j] < 2 ^ w := hlb _ (List.getElem_mem hjl)
    have hrj : rhs[j] < 2 ^ w := hrb _ (List.getElem_mem hjr)
    simp only [from_register, List.getElem?_map, List.getElem?_range hj, Option.map_some',
      Option.some.injEq, register_unit_to_register, Nat.mod_eq_of_lt hkb, testBit_bits_to_nat]
    rw [List.getD_eq_getElem?_getD, List.getElem?_map, List.getElem?_range hj]
    simp only [Option.map_some', Option.getD_some, getD_of_lt lhs j 0 hjl,
      getD_of_lt rhs j 0 hjr, getD_of_lt k j false hjk, Nat.mod_eq_of_lt hlj,
      Nat.mod_eq_of_lt hrj, masked_cassign]
    cases k[j] with
    | true =>
      simp only [if_true]
      rw [(hop _ _ hlj hrj).1, Nat.mod_eq_of_lt (hop _ _ hlj hrj).2]
    | false =>
      simp only [Bool.false_eq_true, if_false]
      rw [Nat.mod_eq_of_lt hlj]
  · have h2 : (lanes3 (masked_cassign Op) k lhs rhs).length = n := by
      simp [lanes3, hk, hl, hr]
    rw [List.getElem?_eq_none (by simp [from_register]; omega),
      List.getElem?_eq_none (by omega)]

/-- Where the units of the intrinsic are the lanes of the element type, the body of the
explicit specialisation updates lane by lane: for `64 / s` lanes of `s` bytes, units of
`8 * s` bits, operands that are valid representations and a unit operation that agrees
with `Op` on them, the result is that of the primary template. -/
theorem specialization_lanewise (s : Nat) (TYPE_SUFFIX_ : Suffix)
    (hw : TYPE_SUFFIX_.bits = 8 * s) (unit_op Op : Nat → Nat → Nat) (k : List Bool)
    (lhs rhs : List Nat) (hk : k.length = 64 / s) (hl : lhs.length = 64 / s)
    (hr : rhs.length = 64 / s) (hlb : ∀ x ∈ lhs, x < 2 ^ (8 * s))
    (hrb : ∀ x ∈ rhs, x < 2 ^ (8 * s))
    (hop : ∀ a b, a < 2 ^ (8 * s) → b < 2 ^ (8 * s) →
      unit_op a b = Op a b ∧ Op a b < 2 ^ (8 * s)) :
    Vc_MASKED_CASSIGN_SPECIALIZATION s TYPE_SUFFIX_ unit_op k lhs rhs =
      native_masked_cassign Op k lhs rhs := by
  have hn : 512 / (8 * s) = 64 / s := by
    rw [← Nat.div_div_eq_div_mul]
  unfold Vc_MASKED_CASSIGN_SPECIALIZATION mm512_mask_op native_masked_cassign
  rw [hw, hn]
  exact masked_units_lanewise (8 * s) (64 / s) unit_op Op k lhs rhs hk hl hr hlb hrb hop

/-- The units of an explicit specialisation are the lanes of its element type, except for
`long` and `unsigned long` where these have 4 bytes. -/
theorem specialization_width (full_avx512 : Bool) (T : ElementType) (Op : FixedOpName)
    (TYPE_SUFFIX_ : Suffix)
    (h : masked_cassign_specialization full_avx512 T Op = some TYPE_SUFFIX_)
    (sizeof_long : Nat)
    (hlong : T = ElementType.long ∨ T = ElementType.ulong → sizeof_long = 8) :
    TYPE_SUFFIX_.bits = 8 * sizeof sizeof_long T := by
  unfold masked_cassign_specialization at h
  split at h
  · cases T <;> cases full_avx512 <;>
      simp only [Option.some.injEq, if_true, if_false, Bool.false_eq_true, reduceCtorEq] at h <;>
      subst h <;> simp [Suffix.bits, sizeof] at hlong ⊢ <;> omega
  · exact Option.noConfusion h

/-- The kernel that a chunk resolves to is the lane-wise update of the primary template
when the chunk is not an AVX-512 chunk, when no explicit specialisation is declared for
the element type and the operation, or when the units of the specialisation are the lanes
of the chunk. -/
theorem get_impl_t_masked_cassign_lanewise (sizeof_long : Nat) (full_avx512 : Bool)
    (T : ElementType) (scalar_op : FixedOpName → Nat → Nat → Nat) (Op : FixedOpName) (A : Abi)
    (k : List Bool) (lhs rhs : List Nat)
    (h : A = Abi.avx512 → ∀ sfx, masked_cassign_specialization full_avx512 T Op = some sfx →
      sfx.bits = 8 * sizeof sizeof_long T ∧ k.length = 64 / sizeof sizeof_long T ∧
      lhs.length = 64 / sizeof sizeof_long T ∧ rhs.length = 64 / sizeof sizeof_long T ∧
      (∀ x ∈ lhs, x < 2 ^ (8 * sizeof sizeof_long T)) ∧
      (∀ x ∈ rhs, x < 2 ^ (8 * sizeof sizeof_long T)) ∧
      ∀ a b, a < 2 ^ (8 * sizeof sizeof_long T) → b < 2 ^ (8 * sizeof sizeof_long T) →
        intrinsic_op scalar_op Op sfx a b = scalar_op Op a b ∧
        scalar_op Op a b < 2 ^ (8 * sizeof sizeof_long T)) :
    get_impl_t.masked_cassign sizeof_long full_avx512 T scalar_op Op A k lhs rhs =
      native_masked_cassign (scalar_op Op) k lhs rhs := by
  cases hsp : masked_cassign_specialization full_avx512 T Op with
  | none => cases A <;> simp only [get_impl_t.masked_cassign, hsp]
  | some sfx =>
    cases A with
    | avx512 =>
      obtain ⟨hw, hk, hl, hr, hlb, hrb, hop⟩ := h rfl sfx hsp
      simp only [get_impl_t.masked_cassign, hsp]
      exact specialization_lanewise _ sfx hw _ _ k lhs rhs hk hl hr hlb hrb hop
    | avx => simp only [get_impl_t.masked_cassign, hsp]
    | neon => simp only [get_impl_t.masked_cassign, hsp]
    | sse => simp only [get_impl_t.masked_cassign, hsp]
    | scalar => simp only [get_impl_t.masked_cassign, hsp]

/-- The native mask that `partial_bitset_to_member_type` returns has the width of the
chunk. -/
theorem partial_bitset_length (N w x : Nat) (k : List Bool)
    (h : partial_bitset_to_member_type N w x = some k) : k.length = w := by
  unfold partial_bitset_to_member_type at h
  split at h
  · split at h
    · exact Option.noConfusion h
    · simp only [Option.some.injEq] at h
      rw [← h]
      simp [native_from_bitset]
  · exact Option.noConfusion h

/-- The loop of `masked_cassign` with the lane-wise kernel for every chunk: it completes,
keeps the shape, and leaves in lane `i` of `lhs` the value `Op(old lhs_i, rhs_i)` when bit
`i` is set and the old lane when it is clear; with an all-false mask `lhs` is unchanged,
and a chunk whose sub-mask is all false is unchanged. -/
theorem masked_cassign_loop_lanes {α : Type} (Op : α → α → α) (N bits : Nat)
    (hN : N ≤ 64) (hb : bits < 2 ^ N) (lhs rhs : List (List α))
    (hshape : lhs.map List.length = rhs.map List.length)
    (hL : (all_lanes lhs).length = N) :
    ∃ lhs1, for_each_update2 (fun native_lhs native_rhs offset =>
        match partial_bitset_to_member_type N native_rhs.length (bitset_shr bits offset) with
        | none => none
        | some k => some (native_masked_cassign Op k native_lhs native_rhs)) 0 lhs rhs =
        some lhs1 ∧
      lhs1.map List.length = lhs.map List.length ∧
      (∀ i, i < N → ∃ l r, (all_lanes lhs)[i]? = some l ∧ (all_lanes rhs)[i]? = some r ∧
        (all_lanes lhs1)[i]? = some (if bits.testBit i then Op l r else l)) ∧
      (bits = 0 → lhs1 = lhs) ∧
      (∀ i nl, lhs[i]? = some nl →
        (∀ j, j < nl.length →
          bits.testBit (((lhs.take i).map List.length).sum + j) = false) →
        lhs1[i]? = some nl) := by
  have hR : (all_lanes rhs).length = N := by rw [← all_lanes_length_eq lhs rhs hshape, hL]
  have hf : ∀ (nl nr : List α) (o : Nat), nl.length = nr.length → o + nl.length ≤ N →
      (match partial_bitset_to_member_type N nr.length (bitset_shr bits o) with
        | none => none
        | some k => some (native_masked_cassign Op k nl nr)) =
      some (lanes3 (masked_cassign Op)
        ((List.range' o nl.length).map (fun g => bits.testBit g)) nl nr) := by
    intro nl nr o hlen ho
    rw [← hlen, partial_bitset_spec N nl.length o bits hN hb (by omega)]
    rfl
  obtain ⟨r, hr1, hlen, hall, hchunk⟩ := for_each_update2_lanes N (fun g => bits.testBit g)
    (masked_cassign Op) _ hf lhs rhs 0 hshape (by omega)
  refine ⟨r, hr1, hlen, ?_, ?_, ?_⟩
  · intro i hi
    rw [hall, hL, ← native_from_bitset_eq]
    obtain ⟨l, r0, h1, h2, h3⟩ := lookup_lanes3 (masked_cassign Op) N bits (all_lanes lhs)
      (all_lanes rhs) hL hR i hi
    exact ⟨l, r0, h1, h2, by rw [h3]; rfl⟩
  · intro h0
    apply eq_of_flatten_eq r lhs hlen
    have h1 := hall
    simp only [all_lanes] at h1 hL hR
    rw [h1]
    apply lanes3_all_false (masked_cassign Op) (fun _ _ => rfl) _ _ _ (by simp)
      (by rw [hL, hR])
    intro k hk
    simp only [List.mem_map, h0, Nat.zero_testBit] at hk
    obtain ⟨_, _, hk⟩ := hk
    exact hk.symm
  · intro i nl hnl hfalse
    have hi : i < lhs.length := by
      by_contra hcon
      rw [List.getElem?_eq_none (by omega)] at hnl
      exact Option.noConfusion hnl
    have hi2 : i < rhs.length := by
      have := congrArg List.length hshape
      simp only [List.length_map] at this
      omega
    have hlen2 : nl.length = rhs[i].length := by
      have h1 := congrArg (fun L => L[i]?) hshape
      simp only [List.getElem?_map, hnl, List.getElem?_eq_getElem hi2, Option.map_some',
        Option.some.injEq] at h1
      exact h1
    rw [hchunk i nl rhs[i] hnl (List.getElem?_eq_getElem hi2)]
    congr 1
    apply lanes3_all_false (masked_cassign Op) (fun _ _ => rfl) _ _ _ (by simp) hlen2
    intro k hk
    simp only [List.mem_map, List.mem_range'_1, Nat.zero_add] at hk
    obtain ⟨g, ⟨hg1, hg2⟩, hk⟩ := hk
    have := hfalse (g - ((lhs.take i).map List.length).sum) (by omega)
    rw [Nat.add_sub_cancel' hg1] at this
    rw [← hk, this]

/-- Where the kernel of every chunk is the lane-wise update (see
`get_impl_t_masked_cassign_lanewise`), `masked_cassign<Op>(bits, lhs, rhs)` completes, keeps
the shape, and leaves in lane `i` of `lhs` the value `Op(old lhs_i, rhs_i)` when bit `i` is
set and the old lane when it is clear; with an all-false mask `lhs` is unchanged, and a
chunk whose sub-mask is all false is unchanged. -/
theorem masked_cassign_lanewise_chunks (sizeof_long : Nat) (full_avx512 : Bool)
    (T : ElementType) (scalar_op : FixedOpName → Nat → Nat → Nat) (Op : FixedOpName)
    (N bits : Nat) (hN : N ≤ 64) (hb : bits < 2 ^ N) (As : List Abi)
    (lhs rhs : List (List Nat)) (hAs : As.length = lhs.length)
    (hshape : lhs.map List.length = rhs.map List.length)
    (hL : (all_lanes lhs).length = N)
    (hker : ∀ q, q ∈ As.zip (lhs.zip rhs) → ∀ k : List Bool, k.length = q.2.2.length →
      get_impl_t.masked_cassign sizeof_long full_avx512 T scalar_op Op q.1 k q.2.1 q.2.2 =
        native_masked_cassign (scalar_op Op) k q.2.1 q.2.2) :
    ∃ lhs1, fixed_size_datapar_impl.masked_cassign sizeof_long full_avx512 T scalar_op Op N
        bits As lhs rhs = some lhs1 ∧
      lhs1.map List.length = lhs.map List.length ∧
      (∀ i, i < N → ∃ l r, (all_lanes lhs)[i]? = some l ∧ (all_lanes rhs)[i]? = some r ∧
        (all_lanes lhs1)[i]? = some (if bits.testBit i then scalar_op Op l r else l)) ∧
      (bits = 0 → lhs1 = lhs) ∧
      (∀ i nl, lhs[i]? = some nl →
        (∀ j, j < nl.length →
          bits.testBit (((lhs.take i).map List.length).sum + j) = false) →
        lhs1[i]? = some nl) := by
  have hlen : lhs.length = rhs.length := by
    have := congrArg List.length hshape
    simpa using this
  have heq := for_each_update2_typed_eq
    (fun A native_lhs native_rhs offset =>
      match partial_bitset_to_member_type N native_rhs.length (bitset_shr bits offset) with
      | none => none
      | some k => some (get_impl_t.masked_cassign sizeof_long full_avx512 T scalar_op Op A k
          native_lhs native_rhs))
    (fun native_lhs native_rhs offset =>
      match partial_bitset_to_member_type N native_rhs.length (bitset_shr bits offset) with
      | none => none
      | some k => some (native_masked_cassign (scalar_op Op) k native_lhs native_rhs))
    As lhs rhs 0 hAs hlen (by
      intro q hq o
      cases hp : partial_bitset_to_member_type N q.2.2.length (bitset_shr bits o) with
      | none => simp only [hp]
      | some k => simp only [hp, hker q hq k (partial_bitset_length _ _ _ k hp)])
  unfold fixed_size_datapar_impl.masked_cassign
  rw [heq]
  exact masked_cassign_loop_lanes (scalar_op Op) N bits hN hb lhs rhs hshape hL

/-- On representations of `w` bits the intrinsics with units of `w` bits apply the
modular operator of an unsigned integer type of `w` bits, and its results are
representations of `w` bits. -/
theorem intrinsic_op_uint (w : Nat) (Op : FixedOpName) (sfx : Suffix) (hw : sfx.bits = w)
    (hOp : Op = FixedOpName.plus ∨ Op = FixedOpName.minus) (a b : Nat) :
    intrinsic_op (uint_op w) Op sfx a b = uint_op w Op a b ∧ uint_op w Op a b < 2 ^ w := by
  have hpos : 0 < 2 ^ w := Nat.two_pow_pos w
  constructor
  · cases sfx <;> simp only [Suffix.bits] at hw <;> subst hw <;> rfl
  · rcases hOp with h | h <;> subst h <;> exact Nat.mod_lt _ hpos

/-- For an element type with the modular operators of an unsigned integer type, other than
`long` and `unsigned long` of 4 bytes, and valid representations in the AVX-512 chunks,
`masked_cassign<Op>(bits, lhs, rhs)` completes, keeps the shape, and leaves in lane `i` of
`lhs` the value `Op(old lhs_i, rhs_i)` when bit `i` is set and the old lane when it is
clear; with an all-false mask `lhs` is unchanged, and a chunk whose sub-mask is all false
is unchanged. -/
theorem masked_cassign_lanes_uint (sizeof_long : Nat) (full_avx512 : Bool) (T : ElementType)
    (Op : FixedOpName) (N bits : Nat) (hN : N ≤ 64) (hb : bits < 2 ^ N) (As : List Abi)
    (lhs rhs : List (List Nat)) (hAs : As.length = lhs.length)
    (hshape : lhs.map List.length = rhs.map List.length)
    (hL : (all_lanes lhs).length = N)
    (hlong : T = ElementType.long ∨ T = ElementType.ulong → sizeof_long = 8)
    (hchunks : ∀ q, q ∈ As.zip (lhs.zip rhs) → q.1 = Abi.avx512 →
      q.2.1.length = 64 / sizeof sizeof_long T ∧ q.2.2.length = 64 / sizeof sizeof_long T ∧
      (∀ x ∈ q.2.1, x < 2 ^ (8 * sizeof sizeof_long T)) ∧
      (∀ x ∈ q.2.2, x < 2 ^ (8 * sizeof sizeof_long T))) :
    ∃ lhs1, fixed_size_datapar_impl.masked_cassign sizeof_long full_avx512 T
        (uint_op (8 * sizeof sizeof_long T)) Op N bits As lhs rhs = some lhs1 ∧
      lhs1.map List.length = lhs.map List.length ∧
      (∀ i, i < N → ∃ l r, (all_lanes lhs)[i]? = some l ∧ (all_lanes rhs)[i]? = some r ∧
        (all_lanes lhs1)[i]? =
          some (if bits.testBit i then uint_op (8 * sizeof sizeof_long T) Op l r else l)) ∧
      (bits = 0 → lhs1 = lhs) ∧
      (∀ i nl, lhs[i]? = some nl →
        (∀ j, j < nl.length →
          bits.testBit (((lhs.take i).map List.length).sum + j) = false) →
        lhs1[i]? = some nl) := by
  apply masked_cassign_lanewise_chunks sizeof_long full_avx512 T _ Op N bits hN hb As lhs rhs
    hAs hshape hL
  intro q hq k hk
  apply get_impl_t_masked_cassign_lanewise
  intro hA sfx hsfx
  obtain ⟨h1, h2, h3, h4⟩ := hchunks q hq hA
  have hw := specialization_width full_avx512 T Op sfx hsfx sizeof_long hlong
  have hOp : Op = FixedOpName.plus ∨ Op = FixedOpName.minus := by
    unfold masked_cassign_specialization at hsfx
    by_contra hcon
    rw [if_neg hcon] at hsfx
    exact Option.noConfusion hsfx
  exact ⟨hw, by rw [hk, h2], h1, h2, h3, h4,
    fun a b _ _ => intrinsic_op_uint _ Op sfx hw hOp a b⟩

/-- Instances of the lane-wise update with an AVX-512 chunk: `+=` on 16 lanes of `int`
under the mask `0x0101`, and on 8 lanes of `long` of 8 bytes under the mask `0x81`. -/
theorem masked_cassign_lanes_instance :
    fixed_size_datapar_impl.masked_cassign 8 false ElementType.int (uint_op 32)
        FixedOpName.plus 16 0x0101 [Abi.avx512]
        [[1, 2, 3, 4, 5, 6, 7, 8, 9, 10, 11, 12, 13, 14, 15, 16]] [List.replicate 16 10] =
      some [[11, 2, 3, 4, 5, 6, 7, 8, 19, 10, 11, 12, 13, 14, 15, 16]] ∧
    fixed_size_datapar_impl.masked_cassign 8 false ElementType.long (uint_op 64)
        FixedOpName.plus 8 0x81 [Abi.avx512] [[1, 2, 3, 4, 5, 6, 7, 8]]
        [List.replicate 8 10] =
      some [[11, 2, 3, 4, 5, 6, 7, 18]] ∧
    fixed_size_datapar_impl.masked_cassign 4 false ElementType.long (uint_op 32)
        FixedOpName.plus 5 0b00101 [Abi.sse, Abi.scalar] [[1, 2, 3, 4], [5]]
        [[10, 20, 30, 40], [50]] =
      some [[11, 2, 33, 4], [5]] := by
  refine ⟨?_, ?_, ?_⟩ <;> decide

/-- C15 (refuted where `long` has 4 bytes): the explicit specialisation of `masked_cassign`
for `long` and `std::plus` calls the intrinsic with 64-bit units, also where `long` has 4
bytes and the AVX-512 chunk has 16 lanes. There the 16 lanes `1, ..., 16` with `+= 10`
stay as they are under the mask `0x0100`, although bit 8 is set, and under the mask
`0x0001` lane 1 is changed as well (`11, 12, 3, ...`), although bit 1 is clear; with lane 0
equal to `2 ^ 32 - 1` the carry of lane 0 reaches lane 1. The specification gives
`Op(lhs_i, rhs_i)` in the lanes with a set bit and leaves the other lanes. -/
theorem masked_cassign_long_by_quadwords :
    masked_cassign_specialization false ElementType.long FixedOpName.plus =
      some Suffix.epi64 ∧
    sizeof 4 ElementType.long = 4 ∧
    fixed_size_storage avx512_registry 16 16 = some [Abi.avx512] ∧
    fixed_size_datapar_impl.masked_cassign 4 false ElementType.long (uint_op 32)
        FixedOpName.plus 16 0x0100 [Abi.avx512]
        [[1, 2, 3, 4, 5, 6, 7, 8, 9, 10, 11, 12, 13, 14, 15, 16]] [List.replicate 16 10] =
      some [[1, 2, 3, 4, 5, 6, 7, 8, 9, 10, 11, 12, 13, 14, 15, 16]] ∧
    spec_masked_cassign (uint_op 32 FixedOpName.plus) 0x0100
        [1, 2, 3, 4, 5, 6, 7, 8, 9, 10, 11, 12, 13, 14, 15, 16] (List.replicate 16 10) =
      [1, 2, 3, 4, 5, 6, 7, 8, 19, 10, 11, 12, 13, 14, 15, 16] ∧
    fixed_size_datapar_impl.masked_cassign 4 false ElementType.long (uint_op 32)
        FixedOpName.plus 16 0x0001 [Abi.avx512]
        [[1, 2, 3, 4, 5, 6, 7, 8, 9, 10, 11, 12, 13, 14, 15, 16]] [List.replicate 16 10] =
      some [[11, 12, 3, 4, 5, 6, 7, 8, 9, 10, 11, 12, 13, 14, 15, 16]] ∧
    spec_masked_cassign (uint_op 32 FixedOpName.plus) 0x0001
        [1, 2, 3, 4, 5, 6, 7, 8, 9, 10, 11, 12, 13, 14, 15, 16] (List.replicate 16 10) =
      [11, 2, 3, 4, 5, 6, 7, 8, 9, 10, 11, 12, 13, 14, 15, 16] ∧
    fixed_size_datapar_impl.masked_cassign 4 false ElementType.long (uint_op 32)
        FixedOpName.plus 16 0x0001 [Abi.avx512]
        [[2 ^ 32 - 1, 2, 3, 4, 5, 6, 7, 8, 9, 10, 11, 12, 13, 14, 15, 16]]
        [List.replicate 16 10] =
      some [[9, 13, 3, 4, 5, 6, 7, 8, 9, 10, 11, 12, 13, 14, 15, 16]] ∧
    spec_masked_cassign (uint_op 32 FixedOpName.plus) 0x0001
        [2 ^ 32 - 1, 2, 3, 4, 5, 6, 7, 8, 9, 10, 11, 12, 13, 14, 15, 16]
        (List.replicate 16 10) =
      [9, 2, 3, 4, 5, 6, 7, 8, 9, 10, 11, 12, 13, 14, 15, 16] := by
  refine ⟨?_, ?_, ?_, ?_, ?_, ?_, ?_, ?_, ?_⟩ <;> decide

/-- C16: for every unary `Op`, `N`-bit mask `bits` (`N ≤ 64`) and composite `v` with `N`
lanes, `masked_unary<Op>(bits, v)` returns a composite `r` of the shape of `v` with
`r_i = Op(v_i)` when bit `i` is set and `r_i = v_i` when it is clear, whatever the
indeterminate initial chunks of `r` were; the scalar helper returns `Op(d)` under a true
mask and `d` under a false mask and leaves `d` as it was, and `increment` and `decrement`
give `d + 1` and `d - 1`. -/
theorem masked_unary_lanes {α : Type} (Op : α → α) (N bits : Nat)
    (hN : N ≤ 64) (hb : bits < 2 ^ N) (r_init v : List (List α))
    (hshape : r_init.map List.length = v.map List.length)
    (hV : (all_lanes v).length = N) :
    (∃ r, fixed_size_datapar_impl.masked_unary Op N bits r_init v = some r ∧
      r.map List.length = v.map List.length ∧
      ∀ i, i < N → ∃ d, (all_lanes v)[i]? = some d ∧
        (all_lanes r)[i]? = some (if bits.testBit i then Op d else d)) ∧
    (∀ d : α, masked_unary Op true d = (Op d, d) ∧ masked_unary Op false d = (d, d)) ∧
    (∀ d : Int, (masked_unary increment true d).1 = d + 1 ∧
      (masked_unary decrement true d).1 = d - 1 ∧
      (masked_unary increment false d).1 = d ∧ (masked_unary decrement false d).1 = d) := by
  have hI : (all_lanes r_init).length = N := by
    rw [all_lanes_length_eq r_init v hshape, hV]
  have hf : ∀ (nl nr : List α) (o : Nat), nl.length = nr.length → o + nl.length ≤ N →
      (match partial_bitset_to_member_type N nr.length (bitset_shr bits o) with
        | none => none
        | some k => some (native_masked_unary Op k nr)) =
      some (lanes3 (fun k _ d => (masked_unary Op k d).1)
        ((List.range' o nl.length).map (fun g => bits.testBit g)) nl nr) := by
    intro nl nr o hlen ho
    rw [← hlen, partial_bitset_spec N nl.length o bits hN hb (by omega),
      lanes3_ignore_left (fun k d => (masked_unary Op k d).1) _ nl nr (by simp) hlen]
    rfl
  refine ⟨?_, fun d => ⟨rfl, rfl⟩, fun d => ⟨rfl, rfl, rfl, rfl⟩⟩
  obtain ⟨r, hr1, hlen, hall, _⟩ := for_each_update2_lanes N (fun g => bits.testBit g)
    (fun k _ d => (masked_unary Op k d).1)
    (fun _ native_v offset =>
      match partial_bitset_to_member_type N native_v.length (bitset_shr bits offset) with
      | none => none
      | some k => some (native_masked_unary Op k native_v)) hf r_init v 0 hshape (by omega)
  refine ⟨r, hr1, by rw [hlen, hshape], ?_⟩
  intro i hi
  rw [hall, lanes3_ignore_left (fun k d => (masked_unary Op k d).1) _ _ _ (by simp)
    (by rw [hI, hV]), hI, ← native_from_bitset_eq]
  obtain ⟨d, h1, h2⟩ := lookup_lanes2 (fun k d => (masked_unary Op k d).1) N bits
    (all_lanes v) hV i hi
  exact ⟨d, h1, by rw [h2]; rfl⟩

/-- An instance of C16: `++` under the mask `0b10101` on a 4-byte integer with `N = 5`
(chunks of 4 and 1 lanes). -/
theorem masked_unary_lanes_witness :
    (∃ r, fixed_size_datapar_impl.masked_unary (increment : Int → Int) 5 0b10101
        [[0, 0, 0, 0], [0]] [[1, 2, 3, 4], [5]] = some r ∧
      r.map List.length = [[(1 : Int), 2, 3, 4], [5]].map List.length ∧
      ∀ i, i < 5 → ∃ d, (all_lanes [[(1 : Int), 2, 3, 4], [5]])[i]? = some d ∧
        (all_lanes r)[i]? = some (if (0b10101 : Nat).testBit i then increment d else d)) ∧
    (∀ d : Int, masked_unary increment true d = (increment d, d) ∧
      masked_unary increment false d = (d, d)) ∧
    (∀ d : Int, (masked_unary increment true d).1 = d + 1 ∧
      (masked_unary decrement true d).1 = d - 1 ∧
      (masked_unary increment false d).1 = d ∧ (masked_unary decrement false d).1 = d) :=
  masked_unary_lanes (increment : Int → Int) 5 0b10101 (by decide) (by decide)
    [[0, 0, 0, 0], [0]] [[1, 2, 3, 4], [5]] (by decide) (by decide)

/-! ## Claims about load and store -/

/-- The generator of `load` builds chunk `i` from the `width_i` elements at
`offset_i`. -/
theorem generate_load_spec {α : Type} (reg : Registry) (src : List α) (As : List Abi) :
    ∀ off, off + total_lanes reg As ≤ src.length →
      ∃ v, generate reg (fun A offset => native_load (lanes reg A) src offset) off As = some v ∧
        well_shaped reg As v ∧
        all_lanes v = (src.drop off).take (total_lanes reg As) ∧
        ∀ i A, As[i]? = some A →
          v[i]? = some ((src.drop ((chunk_offsets reg off As).getD i 0)).take (lanes reg A)) := by
  induction As with
  | nil =>
    intro off _
    exact ⟨[], rfl, rfl, by simp [all_lanes, total_lanes], by intro i A h; simp at h⟩
  | cons A As ih =>
    intro off hoff
    simp only [total_lanes, List.map_cons, List.sum_cons] at hoff
    obtain ⟨v, hv, hw, hall, hchunk⟩ := ih (off + lanes reg A)
      (by simp only [total_lanes]; omega)
    refine ⟨(src.drop off).take (lanes reg A) :: v, ?_, ?_, ?_, ?_⟩
    · have hnl : native_load (lanes reg A) src off = some ((src.drop off).take (lanes reg A)) := by
        simp only [native_load, if_pos (by omega : off + lanes reg A ≤ src.length)]
      simp only [generate, hnl, hv]
    · simp only [well_shaped, List.map_cons, List.length_take, List.length_drop] at hw ⊢
      rw [hw, Nat.min_eq_left (by omega)]
    · simp only [all_lanes, List.flatten_cons, total_lanes, List.map_cons, List.sum_cons] at hall ⊢
      rw [hall, List.take_add, List.drop_drop]
    · intro i B hB
      cases i with
      | zero =>
        simp only [List.getElem?_cons_zero, Option.some.injEq] at hB
        subst hB
        simp [chunk_offsets]
      | succ i =>
        simp only [List.getElem?_cons_succ] at hB ⊢
        rw [hchunk i B hB]
        simp [chunk_offsets]

/-- The loop of `store` writes the lanes of the composite to the buffer from the start
offset on and leaves the rest of the buffer as it was. -/
theorem for_each1_store_spec {α : Type} (As : List Abi) :
    ∀ (v : List (List α)) (off : Nat) (mem : List α), v.length = As.length →
      off + (all_lanes v).length ≤ mem.length →
      for_each1 (fun _ native offset m => native_memstore native m offset) off As v mem =
        some (mem.take off ++ all_lanes v ++ mem.drop (off + (all_lanes v).length)) := by
  induction As with
  | nil =>
    intro v off mem hlen _
    cases v with
    | nil => simp [for_each1, all_lanes]
    | cons _ _ => simp at hlen
  | cons A As ih =>
    intro v off mem hlen hoff
    cases v with
    | nil => simp at hlen
    | cons ch v =>
      simp only [all_lanes, List.flatten_cons, List.length_append] at hoff ⊢
      have hpre : (mem.take off ++ ch).length = off + ch.length := by
        simp only [List.length_append, List.length_take]
        omega
      have hst : native_memstore ch mem off =
          some (mem.take off ++ ch ++ mem.drop (off + ch.length)) := by
        simp only [native_memstore, if_pos (by omega : off + ch.length ≤ mem.length)]
      simp only [for_each1, hst]
      rw [ih v (off + ch.length) _ (by simpa using hlen)
        (by simp only [List.length_append, List.length_take, List.length_drop, all_lanes]; omega)]
      simp only [all_lanes]
      rw [List.take_left' hpre, ← hpre, List.drop_append, List.drop_drop, hpre]
      simp only [List.append_assoc, Nat.add_assoc, Nat.add_comm v.flatten.length]

/-- The index ranges of the chunks, in chunk order, enumerate the lanes once each. -/
theorem chunk_ranges_flatten (reg : Registry) (As : List Abi) :
    ∀ off, (List.zipWith (fun o A => List.range' o (lanes reg A))
        (chunk_offsets reg off As) As).flatten = List.range' off (total_lanes reg As) := by
  induction As with
  | nil => intro off; simp [chunk_offsets, total_lanes]
  | cons A As ih =>
    intro off
    simp only [chunk_offsets, List.zipWith_cons_cons, List.flatten_cons, ih, total_lanes,
      List.map_cons, List.sum_cons]
    rw [List.range'_append_1, Nat.add_comm]

/-- C17: for every tuple type with `N` lanes and buffers `src` and `dst` of at least `N`
elements, `load(src)` completes and chunk `i` holds the `width_i` elements of `src` from
`offset_i` on, so the composite holds the first `N` elements of `src`; `store` of that
composite to `dst` completes and leaves `dst` holding the first `N` elements of `src`
followed by its own elements from index `N` on; the index ranges of the chunks enumerate
`0, ..., N - 1` once each. Buffers of exactly `N` elements are enough, so no index from `N`
on is accessed. -/
theorem store_load_round_trip {α : Type} (reg : Registry) (As : List Abi) (N : Nat)
    (hN : total_lanes reg As = N) (src dst : List α) (hsrc : N ≤ src.length)
    (hdst : N ≤ dst.length) :
    ∃ v, load reg As src = some v ∧ well_shaped reg As v ∧
      all_lanes v = src.take N ∧
      (∀ i A, As[i]? = some A →
        v[i]? = some ((src.drop ((chunk_offsets reg 0 As).getD i 0)).take (lanes reg A))) ∧
      store As v dst = some (src.take N ++ dst.drop N) ∧
      (∀ i, i < N → (src.take N ++ dst.drop N)[i]? = src[i]?) ∧
      (List.zipWith (fun o A => List.range' o (lanes reg A)) (chunk_offsets reg 0 As) As).flatten
        = List.range N := by
  obtain ⟨v, hv, hw, hall, hchunk⟩ := generate_load_spec reg src As 0 (by omega)
  rw [hN, List.drop_zero] at hall
  have hlen : (all_lanes v).length = N := by
    rw [hall, List.length_take]
    omega
  refine ⟨v, hv, hw, hall, hchunk, ?_, ?_, ?_⟩
  · unfold store
    rw [for_each1_store_spec As v 0 dst (well_shaped_length reg As v hw) (by omega), hall]
    simp only [List.take_zero, List.nil_append, Nat.zero_add, List.length_take,
      Nat.min_eq_left hsrc]
  · intro i hi
    rw [List.getElem?_append_left (by rw [List.length_take]; omega), List.getElem?_take_of_lt hi]
  · rw [chunk_ranges_flatten reg As 0, hN, List.range_eq_range']

/-- An instance of C17: a 4-byte integer with `N = 5` on an SSE build (chunks of 4 and 1
lanes), a source of 5 elements and a zeroed buffer of 5 elements. -/
theorem store_load_round_trip_witness :
    ∃ v, load (int_registry false) [Abi.sse, Abi.scalar] [11, 12, 13, 14, 15] = some v ∧
      well_shaped (int_registry false) [Abi.sse, Abi.scalar] v ∧
      all_lanes v = [11, 12, 13, 14, 15].take 5 ∧
      (∀ i A, [Abi.sse, Abi.scalar][i]? = some A →
        v[i]? = some (([11, 12, 13, 14, 15].drop
          ((chunk_offsets (int_registry false) 0 [Abi.sse, Abi.scalar]).getD i 0)).take
            (lanes (int_registry false) A))) ∧
      store [Abi.sse, Abi.scalar] v [0, 0, 0, 0, 0] =
        some ([11, 12, 13, 14, 15].take 5 ++ [0, 0, 0, 0, 0].drop 5) ∧
      (∀ i, i < 5 →
        ([11, 12, 13, 14, 15].take 5 ++ [0, 0, 0, 0, 0].drop 5)[i]? = [11, 12, 13, 14, 15][i]?) ∧
      (List.zipWith (fun o A => List.range' o (lanes (int_registry false) A))
        (chunk_offsets (int_registry false) 0 [Abi.sse, Abi.scalar])
        [Abi.sse, Abi.scalar]).flatten = List.range 5 :=
  store_load_round_trip (int_registry false) [Abi.sse, Abi.scalar] 5 (by decide)
    [11, 12, 13, 14, 15] [0, 0, 0, 0, 0] (by decide) (by decide)

/-! ## Claims about the alignment -/

/-- The modelled `next_power_of_2` returns a power of two unchanged. -/
theorem next_power_of_2_pow (m : Nat) : next_power_of_2 (2 ^ m) = 2 ^ m := by
  obtain ⟨⟨k, hk⟩, hle, hlt⟩ := next_power_of_2_spec (2 ^ m) Nat.one_le_two_pow
  rw [hk] at hle hlt ⊢
  have h1 : m ≤ k := (Nat.pow_le_pow_iff_right (by decide : 1 < 2)).1 hle
  have h2 : k < m + 1 := by
    apply (Nat.pow_lt_pow_iff_right (by decide : 1 < 2)).1
    rw [pow_succ]
    omega
  have : k = m := by omega
  rw [this]

/-- C20 (amended): for every element type (of less than `2 ^ 58` bytes) and every enabled
`N`, `datapar_member_alignment` is `next_power_of_2(N * sizeof(T))`, with GCC bounded to
256 bytes (with AVX) or 128 bytes (without AVX) and with another compiler not bounded;
`next_power_of_2(N * sizeof(T))` is `N * sizeof(T)` when `N` and `sizeof(T)` are both
powers of two. -/
theorem alignment_guarantee (gcc avx : Bool) (N : Int)
    (hen : fixed_size_traits_enabled N = true) (sizeof_T : Nat) (hs : sizeof_T < 2 ^ 58) :
    datapar_member_alignment gcc avx N sizeof_T =
      (if gcc = true then
        min (if avx = true then 256 else 128) (next_power_of_2 (N.toNat * sizeof_T))
      else next_power_of_2 (N.toNat * sizeof_T)) ∧
    datapar_member_alignment gcc avx N sizeof_T =
      bounded_to (compiler_maximum gcc avx) (next_power_of_2 (N.toNat * sizeof_T)) ∧
    ((∃ k : Nat, N = 2 ^ k) → (∃ j : Nat, sizeof_T = 2 ^ j) →
      next_power_of_2 (N.toNat * sizeof_T) = N.toNat * sizeof_T ∧
      datapar_member_alignment gcc avx N sizeof_T =
        bounded_to (compiler_maximum gcc avx) (N.toNat * sizeof_T)) ∧
    (gcc = true →
      datapar_member_alignment gcc avx N sizeof_T ≤ (if avx = true then 256 else 128)) := by
  have hN : 0 ≤ N ∧ N ≤ 64 := by
    simp only [fixed_size_traits_enabled, Bool.or_eq_true, Bool.and_eq_true,
      decide_eq_true_eq] at hen
    omega
  have hsz : to_size_t N = N.toNat := by
    unfold to_size_t
    rw [Int.emod_eq_of_lt hN.1 (by omega)]
  have hprod : N.toNat * sizeof_T < 2 ^ 64 := by
    have h1 : N.toNat ≤ 64 := by omega
    calc N.toNat * sizeof_T ≤ 64 * sizeof_T := Nat.mul_le_mul_right _ h1
      _ < 2 ^ 64 := by omega
  have hcode : datapar_member_alignment gcc avx N sizeof_T =
      (if gcc = true then
        min (if avx = true then 256 else 128) (next_power_of_2 (N.toNat * sizeof_T))
      else next_power_of_2 (N.toNat * sizeof_T)) := by
    unfold datapar_member_alignment
    rw [hsz, Nat.mod_eq_of_lt hprod]
  have hgen : datapar_member_alignment gcc avx N sizeof_T =
      bounded_to (compiler_maximum gcc avx) (next_power_of_2 (N.toNat * sizeof_T)) := by
    rw [hcode]
    unfold compiler_maximum bounded_to
    cases gcc <;> simp
  refine ⟨hcode, hgen, ?_, ?_⟩
  · rintro ⟨k, hk⟩ ⟨j, hj⟩
    have hk2 : N.toNat = 2 ^ k := by
      rw [hk]
      exact_mod_cast Int.toNat_natCast (2 ^ k)
    have hp : next_power_of_2 (N.toNat * sizeof_T) = N.toNat * sizeof_T := by
      rw [hk2, hj, ← pow_add, next_power_of_2_pow]
    exact ⟨hp, by rw [hgen, hp]⟩
  · intro hg
    rw [hcode, if_pos hg]
    exact Nat.min_le_left _ _

/-- Instances of C20 with GCC and AVX: `fixed_size<4>` of a 4-byte type is aligned to 16
bytes, `fixed_size<3>` of it to 16 bytes as well, and `fixed_size<64>` of a 16-byte type
is bounded to 256 bytes; without GCC it is aligned to 1024 bytes. -/
theorem alignment_guarantee_witness :
    (datapar_member_alignment true true 4 4 =
      (if true = true then
        min (if true = true then 256 else 128) (next_power_of_2 ((4 : Int).toNat * 4))
      else next_power_of_2 ((4 : Int).toNat * 4)) ∧
    datapar_member_alignment true true 4 4 =
      bounded_to (compiler_maximum true true) (next_power_of_2 ((4 : Int).toNat * 4)) ∧
    (next_power_of_2 ((4 : Int).toNat * 4) = (4 : Int).toNat * 4 ∧
      datapar_member_alignment true true 4 4 =
        bounded_to (compiler_maximum true true) ((4 : Int).toNat * 4)) ∧
    datapar_member_alignment true true 4 4 ≤ (if true = true then 256 else 128)) ∧
    datapar_member_alignment true true 4 4 = 16 ∧
    datapar_member_alignment true true 3 4 = 16 ∧
    datapar_member_alignment true true 64 16 = 256 ∧
    datapar_member_alignment false true 64 16 = 1024 :=
  ⟨⟨(alignment_guarantee true true 4 (by decide) 4 (by decide)).1,
      (alignment_guarantee true true 4 (by decide) 4 (by decide)).2.1,
      (alignment_guarantee true true 4 (by decide) 4 (by decide)).2.2.1 ⟨2, by decide⟩
        ⟨2, by decide⟩,
      (alignment_guarantee true true 4 (by decide) 4 (by decide)).2.2.2 rfl⟩,
    by decide, by decide, by decide, by decide⟩

/-- C20 (the claim as stated fails): `N = 4` is enabled and a power of two, and for an
element type of 12 bytes (`long double` on 32-bit x86) the code gives the alignment
`next_power_of_2(48) = 64`, not `N * sizeof(T) = 48`, which lies below both maxima of
GCC and is not changed by the bound. -/
theorem alignment_of_twelve_byte_element :
    fixed_size_traits_enabled 4 = true ∧
    (∃ k : Nat, (4 : Int) = 2 ^ k) ∧
    datapar_member_alignment true true 4 12 = 64 ∧
    datapar_member_alignment true false 4 12 = 64 ∧
    datapar_member_alignment false false 4 12 = 64 ∧
    bounded_to (compiler_maximum true true) ((4 : Int).toNat * 12) = 48 ∧
    bounded_to (compiler_maximum true false) ((4 : Int).toNat * 12) = 48 ∧
    bounded_to (compiler_maximum false false) ((4 : Int).toNat * 12) = 48 :=
  ⟨by decide, ⟨2, by decide⟩, by decide, by decide, by decide, by decide, by decide,
    by decide⟩

/-! ## Claims about masked load and store -/

theorem execute_n_times_succ {σ : Type} (n : Nat) (f : Nat → σ → Option σ) (s : σ) :
    execute_n_times (n + 1) f s = (execute_n_times n f s).bind (f n) := by
  simp only [execute_n_times, List.range_succ, List.foldlM_append, List.foldlM_cons,
    List.foldlM_nil, bind_pure]
  rfl

/-- Bodies that agree below `n` give the same loop. -/
theorem execute_n_times_congr {σ : Type} (n : Nat) (f g : Nat → σ → Option σ)
    (h : ∀ i, i < n → ∀ s, f i s = g i s) (s : σ) :
    execute_n_times n f s = execute_n_times n g s := by
  induction n with
  | zero => rfl
  | succ n ih =>
    rw [execute_n_times_succ, execute_n_times_succ, ih (fun i hi => h i (by omega))]
    cases execute_n_times n g s with
    | none => rfl
    | some r => exact h n (by omega) r

/-- The masked write loop on a buffer: when every selected index has a value and lies in
the buffer, the loop completes, keeps the length of the buffer, writes the selected
elements and leaves every other element as it was. -/
theorem execute_masked_write_spec {α : Type} (sel : Nat → Bool) (val : Nat → Option α)
    (p : Nat) (mem : List α) (n : Nat)
    (hok : ∀ i, i < n → sel i = true → (∃ x, val i = some x) ∧ p + i < mem.length) :
    ∃ r, execute_n_times n (masked_write_body sel val p) mem = some r ∧
      r.length = mem.length ∧
      ∀ g, r[g]? = if p ≤ g ∧ g - p < n ∧ sel (g - p) = true then val (g - p) else mem[g]? := by
  induction n with
  | zero => exact ⟨mem, rfl, rfl, by intro g; simp⟩
  | succ n ih =>
    obtain ⟨r, hr, hlen, hget⟩ := ih (fun i hi => hok i (by omega))
    rw [execute_n_times_succ, hr, Option.some_bind]
    by_cases hs : sel n = true
    · obtain ⟨⟨x, hx⟩, hb⟩ := hok n (by omega) hs
      refine ⟨r.set (p + n) x, ?_, by rw [List.length_set, hlen], ?_⟩
      · simp only [masked_write_body, hs, if_true, hx, hlen, if_pos hb]
      · intro g
        rw [List.getElem?_set, hget g]
        by_cases hg : p + n = g
        · subst hg
          simp only [if_true, hlen, if_pos hb, Nat.le_add_right, Nat.add_sub_cancel_left,
            Nat.lt_succ_self, hs, and_self, hx]
        · rw [if_neg hg]
          have hiff : (p ≤ g ∧ g - p < n + 1 ∧ sel (g - p) = true) ↔
              (p ≤ g ∧ g - p < n ∧ sel (g - p) = true) := by
            constructor
            · rintro ⟨h1, h2, h3⟩
              exact ⟨h1, by omega, h3⟩
            · rintro ⟨h1, h2, h3⟩
              exact ⟨h1, by omega, h3⟩
          simp only [hiff]
    · refine ⟨r, ?_, hlen, ?_⟩
      · simp only [masked_write_body, hs, Bool.false_eq_true, if_false]
      · intro g
        rw [hget g]
        have hiff : (p ≤ g ∧ g - p < n + 1 ∧ sel (g - p) = true) ↔
            (p ≤ g ∧ g - p < n ∧ sel (g - p) = true) := by
          constructor
          · rintro ⟨h1, h2, h3⟩
            refine ⟨h1, ?_, h3⟩
            by_contra hcon
            have : g - p = n := by omega
            rw [this] at h3
            exact hs h3
          · rintro ⟨h1, h2, h3⟩
            exact ⟨h1, by omega, h3⟩
        simp only [hiff]

theorem range_mask_getD (tb : Nat → Bool) (o w i : Nat) (hi : i < w) :
    ((List.range' o w).map tb).getD i false = tb (o + i) := by
  rw [List.getD_eq_getElem?_getD, List.getElem?_map, List.getElem?_range' _ _ hi]
  simp


theorem native_masked_store_spec {α : Type} (tb : Nat → Bool) (native : List α) :
    store_contract tb native_masked_store native := by
  intro mem o hb
  obtain ⟨r, hr, hlen, hget⟩ := execute_masked_write_spec
    (fun i => ((List.range' o native.length).map tb).getD i false) (fun i => native[i]?) o mem
    native.length
    (fun i hi _ => ⟨⟨native[i], List.getElem?_eq_getElem hi⟩, by omega⟩)
  refine ⟨r, hr, hlen, ?_⟩
  intro g
  rw [hget g]
  by_cases hg : o ≤ g ∧ g - o < native.length
  · have : o + (g - o) = g := by omega
    simp only [hg, true_and, range_mask_getD tb o native.length (g - o) hg.2, this]
  · have h1 : ¬ (o ≤ g ∧ g - o < native.length ∧
        ((List.range' o native.length).map tb).getD (g - o) false = true) :=
      fun h => hg ⟨h.1, h.2.1⟩
    have h2 : ¬ (o ≤ g ∧ g - o < native.length ∧ tb g = true) := fun h => hg ⟨h.1, h.2.1⟩
    rw [if_neg h1, if_neg h2]

/-- The result of a call whose outcome comes from its execution is the result of that
execution. -/
theorem toOption_outcome_of_run {σ : Type} (o : Option σ) :
    (outcome_of_run o).toOption = o := by
  cases o <;> rfl

/-- For a chunk of `double` and a buffer of 8-byte elements the generic AVX-512 masked
store is the per-lane loop: a 64-bit lane is one element, stored as it is. -/
theorem avx512_masked_store_eight_bytes (sizeof_long : Nat) (U : ElementType)
    (v mem : List Nat) (p : Nat) (k : List Bool) (hU : sizeof sizeof_long U = 8)
    (hv : v.length = 8) (hk : k.length = 8) (hlanes : ∀ x ∈ v, x < 2 ^ 64) :
    (avx512_datapar_impl.masked_store sizeof_long ElementType.double U v mem p k).toOption =
      native_masked_store v mem p k := by
  simp only [avx512_datapar_impl.masked_store, intrinsic_type, toOption_outcome_of_run, hU]
  unfold mm512_mask_storeu_pd native_masked_store
  rw [hv]
  apply execute_n_times_congr
  intro i hi s
  have hlt : bits_to_nat k < 2 ^ 8 := by
    have := bits_to_nat_lt k
    rwa [hk] at this
  have hval : (v[i / (8 / 8)]?).map
      (fun lane => (lane >>> (8 * 8 * (i % (8 / 8)))) % 2 ^ (8 * 8)) = v[i]? := by
    have hi8 : i < v.length := by omega
    simp only [Nat.div_self (by decide : 0 < 8), Nat.div_one, Nat.mod_one, Nat.mul_zero,
      Nat.shiftRight_zero, List.getElem?_eq_getElem hi8, Option.map_some', Option.some.injEq]
    exact Nat.mod_eq_of_lt (hlanes _ (List.getElem_mem hi8))
  simp only [masked_write_body, hval]
  simp only [Nat.div_self (by decide : 0 < 8), Nat.div_one, Nat.mod_eq_of_lt hlt,
    testBit_bits_to_nat]

/-- The loop of the composite masked store: when the kernel of every chunk meets the lane
contract, the loop completes, keeps the length of the buffer, writes the lanes whose mask
bit is set and leaves every other element as it was. -/
theorem for_each1_masked_store_spec {α : Type} (N bits : Nat) (hN : N ≤ 64)
    (hb : bits < 2 ^ N) (kernel : Abi → List α → List α → Nat → List Bool → Option (List α))
    (As : List Abi) :
    ∀ (v : List (List α)) (off : Nat) (mem : List α), v.length = As.length →
      (∀ q, q ∈ As.zip v → store_contract (fun g => bits.testBit g) (kernel q.1) q.2) →
      off + (all_lanes v).length ≤ N → off + (all_lanes v).length ≤ mem.length →
      ∃ r, for_each1 (fun A native offset m =>
          match partial_bitset_to_member_type N native.length (bitset_shr bits offset) with
          | none => none
          | some k => kernel A native m offset k) off As v mem = some r ∧
        r.length = mem.length ∧
        ∀ g, r[g]? =
          if off ≤ g ∧ g - off < (all_lanes v).length ∧ bits.testBit g = true then
            (all_lanes v)[g - off]?
          else mem[g]? := by
  induction As with
  | nil =>
    intro v off mem hlen _ _ _
    cases v with
    | nil => exact ⟨mem, rfl, rfl, by intro g; simp [all_lanes]⟩
    | cons _ _ => simp at hlen
  | cons A As ih =>
    intro v off mem hlen hker hoffN hoffM
    cases v with
    | nil => simp at hlen
    | cons ch v =>
      simp only [all_lanes, List.flatten_cons, List.length_append] at hoffN hoffM ⊢
      have hc : store_contract (fun g => bits.testBit g) (kernel A) ch :=
        hker (A, ch) (by simp)
      obtain ⟨r1, hr1, hlen1, hget1⟩ := hc mem off (by omega)
      obtain ⟨r, hr, hlen2, hget2⟩ := ih v (off + ch.length) r1 (by simpa using hlen)
        (fun q hq => hker q (by
          simp only [List.zip_cons_cons, List.mem_cons]
          exact Or.inr hq))
        (by simp only [all_lanes]; omega) (by simp only [all_lanes]; omega)
      simp only [all_lanes] at hget2
      refine ⟨r, ?_, by rw [hlen2, hlen1], ?_⟩
      · simp only [for_each1, partial_bitset_spec N ch.length off bits hN hb (by omega)]
        rw [hr1]
        exact hr
      · intro g
        rw [hget2 g]
        by_cases h1 : off + ch.length ≤ g
        · have e1 : g - off = ch.length + (g - (off + ch.length)) := by omega
          have hcond : (off + ch.length ≤ g ∧ g - (off + ch.length) < v.flatten.length ∧
              bits.testBit g = true) ↔
              (off ≤ g ∧ g - off < ch.length + v.flatten.length ∧ bits.testBit g = true) := by
            constructor
            · rintro ⟨_, h2, h3⟩
              exact ⟨by omega, by omega, h3⟩
            · rintro ⟨_, h2, h3⟩
              exact ⟨h1, by omega, h3⟩
          have hr1g : r1[g]? = mem[g]? := by
            rw [hget1 g, if_neg (fun h => by omega)]
          simp only [hcond, hr1g]
          rw [e1, List.getElem?_append_right (by omega), Nat.add_sub_cancel_left]
        · have hneg : ¬ (off + ch.length ≤ g ∧ g - (off + ch.length) < v.flatten.length ∧
              bits.testBit g = true) := fun h => h1 h.1
          rw [if_neg hneg, hget1 g]
          by_cases h2 : off ≤ g
          · have hcond : (off ≤ g ∧ g - off < ch.length ∧ bits.testBit g = true) ↔
                (off ≤ g ∧ g - off < ch.length + v.flatten.length ∧ bits.testBit g = true) := by
              constructor
              · rintro ⟨h3, h4, h5⟩
                exact ⟨h3, by omega, h5⟩
              · rintro ⟨h3, h4, h5⟩
                exact ⟨h3, by omega, h5⟩
            simp only [hcond]
            rw [List.getElem?_append_left (by omega)]
          · rw [if_neg (fun h => h2 h.1), if_neg (fun h => h2 h.1)]

/-- The native masked load on the mask slice of a chunk at offset `o`: it completes,
keeps the lane count, replaces the lanes whose mask bit is set by their elements of the
buffer and leaves the other lanes as they were. -/
theorem native_masked_load_spec {α : Type} (tb : Nat → Bool) (merge mem : List α) (o : Nat)
    (hb : o + merge.length ≤ mem.length) :
    ∃ r, native_masked_load merge ((List.range' o merge.length).map tb) mem o = some r ∧
      r.length = merge.length ∧
      ∀ i, r[i]? = if i < merge.length ∧ tb (o + i) = true then mem[o + i]? else merge[i]? := by
  obtain ⟨r, hr, hlen, hget⟩ := execute_masked_write_spec
    (fun i => ((List.range' o merge.length).map tb).getD i false) (fun i => mem[o + i]?) 0
    merge merge.length
    (fun i hi _ => ⟨⟨mem.get ⟨o + i, by omega⟩, List.getElem?_eq_getElem (by omega)⟩, by omega⟩)
  refine ⟨r, hr, hlen, ?_⟩
  intro i
  rw [hget i]
  by_cases hi : i < merge.length
  · simp only [Nat.zero_le, Nat.sub_zero, hi, true_and,
      range_mask_getD tb o merge.length i hi]
  · have h1 : ¬ (0 ≤ i ∧ i - 0 < merge.length ∧
        ((List.range' o merge.length).map tb).getD (i - 0) false = true) :=
      fun h => hi (by simpa using h.2.1)
    rw [if_neg h1, if_neg (fun h => hi h.1)]

/-- The loop of the composite masked load: it completes, keeps the shape, replaces the
lanes whose mask bit is set by their elements of the buffer and leaves the other lanes as
they were. -/
theorem for_each_update1_masked_load_spec {α : Type} (N bits : Nat) (hN : N ≤ 64)
    (hb : bits < 2 ^ N) (mem : List α) (merge : List (List α)) :
    ∀ (off : Nat), off + (all_lanes merge).length ≤ N →
      off + (all_lanes merge).length ≤ mem.length →
      ∃ r, for_each_update1 (fun native offset =>
          match partial_bitset_to_member_type N native.length (bitset_shr bits offset) with
          | none => none
          | some k => native_masked_load native k mem offset) off merge = some r ∧
        r.map List.length = merge.map List.length ∧
        ∀ i, (all_lanes r)[i]? =
          if i < (all_lanes merge).length ∧ bits.testBit (off + i) = true then mem[off + i]?
          else (all_lanes merge)[i]? := by
  induction merge with
  | nil => intro off _ _; exact ⟨[], rfl, rfl, by intro i; simp [all_lanes]⟩
  | cons ch merge ih =>
    intro off hoffN hoffM
    simp only [all_lanes, List.flatten_cons, List.length_append] at hoffN hoffM ⊢
    obtain ⟨r1, hr1, hlen1, hget1⟩ := native_masked_load_spec (fun g => bits.testBit g) ch mem
      off (by omega)
    obtain ⟨r, hr, hlen2, hget2⟩ := ih (off + ch.length) (by simp only [all_lanes]; omega)
      (by simp only [all_lanes]; omega)
    simp only [all_lanes] at hget2
    refine ⟨r1 :: r, ?_, by simp [hlen1, hlen2], ?_⟩
    · simp only [for_each_update1, partial_bitset_spec N ch.length off bits hN hb (by omega)]
      rw [hr1, hr]
    · intro i
      rw [List.flatten_cons]
      by_cases h1 : i < ch.length
      · rw [List.getElem?_append_left (by omega), List.getElem?_append_left h1, hget1 i]
        have hcond : (i < ch.length ∧ bits.testBit (off + i) = true) ↔
            (i < ch.length + merge.flatten.length ∧ bits.testBit (off + i) = true) := by
          constructor
          · rintro ⟨h2, h3⟩
            exact ⟨by omega, h3⟩
          · rintro ⟨_, h3⟩
            exact ⟨h1, h3⟩
        simp only [hcond]
      · rw [List.getElem?_append_right (by omega), List.getElem?_append_right (by omega),
          hlen1, hget2 (i - ch.length)]
        have e1 : off + ch.length + (i - ch.length) = off + i := by omega
        rw [e1]
        have hcond : (i - ch.length < merge.flatten.length ∧
            bits.testBit (off + i) = true) ↔
            (i < ch.length + merge.flatten.length ∧ bits.testBit (off + i) = true) := by
          constructor
          · rintro ⟨h2, h3⟩
            exact ⟨by omega, h3⟩
          · rintro ⟨h2, h3⟩
            exact ⟨by omega, h3⟩
        simp only [hcond]

theorem testBit_bitset_set (b i j : Nat) (x : Bool) :
    (bitset_set b i x).testBit j = if j = i then x else b.testBit j := by
  unfold bitset_set
  by_cases hji : j = i
  · subst hji
    cases x <;> simp [Nat.testBit_two_pow_self]
  · have h2 : (2 ^ i).testBit j = false := by
      rw [Nat.testBit_two_pow]
      simpa using fun h => hji h.symm
    cases x <;> simp [hji, h2]

/-- The member `fixed_size_mask_impl::masked_load`: it completes and bit `j` of the merge
value becomes `mem[j]` when bit `j` of the mask is set and is left as it was otherwise. -/
theorem fixed_size_mask_masked_load_spec (merge mask : Nat) (mem : List Bool) (n : Nat)
    (hn : n ≤ mem.length) :
    ∃ r, fixed_size_mask_impl.masked_load n merge mask mem = some r ∧
      ∀ j, r.testBit j =
        if j < n ∧ mask.testBit j = true then mem.getD j false else merge.testBit j := by
  unfold fixed_size_mask_impl.masked_load
  induction n with
  | zero => exact ⟨merge, rfl, by intro j; simp⟩
  | succ n ih =>
    obtain ⟨r, hr, hget⟩ := ih (by omega)
    rw [execute_n_times_succ, hr, Option.some_bind]
    by_cases hs : mask.testBit n = true
    · refine ⟨bitset_set r n (mem.get ⟨n, by omega⟩), ?_, ?_⟩
      · simp only [hs, if_true, List.getElem?_eq_getElem (by omega : n < mem.length)]
        rfl
      · intro j
        rw [testBit_bitset_set]
        by_cases hj : j = n
        · subst hj
          simp only [if_true, Nat.lt_succ_self, hs, and_self, List.getD_eq_getElem?_getD,
            List.getElem?_eq_getElem (by omega : j < mem.length), Option.getD_some]
          rfl
        · rw [if_neg hj, hget j]
          have hcond : (j < n + 1 ∧ mask.testBit j = true) ↔ (j < n ∧ mask.testBit j = true) := by
            constructor
            · rintro ⟨h1, h2⟩
              exact ⟨by omega, h2⟩
            · rintro ⟨h1, h2⟩
              exact ⟨by omega, h2⟩
          simp only [hcond]
    · refine ⟨r, ?_, ?_⟩
      · simp only [hs, Bool.false_eq_true, if_false]
      · intro j
        rw [hget j]
        have hcond : (j < n + 1 ∧ mask.testBit j = true) ↔ (j < n ∧ mask.testBit j = true) := by
          constructor
          · rintro ⟨h1, h2⟩
            refine ⟨?_, h2⟩
            by_contra hcon
            have : j = n := by omega
            rw [this] at h2
            exact hs h2
          · rintro ⟨h1, h2⟩
            exact ⟨by omega, h2⟩
        simp only [hcond]

/-- The member `fixed_size_mask_impl::masked_store`: it completes, keeps the length of
the buffer, writes `mem[g] = v[g]` for the set bits `g` of `k` and leaves every other
element as it was. -/
theorem fixed_size_mask_masked_store_spec (v k : Nat) (mem : List Bool) (n : Nat)
    (hn : n ≤ mem.length) :
    ∃ r, fixed_size_mask_impl.masked_store n v mem k = some r ∧ r.length = mem.length ∧
      ∀ g, r[g]? = if g < n ∧ k.testBit g = true then some (v.testBit g) else mem[g]? := by
  obtain ⟨r, hr, hlen, hget⟩ := execute_masked_write_spec (fun i => k.testBit i)
    (fun i => some (v.testBit i)) 0 mem n (fun i hi _ => ⟨⟨_, rfl⟩, by omega⟩)
  refine ⟨r, hr, hlen, ?_⟩
  intro g
  rw [hget g]
  simp only [Nat.zero_le, Nat.sub_zero, true_and]

/-- The kernel that a chunk resolves to meets the lane contract for `U = T` when the chunk
is not an AVX-512 chunk, or is an AVX-512 chunk of 8 lanes of `double`. -/
theorem get_impl_t_masked_store_spec (tb : Nat → Bool) (sizeof_long : Nat) (T : ElementType)
    (A : Abi) (native : List Nat)
    (h512 : A = Abi.avx512 →
      T = ElementType.double ∧ native.length = 8 ∧ ∀ x ∈ native, x < 2 ^ 64) :
    store_contract tb
      (fun nat m o k => (get_impl_t.masked_store sizeof_long T T id A nat m o k).toOption)
      native := by
  intro mem o hb
  have hnat := native_masked_store_spec tb native mem o hb
  have hother : (outcome_of_run (native_masked_store (native.map id) mem o
        ((List.range' o native.length).map tb))).toOption =
      native_masked_store native mem o ((List.range' o native.length).map tb) := by
    rw [toOption_outcome_of_run, List.map_id]
  cases A with
  | avx512 =>
    obtain ⟨hT, hl, hx⟩ := h512 rfl
    subst hT
    simp only [get_impl_t.masked_store]
    rw [avx512_masked_store_eight_bytes sizeof_long ElementType.double native mem o _ rfl hl
      (by simp [hl]) hx]
    exact hnat
  | avx => simp only [get_impl_t.masked_store, hother]; exact hnat
  | neon => simp only [get_impl_t.masked_store, hother]; exact hnat
  | sse => simp only [get_impl_t.masked_store, hother]; exact hnat
  | scalar => simp only [get_impl_t.masked_store, hother]; exact hnat

/-- With chunk kernels that meet the lane contract (no AVX-512 chunk, or AVX-512 chunks of
`double`) and a buffer of the element type of the composite, the composite `masked_store`
writes `mem[g] = v_g` exactly for the set bits `g` of the mask and leaves every other
element as it was, and the following `masked_load` with the same mask sets lane `i` of the
merge value to `v_i` for the set bits and leaves the other lanes as they were. -/
theorem masked_store_then_load (sizeof_long : Nat) (T : ElementType) (N bits : Nat)
    (hN : N ≤ 64) (hb : bits < 2 ^ N) (As : List Abi) (v merge : List (List Nat))
    (mem : List Nat) (hlen : v.length = As.length) (hv : (all_lanes v).length = N)
    (hm : (all_lanes merge).length = N) (hmem : N ≤ mem.length)
    (hAs : ∀ q, q ∈ As.zip v → q.1 = Abi.avx512 →
      T = ElementType.double ∧ q.2.length = 8 ∧ ∀ x ∈ q.2, x < 2 ^ 64) :
    ∃ mem1 m1,
      fixed_size_datapar_impl.masked_store sizeof_long T T id N As v mem bits = some mem1 ∧
      mem1.length = mem.length ∧
      (∀ g, mem1[g]? =
        if g < N ∧ bits.testBit g = true then (all_lanes v)[g]? else mem[g]?) ∧
      fixed_size_datapar_impl.masked_load N merge bits mem1 = some m1 ∧
      m1.map List.length = merge.map List.length ∧
      ∀ i, (all_lanes m1)[i]? =
        if i < N ∧ bits.testBit i = true then (all_lanes v)[i]? else (all_lanes merge)[i]? := by
  obtain ⟨mem1, hst, hlen1, hget1⟩ := for_each1_masked_store_spec N bits hN hb
    (fun A nat m o k => (get_impl_t.masked_store sizeof_long T T id A nat m o k).toOption)
    As v 0 mem hlen
    (fun q hq => get_impl_t_masked_store_spec _ sizeof_long T q.1 q.2 (hAs q hq))
    (by omega) (by omega)
  obtain ⟨m1, hld, hlen2, hget2⟩ := for_each_update1_masked_load_spec N bits hN hb mem1 merge 0
    (by omega) (by omega)
  refine ⟨mem1, m1, hst, hlen1, ?_, hld, hlen2, ?_⟩
  · intro g
    rw [hget1 g]
    simp only [Nat.zero_le, Nat.sub_zero, true_and, hv]
  · intro i
    rw [hget2 i]
    simp only [Nat.zero_add, hm]
    by_cases hc : i < N ∧ bits.testBit i = true
    · rw [if_pos hc, if_pos hc, hget1 i]
      simp only [Nat.zero_le, Nat.sub_zero, true_and, hv, if_pos hc]
    · rw [if_neg hc, if_neg hc]

/-- An instance of the contract: a composite of 10 `double` lanes with the chunks of 8
lanes (AVX-512) and 2 lanes (SSE) and the mask `0b1000000101` stores the lanes 0, 2 and 9
to a buffer of `double` and loads them back; every other element stays as it was. -/
theorem masked_store_then_load_instance :
    fixed_size_datapar_impl.masked_store 8 ElementType.double ElementType.double id 10
        [Abi.avx512, Abi.sse] [[1, 2, 3, 4, 5, 6, 7, 8], [9, 10]] (List.replicate 10 0)
        0b1000000101 = some [1, 0, 3, 0, 0, 0, 0, 0, 0, 10] ∧
    fixed_size_datapar_impl.masked_load 10 [List.replicate 8 7, [7, 7]] 0b1000000101
        [1, 0, 3, 0, 0, 0, 0, 0, 0, 10] = some [[1, 7, 3, 7, 7, 7, 7, 7], [7, 10]] := by
  constructor <;> decide

/-- C19 (refuted): the generic `avx512_datapar_impl::masked_store` instantiates for
`T = double` only; for `float` and the integer types the call of `_mm512_mask_storeu_pd`
is ill-formed. For `T = double` and a buffer of `float` the lanes `1.0, ..., 8.0` under
the mask `0x01` leave `mem[0] = 0` and `mem[1] = 0x3FF00000`, the two halves of the
representation of the `double` `1.0`: element 1 is written although bit 1 is clear, and
element 0 is not the converted lane, whatever the conversion. Under the mask `0x10` on a
buffer of 8 elements the call writes past the end of the buffer, where the contract writes
`mem[4]`. For a buffer of `long long` the mask `0x01` leaves in `mem[0]` the representation
of the `double`, not a converted value. -/
theorem avx512_masked_store_by_units :
    avx512_datapar_impl.masked_store 8 ElementType.double ElementType.float
        [0x3FF0000000000000, 0x4000000000000000, 0x4008000000000000, 0x4010000000000000,
          0x4014000000000000, 0x4018000000000000, 0x401C000000000000, 0x4020000000000000]
        (List.replicate 16 0) 0 (native_from_bitset 8 0x01) =
      Except.ok [0, 0x3FF00000, 0, 0, 0, 0, 0, 0, 0, 0, 0, 0, 0, 0, 0, 0] ∧
    (∀ cvt : Nat → Nat, spec_masked_store (fun i => (0x01 : Nat).testBit i)
        ([0x3FF0000000000000, 0x4000000000000000, 0x4008000000000000, 0x4010000000000000,
          0x4014000000000000, 0x4018000000000000, 0x401C000000000000,
          0x4020000000000000].map cvt) (List.replicate 16 0) 0 =
      [cvt 0x3FF0000000000000, 0, 0, 0, 0, 0, 0, 0, 0, 0, 0, 0, 0, 0, 0, 0]) ∧
    avx512_datapar_impl.masked_store 8 ElementType.double ElementType.float
        [0x3FF0000000000000, 0x4000000000000000, 0x4008000000000000, 0x4010000000000000,
          0x4014000000000000, 0x4018000000000000, 0x401C000000000000, 0x4020000000000000]
        (List.replicate 8 0) 0 (native_from_bitset 8 0x10) =
      Except.error Failure.undefined_behaviour ∧
    (∀ cvt : Nat → Nat, spec_masked_store (fun i => (0x10 : Nat).testBit i)
        ([0x3FF0000000000000, 0x4000000000000000, 0x4008000000000000, 0x4010000000000000,
          0x4014000000000000, 0x4018000000000000, 0x401C000000000000,
          0x4020000000000000].map cvt) (List.replicate 8 0) 0 =
      [0, 0, 0, 0, cvt 0x4014000000000000, 0, 0, 0]) ∧
    avx512_datapar_impl.masked_store 8 ElementType.double ElementType.llong
        [0x3FF0000000000000, 0x4000000000000000, 0x4008000000000000, 0x4010000000000000,
          0x4014000000000000, 0x4018000000000000, 0x401C000000000000, 0x4020000000000000]
        (List.replicate 8 0) 0 (native_from_bitset 8 0x01) =
      Except.ok [0x3FF0000000000000, 0, 0, 0, 0, 0, 0, 0] ∧
    (∀ (sizeof_long : Nat) (T U : ElementType) (v mem : List Nat) (p : Nat) (k : List Bool),
      avx512_datapar_impl.masked_store sizeof_long T U v mem p k ≠
          Except.error Failure.ill_formed ↔ T = ElementType.double) := by
  refine ⟨rfl, fun cvt => rfl, rfl, fun cvt => rfl, rfl, ?_⟩
  intro sizeof_long T U v mem p k
  cases hrun : mm512_mask_storeu_pd (sizeof sizeof_long U) mem p (bits_to_nat k) v <;>
    cases T <;>
    simp [avx512_datapar_impl.masked_store, intrinsic_type, outcome_of_run, hrun]

/-- C18 (refuted for composites with an AVX-512 chunk): on an AVX-512 build the storage of
8 lanes of `double` is one AVX-512 chunk, and `fixed_size_datapar_impl::masked_store` of
the lanes `1.0, ..., 8.0` to a buffer of `float` under the mask `0x01` leaves `mem[0] = 0`
and `mem[1] = 0x3FF00000`: element 1 is written although bit 1 is clear, where the
contract writes the converted lane to `mem[0]` only. The storage of 16 lanes of `float` is
one AVX-512 chunk as well, and for it the member has no result, because the kernel of the
chunk is ill-formed. -/
theorem fixed_size_masked_store_avx512_chunk :
    fixed_size_storage avx512_registry_8 8 8 = some [Abi.avx512] ∧
    (∀ cvt : Nat → Nat,
      fixed_size_datapar_impl.masked_store 8 ElementType.double ElementType.float cvt 8
        [Abi.avx512]
        [[0x3FF0000000000000, 0x4000000000000000, 0x4008000000000000, 0x4010000000000000,
          0x4014000000000000, 0x4018000000000000, 0x401C000000000000, 0x4020000000000000]]
        (List.replicate 16 0) 0x01 =
      some [0, 0x3FF00000, 0, 0, 0, 0, 0, 0, 0, 0, 0, 0, 0, 0, 0, 0]) ∧
    (∀ cvt : Nat → Nat, spec_masked_store (fun i => (0x01 : Nat).testBit i)
        ((all_lanes [[0x3FF0000000000000, 0x4000000000000000, 0x4008000000000000,
          0x4010000000000000, 0x4014000000000000, 0x4018000000000000, 0x401C000000000000,
          0x4020000000000000]]).map cvt) (List.replicate 16 0) 0 =
      [cvt 0x3FF0000000000000, 0, 0, 0, 0, 0, 0, 0, 0, 0, 0, 0, 0, 0, 0, 0]) ∧
    fixed_size_storage avx512_registry 16 16 = some [Abi.avx512] ∧
    get_impl_t.masked_store 8 ElementType.float ElementType.float id Abi.avx512
        [1, 2, 3, 4, 5, 6, 7, 8, 9, 10, 11, 12, 13, 14, 15, 16] (List.replicate 16 0) 0
        (native_from_bitset 16 0x0001) = Except.error Failure.ill_formed ∧
    fixed_size_datapar_impl.masked_store 8 ElementType.float ElementType.float id 16
        [Abi.avx512] [[1, 2, 3, 4, 5, 6, 7, 8, 9, 10, 11, 12, 13, 14, 15, 16]]
        (List.replicate 16 0) 0x0001 = none := by
  exact ⟨by decide, fun cvt => rfl, fun cvt => rfl, by decide, rfl, by decide⟩

/-! ## Claims about the converting overloads -/

theorem viable_at_most_one (sT sU : Nat) (hT : 1 ≤ sT) (hU : 1 ≤ sU) :
    (viable load_overloads sT sU).length ≤ 1 ∧ (viable store_overloads sT sU).length ≤ 1 := by
  have key : (decide (sT = sU) = true ∧
        decide (sT = sU * 2) = false ∧
        decide (sT = sU * 4) = false ∧
        decide (sT = sU * 8) = false ∧
        decide (sT * 2 = sU) = false ∧
        decide (sT * 4 = sU) = false ∧
        decide (sT * 8 = sU) = false) ∨
      (decide (sT = sU) = false ∧
        decide (sT = sU * 2) = true ∧
        decide (sT = sU * 4) = false ∧
        decide (sT = sU * 8) = false ∧
        decide (sT * 2 = sU) = false ∧
        decide (sT * 4 = sU) = false ∧
        decide (sT * 8 = sU) = false) ∨
      (decide (sT = sU) = false ∧
        decide (sT = sU * 2) = false ∧
        decide (sT = sU * 4) = true ∧
        decide (sT = sU * 8) = false ∧
        decide (sT * 2 = sU) = false ∧
        decide (sT * 4 = sU) = false ∧
        decide (sT * 8 = sU) = false) ∨
      (decide (sT = sU) = false ∧
        decide (sT = sU * 2) = false ∧
        decide (sT = sU * 4) = false ∧
        decide (sT = sU * 8) = true ∧
        decide (sT * 2 = sU) = false ∧
        decide (sT * 4 = sU) = false ∧
        decide (sT * 8 = sU) = false) ∨
      (decide (sT = sU) = false ∧
        decide (sT = sU * 2) = false ∧
        decide (sT = sU * 4) = false ∧
        decide (sT = sU * 8) = false ∧
        decide (sT * 2 = sU) = true ∧
        decide (sT * 4 = sU) = false ∧
        decide (sT * 8 = sU) = false) ∨
      (decide (sT = sU) = false ∧
        decide (sT = sU * 2) = false ∧
        decide (sT = sU * 4) = false ∧
        decide (sT = sU * 8) = false ∧
        decide (sT * 2 = sU) = false ∧
        decide (sT * 4 = sU) = true ∧
        decide (sT * 8 = sU) = false) ∨
      (decide (sT = sU) = false ∧
        decide (sT = sU * 2) = false ∧
        decide (sT = sU * 4) = false ∧
        decide (sT = sU * 8) = false ∧
        decide (sT * 2 = sU) = false ∧
        decide (sT * 4 = sU) = false ∧
        decide (sT * 8 = sU) = true) ∨
      (decide (sT = sU) = false ∧
        decide (sT = sU * 2) = false ∧
        decide (sT = sU * 4) = false ∧
        decide (sT = sU * 8) = false ∧
        decide (sT * 2 = sU) = false ∧
        decide (sT * 4 = sU) = false ∧
        decide (sT * 8 = sU) = false) := by
    simp only [decide_eq_true_eq, decide_eq_false_iff_not]
    omega
  rcases key with h | h | h | h | h | h | h | h <;>
    obtain ⟨h1, h2, h3, h4, h5, h6, h7⟩ := h <;>
    simp [viable, load_overloads, store_overloads, List.filter_cons, Conversion.enabled,
      h1, h2, h3, h4, h5, h6, h7]

theorem viable_outside_table (sT sU : Nat) (h : ¬ in_factor_table sT sU) :
    viable load_overloads sT sU = [] ∧ viable store_overloads sT sU = [] := by
  simp only [in_factor_table, not_or] at h
  obtain ⟨h1, h2, h3, h4, h5, h6, h7⟩ := h
  have e2 : ¬ sT = sU * 2 := by omega
  have e3 : ¬ sT = sU * 4 := by omega
  have e4 : ¬ sT = sU * 8 := by omega
  have e5 : ¬ sT * 2 = sU := by omega
  have e6 : ¬ sT * 4 = sU := by omega
  have e7 : ¬ sT * 8 = sU := by omega
  simp [viable, load_overloads, store_overloads, Conversion.enabled, h1, e2, e3, e4, e5, e6, e7]

/-- C21 (amended): for element sizes `sizeof(T)`, `sizeof(U)` in `{1, 2, 4, 8}` exactly one
of the seven `enable_if` conditions of the converting loads holds, and the same one of the
converting stores; for positive sizes never more than one holds; and for sizes whose
relation is outside the factor table none holds, so that no converting overload is
viable: the call is then rejected, unless `U` is `long double`, for which the dedicated
overloads of `load` and `store` take the call. -/
theorem conversion_overloads_partition (sT sU : Nat) (hT : 1 ≤ sT) (hU : 1 ≤ sU)
    (U_is_T U_is_long_double : Bool) :
    ((sT ∈ [1, 2, 4, 8] ∧ sU ∈ [1, 2, 4, 8]) →
      ∃ o, viable load_overloads sT sU = [o] ∧ viable store_overloads sT sU = [o] ∧
        resolve_conversion load_overloads sT sU = some o ∧
        resolve_conversion store_overloads sT sU = some o) ∧
    ((viable load_overloads sT sU).length ≤ 1 ∧ (viable store_overloads sT sU).length ≤ 1) ∧
    (¬ in_factor_table sT sU →
      viable load_overloads sT sU = [] ∧ viable store_overloads sT sU = [] ∧
      (U_is_long_double = false → U_is_T = false →
        resolve_overload load_overloads sT sU U_is_T U_is_long_double = none ∧
        resolve_overload store_overloads sT sU U_is_T U_is_long_double = none) ∧
      (U_is_long_double = true →
        resolve_overload load_overloads sT sU U_is_T U_is_long_double =
          some Overload.long_double ∧
        resolve_overload store_overloads sT sU U_is_T U_is_long_double =
          some Overload.long_double)) := by
  refine ⟨?_, viable_at_most_one sT sU hT hU, ?_⟩
  · rintro ⟨h1, h2⟩
    simp only [List.mem_cons, List.mem_singleton, List.not_mem_nil, or_false] at h1 h2
    rcases h1 with rfl | rfl | rfl | rfl <;> rcases h2 with rfl | rfl | rfl | rfl <;>
      exact ⟨_, rfl, rfl, rfl, rfl⟩
  · intro h
    obtain ⟨hl, hs⟩ := viable_outside_table sT sU h
    refine ⟨hl, hs, ?_, ?_⟩
    · intro h1 h2
      simp [resolve_overload, resolve_conversion, hl, hs, h1, h2]
    · intro h1
      simp [resolve_overload, h1]

/-- Instances of C21 (amended): a load of 1-byte elements into 4-byte lanes takes the
overload for `sizeof(T) == sizeof(U) * 4`; a pair of sizes 1 and 3 is rejected. -/
theorem conversion_overloads_partition_witness :
    ((((4 : Nat) ∈ [1, 2, 4, 8] ∧ (1 : Nat) ∈ [1, 2, 4, 8]) →
      ∃ o, viable load_overloads 4 1 = [o] ∧ viable store_overloads 4 1 = [o] ∧
        resolve_conversion load_overloads 4 1 = some o ∧
        resolve_conversion store_overloads 4 1 = some o) ∧
    ((viable load_overloads 4 1).length ≤ 1 ∧ (viable store_overloads 4 1).length ≤ 1) ∧
    (¬ in_factor_table 4 1 →
      viable load_overloads 4 1 = [] ∧ viable store_overloads 4 1 = [] ∧
      (false = false → false = false →
        resolve_overload load_overloads 4 1 false false = none ∧
        resolve_overload store_overloads 4 1 false false = none) ∧
      (false = true →
        resolve_overload load_overloads 4 1 false false = some Overload.long_double ∧
        resolve_overload store_overloads 4 1 false false = some Overload.long_double))) ∧
    resolve_overload load_overloads 4 1 false false =
      some (Overload.converting Conversion.T_four_U) ∧
    ¬ in_factor_table 1 3 ∧ resolve_overload load_overloads 1 3 false false = none :=
  ⟨conversion_overloads_partition 4 1 (by decide) (by decide) false false, by decide, by decide,
    by decide⟩

/-- C21 as stated fails for `U = long double`: for a 1-byte `T` and the 16-byte
`long double` the size relation is outside the factor table and no converting overload is
viable, but the call is not rejected: the overloads of `load` and `store` for
`long double` memory take it. -/
theorem long_double_conversion_not_rejected :
    ¬ in_factor_table 1 16 ∧
    viable load_overloads 1 16 = [] ∧ viable store_overloads 1 16 = [] ∧
    resolve_overload load_overloads 1 16 false true = some Overload.long_double ∧
    resolve_overload store_overloads 1 16 false true = some Overload.long_double := by
  refine ⟨?_, ?_, ?_, ?_, ?_⟩ <;> decide

/-! ## Claims about the depth of the reduction tree -/

/-- The left part of the split is a power of two, and `Count` lies strictly above it and
at most at its double. -/
theorem tree_split_left_pow (Count : Nat) (h3 : 3 ≤ Count) :
    ∃ k, next_power_of_2 Count / 2 = 2 ^ k ∧ 2 ^ k < Count ∧ Count ≤ 2 ^ (k + 1) := by
  obtain ⟨⟨m, hm⟩, hle, hlt⟩ := next_power_of_2_spec Count (by omega)
  cases m with
  | zero => rw [hm] at hle; simp at hle; omega
  | succ k =>
    refine ⟨k, ?_, ?_, ?_⟩
    · rw [hm, pow_succ, Nat.mul_div_cancel _ (by decide : 0 < 2)]
    · rw [hm, pow_succ] at hlt
      omega
    · rw [← hm]
      exact hle

/-- The left part of the split is at least as long as the right part. -/
theorem tree_split_right_le_left (Count : Nat) (h3 : 3 ≤ Count) :
    1 ≤ Count - next_power_of_2 Count / 2 ∧
      Count - next_power_of_2 Count / 2 ≤ next_power_of_2 Count / 2 := by
  obtain ⟨k, hk, hlo, hhi⟩ := tree_split_left_pow Count h3
  rw [hk]
  rw [pow_succ] at hhi
  omega

/-- The application tree built by `tree_reduction` over `Count` leaves has depth
`⌈log₂ Count⌉`. -/
theorem tree_reduction_depth {α : Type} (tup : List α) (Count : Nat) :
    ∀ (fuel Begin : Nat) (t : OpTree α), 1 ≤ Count →
      tree_reduction OpTree.node (tup.map OpTree.leaf) fuel Count Begin = some t →
      t.depth = Nat.clog 2 Count := by
  induction Count using Nat.strong_induction_on with
  | _ Count ih =>
    intro fuel Begin t h1 ht
    cases fuel with
    | zero => simp [tree_reduction] at ht
    | succ f =>
      by_cases hc1 : Count = 1
      · subst hc1
        simp only [tree_reduction, Nat.succ_ne_zero, if_false, if_true, List.getElem?_map,
          Option.map_eq_some'] at ht
        obtain ⟨a, -, rfl⟩ := ht
        simp [OpTree.depth]
      by_cases hc2 : Count = 2
      · subst hc2
        simp only [tree_reduction, List.getElem?_map] at ht
        cases ha : tup[Begin]? with
        | none => simp [ha] at ht
        | some a =>
          cases hb : tup[Begin + 1]? with
          | none => simp [ha, hb] at ht
          | some b =>
            simp only [ha, hb, Option.map_some', OfNat.ofNat_ne_zero, if_false,
              OfNat.ofNat_ne_one, if_true, Option.some.injEq] at ht
            subst ht
            have : Nat.clog 2 2 = 1 := by
              have := Nat.clog_pow 2 1 (by decide)
              simpa using this
            simp [OpTree.depth, this]
      have h0 : Count ≠ 0 := by omega
      obtain ⟨hl1, hl2⟩ := tree_split_bounds Count (by omega)
      obtain ⟨hr1, hr2⟩ := tree_split_right_le_left Count (by omega)
      obtain ⟨k, hk, hlo, hhi⟩ := tree_split_left_pow Count (by omega)
      simp only [tree_reduction, h0, hc1, hc2, if_false] at ht
      cases hL : tree_reduction OpTree.node (tup.map OpTree.leaf) f
          (next_power_of_2 Count / 2) Begin with
      | none => simp [hL] at ht
      | some tl =>
        cases hR : tree_reduction OpTree.node (tup.map OpTree.leaf) f
            (Count - next_power_of_2 Count / 2) (Begin + next_power_of_2 Count / 2) with
        | none => simp [hL, hR] at ht
        | some tr =>
          simp only [hL, hR, Option.some.injEq] at ht
          subst ht
          have dl := ih _ hl2 f Begin tl hl1 hL
          have dr := ih _ (by omega) f _ tr hr1 hR
          rw [hk, Nat.clog_pow 2 k (by decide)] at dl
          have hrk : Nat.clog 2 (Count - next_power_of_2 Count / 2) ≤ k := by
            apply (Nat.le_pow_iff_clog_le (by decide)).1
            rw [← hk]
            exact hr2
          have hup : Nat.clog 2 Count ≤ k + 1 := (Nat.le_pow_iff_clog_le (by decide)).1 hhi
          have hlow : k < Nat.clog 2 Count := (Nat.pow_lt_iff_lt_clog (by decide)).1 hlo
          simp only [OpTree.depth, dl, dr]
          omega

/-- C22: for `Count ≥ 3` the split of `tree_reduction` has `1 ≤ left < Count`,
`right = Count - left ≥ 1` and `right ≤ left`; and for `Count ≥ 1` on a range inside the
tuple, with instantiation depth `Count`, the reduction completes and the depth of its
application tree is `⌈log₂ Count⌉`. -/
theorem tree_reduction_split_and_depth {α : Type} (tup : List α) (Count Begin fuel : Nat)
    (h1 : 1 ≤ Count) (hb : Begin + Count ≤ tup.length) (hf : Count ≤ fuel) :
    (3 ≤ Count →
      1 ≤ next_power_of_2 Count / 2 ∧ next_power_of_2 Count / 2 < Count ∧
      1 ≤ Count - next_power_of_2 Count / 2 ∧
      Count - next_power_of_2 Count / 2 ≤ next_power_of_2 Count / 2) ∧
    ∃ t : OpTree α,
      tree_reduction OpTree.node (tup.map OpTree.leaf) fuel Count Begin = some t ∧
      (∀ op : α → α → α, tree_reduction op tup fuel Count Begin = some (t.eval op)) ∧
      t.depth = Nat.clog 2 Count := by
  constructor
  · intro h3
    obtain ⟨a, b⟩ := tree_split_bounds Count h3
    obtain ⟨c, d⟩ := tree_split_right_le_left Count h3
    exact ⟨a, b, c, d⟩
  · obtain ⟨t, ht, -, hop⟩ := tree_reduction_tree tup Count fuel Begin h1 hb hf
    exact ⟨t, ht, hop, tree_reduction_depth tup Count fuel Begin t h1 ht⟩

/-- An instance of C22: five chunks split into four and one, and the tree
`((x0 x1) (x2 x3)) x4` has depth `3 = ⌈log₂ 5⌉`. -/
theorem tree_reduction_split_and_depth_witness :
    ((3 ≤ 5 →
      1 ≤ next_power_of_2 5 / 2 ∧ next_power_of_2 5 / 2 < 5 ∧
      1 ≤ 5 - next_power_of_2 5 / 2 ∧
      5 - next_power_of_2 5 / 2 ≤ next_power_of_2 5 / 2) ∧
    ∃ t : OpTree Nat,
      tree_reduction OpTree.node ([10, 11, 12, 13, 14].map OpTree.leaf) 5 5 0 = some t ∧
      (∀ op : Nat → Nat → Nat,
        tree_reduction op [10, 11, 12, 13, 14] 5 5 0 = some (t.eval op)) ∧
      t.depth = Nat.clog 2 5) ∧
    next_power_of_2 5 / 2 = 4 ∧ Nat.clog 2 5 = 3 :=
  ⟨tree_reduction_split_and_depth [10, 11, 12, 13, 14] 5 0 5 (by decide) (by decide)
    (by decide), by decide, by
      have h1 : Nat.clog 2 5 ≤ 3 := (Nat.le_pow_iff_clog_le (by decide)).1 (by decide)
      have h2 : 2 < Nat.clog 2 5 := (Nat.pow_lt_iff_lt_clog (by decide)).1 (by decide)
      omega⟩

/-! ## Claims about assignment and broadcast of fixed-size masks -/

theorem testBit_bitset_not (N b i : Nat) :
    (bitset_not N b).testBit i = (decide (i < N) && !b.testBit i) := by
  unfold bitset_not
  rw [Nat.testBit_xor, Nat.testBit_two_pow_sub_one, Nat.testBit_mod_two_pow]
  by_cases h : i < N <;> simp [h]

theorem testBit_masked_assign (N k lhs rhs : Nat) (hk : k < 2 ^ N) (hl : lhs < 2 ^ N) (i : Nat) :
    (fixed_size_mask_impl.masked_assign N k lhs rhs).testBit i =
      if k.testBit i = true then rhs.testBit i else lhs.testBit i := by
  unfold fixed_size_mask_impl.masked_assign
  rw [Nat.testBit_or, Nat.testBit_and, Nat.testBit_and, testBit_bitset_not]
  by_cases h : i < N
  · cases k.testBit i <;> simp [h]
  · have hk0 : k.testBit i = false :=
      Nat.testBit_lt_two_pow (Nat.lt_of_lt_of_le hk (Nat.pow_le_pow_right (by decide) (by omega)))
    have hl0 : lhs.testBit i = false :=
      Nat.testBit_lt_two_pow (Nat.lt_of_lt_of_le hl (Nat.pow_le_pow_right (by decide) (by omega)))
    simp [h, hk0, hl0]

theorem testBit_masked_assign_bool (N k lhs : Nat) (rhs : Bool) (hk : k < 2 ^ N)
    (hl : lhs < 2 ^ N) (i : Nat) :
    (fixed_size_mask_impl.masked_assign_bool N k lhs rhs).testBit i =
      if k.testBit i = true then rhs else lhs.testBit i := by
  unfold fixed_size_mask_impl.masked_assign_bool
  have hk0 : ¬ i < N → k.testBit i = false := fun h =>
    Nat.testBit_lt_two_pow (Nat.lt_of_lt_of_le hk (Nat.pow_le_pow_right (by decide) (by omega)))
  have hl0 : ¬ i < N → lhs.testBit i = false := fun h =>
    Nat.testBit_lt_two_pow (Nat.lt_of_lt_of_le hl (Nat.pow_le_pow_right (by decide) (by omega)))
  cases rhs with
  | true =>
    simp only [if_true, Nat.testBit_or]
    cases k.testBit i <;> simp
  | false =>
    simp only [Bool.false_eq_true, if_false, Nat.testBit_and, testBit_bitset_not]
    by_cases h : i < N
    · cases k.testBit i <;> simp [h]
    · simp [h, hk0 h, hl0 h]

theorem testBit_spec_mask_broadcast (N : Nat) (x : Bool) (i : Nat) :
    (spec_mask_broadcast N x).testBit i = (decide (i < N) && x) := by
  cases x <;> simp [spec_mask_broadcast]

/-- For up to 64 lanes, the range that the `static_assert` of the class admits, the member
`broadcast` is the mask whose bits below `N` all equal `x`. -/
theorem mask_broadcast_spec (N : Nat) (hN : N ≤ 64) (x : Bool) :
    fixed_size_mask_impl.broadcast N x = spec_mask_broadcast N x := by
  have hpos : 0 < 2 ^ N := Nat.two_pow_pos N
  have hle : 2 ^ N ≤ 2 ^ 64 := Nat.pow_le_pow_right (by decide) hN
  have hsub : ullong_sub (ullong_shl 1 N) 1 = 2 ^ N - 1 := by
    unfold ullong_sub ullong_shl
    rw [Nat.one_shiftLeft, Nat.mod_mod, Nat.mod_eq_of_lt (by norm_num : 1 < 2 ^ 64)]
    rcases Nat.lt_or_ge N 64 with h | h
    · have hlt : 2 ^ N < 2 ^ 64 := Nat.pow_lt_pow_right (by decide) h
      rw [Nat.mod_eq_of_lt hlt]
      have e : 2 ^ N + (2 ^ 64 - 1) = (2 ^ N - 1) + 2 ^ 64 := by omega
      rw [e, Nat.add_mod_right, Nat.mod_eq_of_lt (by omega)]
    · have e : N = 64 := by omega
      subst e
      norm_num
  simp only [fixed_size_mask_impl.broadcast, hsub, bitset_of_ullong, ullong_mul,
    spec_mask_broadcast]
  cases x with
  | true =>
    simp only [if_true, Nat.one_mul]
    rw [Nat.mod_eq_of_lt (by omega), Nat.mod_eq_of_lt (by omega)]
  | false => simp

/-- C23: for `N`-bit masks `k`, `lhs` and any `rhs`, `fixed_size_mask_impl::masked_assign` leaves
in bit `i` of `lhs` the bit `rhs_i` when `k_i` is set and the old bit otherwise, and the
result is an `N`-bit mask; the overload with a `bool` `rhs` gives the same result as the
mask overload called with the mask whose `N` bits all equal `rhs`, and, for every `N` up
to 64 that the class admits, as the mask overload called with the member
`broadcast(rhs)`. -/
theorem mask_masked_assign_bits (N k lhs rhs : Nat) (hk : k < 2 ^ N) (hl : lhs < 2 ^ N)
    (x : Bool) :
    (∀ i, (fixed_size_mask_impl.masked_assign N k lhs rhs).testBit i =
      if k.testBit i = true then rhs.testBit i else lhs.testBit i) ∧
    fixed_size_mask_impl.masked_assign N k lhs rhs < 2 ^ N ∧
    fixed_size_mask_impl.masked_assign_bool N k lhs x =
      fixed_size_mask_impl.masked_assign N k lhs (spec_mask_broadcast N x) ∧
    (N ≤ 64 →
      fixed_size_mask_impl.masked_assign_bool N k lhs x =
        fixed_size_mask_impl.masked_assign N k lhs (fixed_size_mask_impl.broadcast N x)) := by
  have hbits := testBit_masked_assign N k lhs rhs hk hl
  have hspec : fixed_size_mask_impl.masked_assign_bool N k lhs x =
      fixed_size_mask_impl.masked_assign N k lhs (spec_mask_broadcast N x) := by
    apply Nat.eq_of_testBit_eq
    intro i
    rw [testBit_masked_assign_bool N k lhs x hk hl, testBit_masked_assign N k lhs _ hk hl,
      testBit_spec_mask_broadcast]
    by_cases hki : k.testBit i = true
    · have hiN : i < N := by
        by_contra hcon
        have := Nat.testBit_lt_two_pow
          (Nat.lt_of_lt_of_le hk (Nat.pow_le_pow_right (by decide) (by omega : N ≤ i)))
        rw [this] at hki
        exact Bool.false_ne_true hki
      simp [hki, hiN]
    · simp [hki]
  refine ⟨hbits, ?_, hspec, ?_⟩
  · apply Nat.lt_pow_two_of_testBit
    intro i hi
    rw [hbits i]
    have hk0 : k.testBit i = false :=
      Nat.testBit_lt_two_pow (Nat.lt_of_lt_of_le hk (Nat.pow_le_pow_right (by decide) hi))
    have hl0 : lhs.testBit i = false :=
      Nat.testBit_lt_two_pow (Nat.lt_of_lt_of_le hl (Nat.pow_le_pow_right (by decide) hi))
    simp [hk0, hl0]
  · intro hN
    rw [mask_broadcast_spec N hN x]
    exact hspec

/-- Instances of C23. With 5 lanes, `k = 0b10101`, `lhs = 0b00011`, `rhs = 0b11100` give
`0b10110`, and assigning `true` gives `0b10111` with either overload. With 64 lanes,
`k = 2 ^ 63 + 1` and `lhs = 6`, assigning `true` with the `bool` overload gives
`2 ^ 63 + 7`, the result of the mask overload called with `broadcast(true)`. -/
theorem mask_masked_assign_bits_witness :
    ((∀ i, (fixed_size_mask_impl.masked_assign 5 0b10101 0b00011 0b11100).testBit i =
      if (0b10101 : Nat).testBit i = true then (0b11100 : Nat).testBit i
      else (0b00011 : Nat).testBit i) ∧
    fixed_size_mask_impl.masked_assign 5 0b10101 0b00011 0b11100 < 2 ^ 5 ∧
    fixed_size_mask_impl.masked_assign_bool 5 0b10101 0b00011 true =
      fixed_size_mask_impl.masked_assign 5 0b10101 0b00011 (spec_mask_broadcast 5 true) ∧
    fixed_size_mask_impl.masked_assign_bool 5 0b10101 0b00011 true =
      fixed_size_mask_impl.masked_assign 5 0b10101 0b00011
        (fixed_size_mask_impl.broadcast 5 true)) ∧
    fixed_size_mask_impl.masked_assign 5 0b10101 0b00011 0b11100 = 0b10110 ∧
    fixed_size_mask_impl.broadcast 5 true = 0b11111 ∧
    fixed_size_mask_impl.masked_assign_bool 5 0b10101 0b00011 true = 0b10111 ∧
    fixed_size_mask_impl.masked_assign_bool 64 (2 ^ 63 + 1) 6 true = 2 ^ 63 + 7 ∧
    fixed_size_mask_impl.masked_assign 64 (2 ^ 63 + 1) 6
      (fixed_size_mask_impl.broadcast 64 true) = 2 ^ 63 + 7 :=
  ⟨⟨(mask_masked_assign_bits 5 0b10101 0b00011 0b11100 (by decide) (by decide) true).1,
      (mask_masked_assign_bits 5 0b10101 0b00011 0b11100 (by decide) (by decide) true).2.1,
      (mask_masked_assign_bits 5 0b10101 0b00011 0b11100 (by decide) (by decide) true).2.2.1,
      (mask_masked_assign_bits 5 0b10101 0b00011 0b11100 (by decide) (by decide) true).2.2.2
        (by decide)⟩,
    by decide, by decide, by decide, by decide, by decide⟩

/-- C27: for every `N` for which the `fixed_size` traits are enabled (`0 ≤ N ≤ 32` or
`N = 64`) and every `x`, the member `broadcast(x)`, computed as
`ullong(x) * ((1llu << N) - 1llu)` modulo `2 ^ 64`, is the mask in which every bit below
`N` equals `x` and no other bit is set: `2 ^ N - 1` for `true` and `0` for `false`. -/
theorem mask_broadcast_all_bits (N : Nat) (hen : fixed_size_traits_enabled (N : Int) = true)
    (x : Bool) :
    (∀ i, i < N → (fixed_size_mask_impl.broadcast N x).testBit i = x) ∧
    (∀ i, N ≤ i → (fixed_size_mask_impl.broadcast N x).testBit i = false) ∧
    fixed_size_mask_impl.broadcast N x = (if x then 2 ^ N - 1 else 0) ∧
    fixed_size_mask_impl.broadcast N x = spec_mask_broadcast N x := by
  have hN : N ≤ 64 := by
    simp only [fixed_size_traits_enabled, Bool.or_eq_true, Bool.and_eq_true,
      decide_eq_true_eq] at hen
    omega
  have h := mask_broadcast_spec N hN x
  refine ⟨?_, ?_, ?_, h⟩
  · intro i hi
    rw [h, testBit_spec_mask_broadcast]
    simp [hi]
  · intro i hi
    rw [h, testBit_spec_mask_broadcast]
    simp [Nat.not_lt.2 hi]
  · rw [h]
    rfl

/-- Instances of C27 at the largest enabled size and at 32 lanes: `broadcast(true)` of 64
lanes has all 64 bits set (`1llu << 64` contributes `0`, and `0 - 1` is `2 ^ 64 - 1` in
`unsigned long long`), `broadcast(false)` has none. -/
theorem mask_broadcast_all_bits_witness :
    ((∀ i, i < 64 → (fixed_size_mask_impl.broadcast 64 true).testBit i = true) ∧
    (∀ i, 64 ≤ i → (fixed_size_mask_impl.broadcast 64 true).testBit i = false) ∧
    fixed_size_mask_impl.broadcast 64 true = (if true then 2 ^ 64 - 1 else 0) ∧
    fixed_size_mask_impl.broadcast 64 true = spec_mask_broadcast 64 true) ∧
    ullong_shl 1 64 = 0 ∧
    ullong_sub (ullong_shl 1 64) 1 = 2 ^ 64 - 1 ∧
    fixed_size_mask_impl.broadcast 64 true = 2 ^ 64 - 1 ∧
    fixed_size_mask_impl.broadcast 64 false = 0 ∧
    fixed_size_mask_impl.broadcast 32 true = 2 ^ 32 - 1 :=
  ⟨mask_broadcast_all_bits 64 (by decide) true, by decide, by decide, by decide, by decide,
    by decide⟩

/-! ## Claims about the reductions of masks -/

theorem bitset_all_iff (N b : Nat) : bitset_all N b = true ↔ ∀ i, i < N → b.testBit i = true := by
  simp [bitset_all, List.all_eq_true]

theorem bitset_any_iff (N b : Nat) : bitset_any N b = true ↔ ∃ i, i < N ∧ b.testBit i = true := by
  simp [bitset_any, List.any_eq_true]

/-- The loop of `some_of` finds a pair of adjacent lanes that differ. -/
theorem some_of_loop_iff (N k : Nat) :
    ∀ (fuel i : Nat), some_of_loop N k fuel i = true ↔
      ∃ j, i ≤ j ∧ j < i + fuel ∧ j < N ∧ k.testBit j ≠ k.testBit (j - 1) := by
  intro fuel
  induction fuel with
  | zero =>
    intro i
    simp only [some_of_loop, Bool.false_eq_true, false_iff, not_exists]
    intro j h
    omega
  | succ fuel ih =>
    intro i
    unfold some_of_loop
    by_cases hi : i < N
    · rw [if_pos hi]
      by_cases hd : k.testBit i = k.testBit (i - 1)
      · have hb : (k.testBit i != k.testBit (i - 1)) = false := by simp [hd]
        simp only [hb, Bool.false_eq_true, if_false]
        rw [ih (i + 1)]
        constructor
        · rintro ⟨j, h1, h2, h3, h4⟩
          exact ⟨j, by omega, by omega, h3, h4⟩
        · rintro ⟨j, h1, h2, h3, h4⟩
          have hji : j ≠ i := by
            intro hji
            rw [hji] at h4
            exact h4 hd
          exact ⟨j, by omega, by omega, h3, h4⟩
      · have hb : (k.testBit i != k.testBit (i - 1)) = true := by simp [hd]
        simp only [hb, if_true, true_iff]
        exact ⟨i, by omega, by omega, hi, hd⟩
    · rw [if_neg hi]
      simp only [Bool.false_eq_true, false_iff, not_exists]
      intro j h
      omega

/-- When no two adjacent lanes below `N` differ, every lane below `N` equals lane 0. -/
theorem lanes_equal_of_adjacent (N k : Nat)
    (h : ∀ j, 1 ≤ j → j < N → k.testBit j = k.testBit (j - 1)) :
    ∀ i, i < N → k.testBit i = k.testBit 0 := by
  intro i
  induction i with
  | zero => intro _; rfl
  | succ i ih =>
    intro hi
    rw [h (i + 1) (by omega) hi, Nat.add_sub_cancel, ih (by omega)]

/-- The function `some_of` of the fixed-size masks is `any_of` and not `all_of`. -/
theorem some_of_eq_any_not_all (N k : Nat) :
    some_of N k = (any_of N k && !all_of N k) := by
  rw [Bool.eq_iff_iff]
  simp only [Bool.and_eq_true, Bool.not_eq_true', ← Bool.not_eq_true, some_of, any_of, all_of,
    some_of_loop_iff, bitset_all_iff, bitset_any_iff]
  constructor
  · rintro ⟨j, h1, -, h3, h4⟩
    by_cases hj : k.testBit j = true
    · refine ⟨⟨j, h3, hj⟩, fun hall => h4 ?_⟩
      rw [hj, hall (j - 1) (by omega)]
    · refine ⟨⟨j - 1, by omega, ?_⟩, fun hall => hj (hall j h3)⟩
      cases hb : k.testBit (j - 1) with
      | true => rfl
      | false =>
        exfalso
        apply h4
        rw [hb]
        simpa using hj
  · rintro ⟨⟨a, ha, hka⟩, hnall⟩
    by_contra hcon
    have hadj : ∀ j, 1 ≤ j → j < N → k.testBit j = k.testBit (j - 1) := by
      intro j h1 h2
      by_contra hne
      exact hcon ⟨j, h1, by omega, h2, hne⟩
    have heq := lanes_equal_of_adjacent N k hadj
    apply hnall
    intro i hi
    rw [heq i hi, ← heq a ha, hka]

theorem avx512_any_of_eq (N k : Nat) (hk : k < 2 ^ N) : avx512.any_of k = any_of N k := by
  rw [Bool.eq_iff_iff]
  simp only [avx512.any_of, decide_eq_true_eq, any_of, bitset_any_iff]
  constructor
  · intro h0
    obtain ⟨i, hi⟩ := Nat.ne_zero_implies_bit_true h0
    refine ⟨i, ?_, hi⟩
    by_contra hcon
    have := Nat.testBit_lt_two_pow
      (Nat.lt_of_lt_of_le hk (Nat.pow_le_pow_right (by decide) (by omega : N ≤ i)))
    rw [this] at hi
    exact Bool.false_ne_true hi
  · rintro ⟨i, -, hi⟩ h0
    rw [h0, Nat.zero_testBit] at hi
    exact Bool.false_ne_true hi

theorem avx512_all_of_eq (N k : Nat) (hk : k < 2 ^ N) : avx512.all_of N k = all_of N k := by
  rw [Bool.eq_iff_iff]
  simp only [avx512.all_of, testallset, decide_eq_true_eq, all_of, bitset_all_iff]
  constructor
  · intro h i hi
    rw [h, Nat.testBit_two_pow_sub_one]
    simpa using hi
  · intro h
    apply Nat.eq_of_testBit_eq
    intro i
    rw [Nat.testBit_two_pow_sub_one]
    by_cases hi : i < N
    · simp [hi, h i hi]
    · simp only [hi, decide_False]
      exact Nat.testBit_lt_two_pow
        (Nat.lt_of_lt_of_le hk (Nat.pow_le_pow_right (by decide) (by omega : N ≤ i)))

/-- C25: for every `N` and every `N`-bit mask `k`, the fixed-size `some_of(k)` is
true exactly when two adjacent lanes differ, which is exactly when `any_of(k)` and not
`all_of(k)`; it is the value of the AVX-512 `some_of` (`v != 0 && !all_of(k)`) on the same
bits, as are `all_of`, `any_of` and `none_of`; and `none_of(k)` is the negation of
`any_of(k)`. -/
theorem some_of_any_not_all (N k : Nat) (hk : k < 2 ^ N) :
    (some_of N k = true ↔ ∃ j, 1 ≤ j ∧ j < N ∧ k.testBit j ≠ k.testBit (j - 1)) ∧
    some_of N k = (any_of N k && !all_of N k) ∧
    avx512.some_of N k = some_of N k ∧
    none_of N k = !any_of N k ∧
    avx512.all_of N k = all_of N k ∧ avx512.any_of k = any_of N k ∧
    avx512.none_of k = none_of N k := by
  have hany := avx512_any_of_eq N k hk
  have hall := avx512_all_of_eq N k hk
  refine ⟨?_, some_of_eq_any_not_all N k, ?_, rfl, hall, hany, ?_⟩
  · rw [some_of, some_of_loop_iff]
    constructor
    · rintro ⟨j, h1, -, h3, h4⟩
      exact ⟨j, h1, h3, h4⟩
    · rintro ⟨j, h1, h3, h4⟩
      exact ⟨j, h1, by omega, h3, h4⟩
  · rw [some_of_eq_any_not_all, ← hany, ← hall]
    rfl
  · rw [none_of, bitset_none, ← any_of, ← hany]
    simp [avx512.none_of, avx512.any_of]

/-- An instance of C25 with 5 lanes: the mask `0b00110` has lanes that differ, the full
mask `0b11111` has none. -/
theorem some_of_any_not_all_witness :
    ((some_of 5 0b00110 = true ↔
      ∃ j, 1 ≤ j ∧ j < 5 ∧ (0b00110 : Nat).testBit j ≠ (0b00110 : Nat).testBit (j - 1)) ∧
    some_of 5 0b00110 = (any_of 5 0b00110 && !all_of 5 0b00110) ∧
    avx512.some_of 5 0b00110 = some_of 5 0b00110 ∧
    none_of 5 0b00110 = !any_of 5 0b00110 ∧
    avx512.all_of 5 0b00110 = all_of 5 0b00110 ∧ avx512.any_of 0b00110 = any_of 5 0b00110 ∧
    avx512.none_of 0b00110 = none_of 5 0b00110) ∧
    some_of 5 0b00110 = true ∧ some_of 5 0b11111 = false ∧ some_of 5 0 = false :=
  ⟨some_of_any_not_all 5 0b00110 (by decide), by decide, by decide, by decide⟩

/-! ## Claims about `find_first_set` and `find_last_set` -/

/-- The loop of `find_first_set` returns the first set bit at or after `i`. -/
theorem find_first_set_loop_some (N k m : Nat) (hm : m < N) (hbit : k.testBit m = true) :
    ∀ (fuel i : Nat), i ≤ m → m < i + fuel → (∀ j, i ≤ j → j < m → k.testBit j = false) →
      find_first_set_loop N k fuel i = (m : Int) := by
  intro fuel
  induction fuel with
  | zero => intro i h1 h2; omega
  | succ fuel ih =>
    intro i h1 h2 hclear
    unfold find_first_set_loop
    rw [if_pos (by omega : i < N)]
    by_cases him : i = m
    · subst him
      rw [if_pos hbit]
    · rw [if_neg (by rw [hclear i (Nat.le_refl i) (by omega)]; exact Bool.false_ne_true)]
      exact ih (i + 1) (by omega) (by omega) (fun j hj1 hj2 => hclear j (by omega) hj2)

/-- The loop of `find_first_set` returns `-1` when no bit from `i` on is set. -/
theorem find_first_set_loop_none (N k : Nat) :
    ∀ (fuel i : Nat), (∀ j, i ≤ j → j < N → k.testBit j = false) →
      find_first_set_loop N k fuel i = -1 := by
  intro fuel
  induction fuel with
  | zero => intro i _; rfl
  | succ fuel ih =>
    intro i hclear
    unfold find_first_set_loop
    by_cases hi : i < N
    · rw [if_pos hi, if_neg (by rw [hclear i (Nat.le_refl i) hi]; exact Bool.false_ne_true)]
      exact ih (i + 1) (fun j hj1 hj2 => hclear j (by omega) hj2)
    · rw [if_neg hi]

/-- The loop of `find_last_set` returns the last set bit below `n`. -/
theorem find_last_set_loop_some (k m : Nat) (hbit : k.testBit m = true) :
    ∀ n, m < n → (∀ j, m < j → j < n → k.testBit j = false) →
      find_last_set_loop k n = (m : Int) := by
  intro n
  induction n with
  | zero => intro h; omega
  | succ n ih =>
    intro h1 hclear
    unfold find_last_set_loop
    by_cases hnm : n = m
    · subst hnm
      rw [if_pos hbit]
    · rw [if_neg (by rw [hclear n (by omega) (by omega)]; exact Bool.false_ne_true)]
      exact ih (by omega) (fun j hj1 hj2 => hclear j hj1 (by omega))

/-- The loop of `find_last_set` returns `-1` when no bit below `n` is set. -/
theorem find_last_set_loop_none (k : Nat) :
    ∀ n, (∀ j, j < n → k.testBit j = false) → find_last_set_loop k n = -1 := by
  intro n
  induction n with
  | zero => intro _; rfl
  | succ n ih =>
    intro hclear
    unfold find_last_set_loop
    rw [if_neg (by rw [hclear n (by omega)]; exact Bool.false_ne_true)]
    exact ih (fun j hj => hclear j (by omega))

/-- The fixed-size `find_first_set` and `find_last_set` return the least and the greatest
index of a set bit, and `-1` when no bit is set. -/
theorem find_set_spec (N k : Nat) :
    (∀ m, m < N → k.testBit m = true → (∀ j, j < m → k.testBit j = false) →
      find_first_set N k = (m : Int)) ∧
    (∀ m, m < N → k.testBit m = true → (∀ j, m < j → j < N → k.testBit j = false) →
      find_last_set N k = (m : Int)) ∧
    ((∀ j, j < N → k.testBit j = false) → find_first_set N k = -1 ∧ find_last_set N k = -1) := by
  refine ⟨?_, ?_, ?_⟩
  · intro m hm hbit hclear
    exact find_first_set_loop_some N k m hm hbit N 0 (by omega) (by omega)
      (fun j _ hj => hclear j hj)
  · intro m hm hbit hclear
    exact find_last_set_loop_some k m hbit N hm hclear
  · intro hclear
    exact ⟨find_first_set_loop_none N k N 0 (fun j _ hj => hclear j hj),
      find_last_set_loop_none k N hclear⟩

/-- The count of `_tzcnt_u32` from `tmp` on is the first set bit, or 32. -/
theorem tzcnt_loop_some (a m : Nat) (hbit : a.testBit m = true) :
    ∀ (fuel tmp : Nat), tmp ≤ m → m < tmp + fuel → (∀ j, tmp ≤ j → j < m → a.testBit j = false) →
      tzcnt_loop a fuel tmp = m := by
  intro fuel
  induction fuel with
  | zero => intro i h1 h2; omega
  | succ fuel ih =>
    intro i h1 h2 hclear
    unfold tzcnt_loop
    by_cases him : i = m
    · subst him
      rw [if_pos hbit]
    · rw [if_neg (by rw [hclear i (Nat.le_refl i) (by omega)]; exact Bool.false_ne_true)]
      exact ih (i + 1) (by omega) (by omega) (fun j hj1 hj2 => hclear j (by omega) hj2)

theorem tzcnt_loop_none (a : Nat) :
    ∀ (fuel tmp : Nat), (∀ j, tmp ≤ j → j < tmp + fuel → a.testBit j = false) →
      tzcnt_loop a fuel tmp = tmp + fuel := by
  intro fuel
  induction fuel with
  | zero => intro i _; rfl
  | succ fuel ih =>
    intro i hclear
    unfold tzcnt_loop
    rw [if_neg (by rw [hclear i (Nat.le_refl i) (by omega)]; exact Bool.false_ne_true),
      ih (i + 1) (fun j hj1 hj2 => hclear j (by omega) (by omega))]
    omega

/-- The count of `_lzcnt_u32` and the loop of `find_last_set` over the same bits add up
to the index above the highest bit. -/
theorem lzcnt_loop_eq (a : Nat) :
    ∀ (n dst : Nat), (lzcnt_loop a n dst : Int) = dst + n - 1 - find_last_set_loop a n := by
  intro n
  induction n with
  | zero => intro dst; simp [lzcnt_loop, find_last_set_loop]
  | succ n ih =>
    intro dst
    unfold lzcnt_loop find_last_set_loop
    by_cases hb : a.testBit n = true
    · rw [if_pos hb, if_pos hb]
      push_cast
      omega
    · rw [if_neg hb, if_neg hb, ih (dst + 1)]
      push_cast
      omega

theorem find_last_set_loop_bounds (k : Nat) :
    ∀ n, -1 ≤ find_last_set_loop k n ∧ find_last_set_loop k n < n := by
  intro n
  induction n with
  | zero => simp [find_last_set_loop]
  | succ n ih =>
    unfold find_last_set_loop
    by_cases hb : k.testBit n = true
    · rw [if_pos hb]
      push_cast
      omega
    · rw [if_neg hb]
      push_cast
      omega

/-- Bits at and above `n` that are clear do not change the loop of `find_last_set`. -/
theorem find_last_set_loop_extend (k n : Nat) :
    ∀ n2, n ≤ n2 → (∀ j, n ≤ j → j < n2 → k.testBit j = false) →
      find_last_set_loop k n2 = find_last_set_loop k n := by
  intro n2
  induction n2 with
  | zero =>
    intro h _
    have : n = 0 := by omega
    rw [this]
  | succ n2 ih =>
    intro h hclear
    by_cases hn : n = n2 + 1
    · rw [hn]
    · have hstep : find_last_set_loop k (n2 + 1) = find_last_set_loop k n2 := by
        conv_lhs => unfold find_last_set_loop
        rw [if_neg (by rw [hclear n2 (by omega) (by omega)]; exact Bool.false_ne_true)]
      rw [hstep]
      exact ih (by omega) (fun j hj1 hj2 => hclear j hj1 (by omega))

/-- On masks of at most 32 lanes the AVX-512 `find_last_set` returns what the fixed-size
one returns, `-1` on the empty mask included. -/
theorem avx512_find_last_set_eq (N k : Nat) (hN : N ≤ 32) (hk : k < 2 ^ N) :
    avx512.find_last_set k = find_last_set N k := by
  have hk32 : k < 2 ^ 32 := Nat.lt_of_lt_of_le hk (Nat.pow_le_pow_right (by decide) hN)
  have hext : find_last_set_loop k 32 = find_last_set_loop k N :=
    find_last_set_loop_extend k N 32 hN (fun j hj _ =>
      Nat.testBit_lt_two_pow (Nat.lt_of_lt_of_le hk (Nat.pow_le_pow_right (by decide) hj)))
  have hlz := lzcnt_loop_eq k 32 0
  have hb := find_last_set_loop_bounds k N
  rw [hext] at hlz
  unfold avx512.find_last_set find_last_set lzcnt_u32 to_int
  rw [Nat.mod_eq_of_lt hk32]
  generalize lzcnt_loop k 32 0 = lz at hlz ⊢
  generalize find_last_set_loop k N = g at hlz hb ⊢
  push_cast at hlz ⊢
  omega

/-- On non-empty masks of at most 32 lanes the AVX-512 `find_first_set` returns what the
fixed-size one returns. -/
theorem avx512_find_first_set_eq (N k : Nat) (hN : N ≤ 32) (hk : k < 2 ^ N) (hne : k ≠ 0) :
    avx512.find_first_set k = find_first_set N k := by
  have hk32 : k < 2 ^ 32 := Nat.lt_of_lt_of_le hk (Nat.pow_le_pow_right (by decide) hN)
  have hex : ∃ i, k.testBit i = true := Nat.ne_zero_implies_bit_true hne
  have hbit : k.testBit (Nat.find hex) = true := Nat.find_spec hex
  have hmin : ∀ j, j < Nat.find hex → k.testBit j = false := fun j hj => by
    have := Nat.find_min hex hj
    simpa using this
  have hmN : Nat.find hex < N := by
    by_contra hcon
    have := Nat.testBit_lt_two_pow
      (Nat.lt_of_lt_of_le hk (Nat.pow_le_pow_right (by decide) (by omega : N ≤ Nat.find hex)))
    rw [this] at hbit
    exact Bool.false_ne_true hbit
  rw [(find_set_spec N k).1 (Nat.find hex) hmN hbit hmin]
  unfold avx512.find_first_set tzcnt_u32
  rw [Nat.mod_eq_of_lt hk32, tzcnt_loop_some k (Nat.find hex) hbit 32 0 (by omega) (by omega)
    (fun j _ hj => hmin j hj)]
  unfold to_int
  omega

/-- C26 (refuted on the empty mask): the fixed-size `find_first_set` returns `-1` for a
mask with no bit set, while the generic AVX-512 `find_first_set` returns
`_tzcnt_u32(0) = 32`; `find_last_set` returns `-1` in both. -/
theorem avx512_find_first_set_empty :
    find_first_set 16 0 = -1 ∧ avx512.find_first_set 0 = 32 ∧
    find_last_set 16 0 = -1 ∧ avx512.find_last_set 0 = -1 ∧
    tzcnt_u32 0 = 32 ∧ lzcnt_u32 0 = 32 := by
  refine ⟨?_, ?_, ?_, ?_, ?_, ?_⟩ <;> decide

/-! ## Claims about the selection of the implementation -/

theorem define_apply (m : Macro) (d : Defined) (x : Macro) :
    define m d x = (decide (x = m) || d x) := by
  unfold define
  by_cases h : x = m <;> simp [h]

theorem define_if_apply (c : Bool) (m : Macro) (d : Defined) (x : Macro) :
    define_if c m d x = ((c && decide (x = m)) || d x) := by
  unfold define_if
  cases c <;> simp [define_apply]

theorem undef_apply (m : Macro) (d : Defined) (x : Macro) :
    undef m d x = (!decide (x = m) && d x) := by
  unfold undef
  by_cases h : x = m <;> simp [h]

/-- The extension flags do not change the implementation flags. -/
theorem select_ext_preserves (p : Predefined) (v : Nat) (d : Defined) (x : Macro)
    (hx : x.is_implementation = true) :
    select_from_compiler_ext p d x = d x ∧ select_from_Vc_IMPL_ext v p d x = d x := by
  have h1 : decide (x = Macro.Vc_IMPL_BMI2) = false :=
    decide_eq_false (fun h => by rw [h] at hx; exact Bool.false_ne_true hx)
  have h2 : decide (x = Macro.Vc_IMPL_FMA) = false :=
    decide_eq_false (fun h => by rw [h] at hx; exact Bool.false_ne_true hx)
  have h3 : decide (x = Macro.Vc_IMPL_SSE4a) = false :=
    decide_eq_false (fun h => by rw [h] at hx; exact Bool.false_ne_true hx)
  have h4 : decide (x = Macro.Vc_IMPL_POPCNT) = false :=
    decide_eq_false (fun h => by rw [h] at hx; exact Bool.false_ne_true hx)
  have h5 : decide (x = Macro.Vc_IMPL_F16C) = false :=
    decide_eq_false (fun h => by rw [h] at hx; exact Bool.false_ne_true hx)
  have h6 : decide (x = Macro.Vc_IMPL_XOP) = false :=
    decide_eq_false (fun h => by rw [h] at hx; exact Bool.false_ne_true hx)
  have h7 : decide (x = Macro.Vc_IMPL_FMA4) = false :=
    decide_eq_false (fun h => by rw [h] at hx; exact Bool.false_ne_true hx)
  simp only [select_from_compiler_ext, select_from_Vc_IMPL_ext, define_if_apply, h1, h2, h3, h4,
    h5, h6, h7, Bool.and_false, Bool.false_or, and_self]

theorem ite_cases {α : Type} (P : α → Prop) (c : Prop) [Decidable c] (a b : α) (ha : P a)
    (hb : P b) : P (if c then a else b) := by
  split <;> assumption

theorem select_from_compiler_impl_ok (p : Predefined) :
    selection_ok (select_from_compiler_impl p) := by
  unfold select_from_compiler_impl
  repeat' apply ite_cases selection_ok
  all_goals simp [selection_ok, default_impl_macros, define_apply, define_if_apply]

theorem select_from_Vc_IMPL_impl_ok (v : Nat) (p : Predefined) :
    selection_ok (select_from_Vc_IMPL_impl v p) := by
  unfold select_from_Vc_IMPL_impl
  repeat' apply ite_cases selection_ok
  all_goals simp [selection_ok, default_impl_macros, define_apply, define_if_apply]

/-- The state after either selection block. -/
theorem selection_ok_select (Vc_IMPL : Option Nat) (p : Predefined) :
    selection_ok (match Vc_IMPL with
      | none => select_from_compiler p
      | some v => select_from_Vc_IMPL v p) := by
  have hpres : ∀ (d e : Defined), (∀ x, x.is_implementation = true → e x = d x) →
      selection_ok d → selection_ok e := by
    intro d e he hd
    refine ⟨?_, ?_⟩
    · rw [he Macro.Vc_IMPL_AVX2 rfl, he Macro.Vc_IMPL_AVX rfl]
      exact hd.1
    · intro m hm
      have hi : m.is_implementation = true := by
        simp only [default_impl_macros, List.mem_cons, List.mem_singleton, List.not_mem_nil,
          or_false] at hm
        rcases hm with rfl | rfl | rfl | rfl | rfl | rfl <;> rfl
      rw [he m hi]
      exact hd.2 m hm
  cases Vc_IMPL with
  | none =>
    exact hpres _ _ (fun x hx => (select_ext_preserves p 0 _ x hx).1)
      (select_from_compiler_impl_ok p)
  | some v =>
    exact hpres _ _ (fun x hx => (select_ext_preserves p v _ x hx).2)
      (select_from_Vc_IMPL_impl_ok v p)

/-- After the blocks that follow the selection, `Vc_IMPL_AVX2` comes with `Vc_IMPL_AVX`,
`Vc_IMPL_AVX` comes with all SSE flags, and no `Vc_DEFAULT_IMPL_*` macro is defined. -/
theorem after_selection_spec (p : Predefined) (d : Defined) (hd : selection_ok d) :
    (after_selection p d Macro.Vc_IMPL_AVX2 = true →
      after_selection p d Macro.Vc_IMPL_AVX = true) ∧
    (after_selection p d Macro.Vc_IMPL_AVX = true →
      after_selection p d Macro.Vc_IMPL_SSE = true ∧
      after_selection p d Macro.Vc_IMPL_SSE2 = true ∧
      after_selection p d Macro.Vc_IMPL_SSE3 = true ∧
      after_selection p d Macro.Vc_IMPL_SSSE3 = true ∧
      after_selection p d Macro.Vc_IMPL_SSE4_1 = true ∧
      after_selection p d Macro.Vc_IMPL_SSE4_2 = true) ∧
    ∀ m, m ∈ default_impl_macros → after_selection p d m = false := by
  obtain ⟨h1, h2⟩ := hd
  have e1 := h2 Macro.Vc_DEFAULT_IMPL_MIC (by simp [default_impl_macros])
  have e2 := h2 Macro.Vc_DEFAULT_IMPL_NEON (by simp [default_impl_macros])
  have e3 := h2 Macro.Vc_DEFAULT_IMPL_AVX2 (by simp [default_impl_macros])
  have e4 := h2 Macro.Vc_DEFAULT_IMPL_AVX (by simp [default_impl_macros])
  have e5 := h2 Macro.Vc_DEFAULT_IMPL_SSE (by simp [default_impl_macros])
  have e6 := h2 Macro.Vc_DEFAULT_IMPL_Scalar (by simp [default_impl_macros])
  have hvex : ∀ x, x ≠ Macro.Vc_USE_VEX_CODING →
      define_if p.AVX Macro.Vc_USE_VEX_CODING d x = d x := by
    intro x hx
    simp [define_if_apply, hx]
  unfold after_selection
  simp only [hvex Macro.Vc_IMPL_AVX (by decide)]
  cases hA : d Macro.Vc_IMPL_AVX with
  | false =>
    have hA2 : d Macro.Vc_IMPL_AVX2 = false := by
      cases h : d Macro.Vc_IMPL_AVX2 with
      | false => rfl
      | true => rw [h1 h] at hA; exact absurd hA (by decide)
    cases p.Vc_CLANG with
    | none => simp [default_impl_macros, define_if_apply, hA, hA2, e1, e2, e3, e4, e5, e6]
    | some c =>
      by_cases hc : 0x30600 ≤ c ∧ c < 0x30700 <;>
        simp [default_impl_macros, define_if_apply, hA, hA2, e1, e2, e3, e4, e5, e6, hc]
  | true =>
    cases p.Vc_CLANG with
    | none =>
      simp [default_impl_macros, define_apply, define_if_apply, hA, e1, e2, e3, e4, e5, e6]
    | some c =>
      by_cases hc : 0x30600 ≤ c ∧ c < 0x30700
      · simp only [hc, and_self, if_true, define_apply, undef_apply, define_if_apply]
        cases hA2 : d Macro.Vc_IMPL_AVX2 <;>
          simp [default_impl_macros, define_apply, undef_apply, define_if_apply, hA, hA2, e1, e2,
            e3, e4, e5, e6]
      · simp [default_impl_macros, define_apply, define_if_apply, hA, e1, e2, e3, e4, e5, e6, hc]

/-- The chain that defines `Vc_DEFAULT_IMPL_*`: when one of the implementation flags the
configuration check looks at is defined and no default macro is defined yet, the chain
defines exactly one default macro, does not reach its `#error` and leaves the other
macros as they are. -/
theorem default_impl_spec (d : Defined)
    (hnodef : ∀ m, m ∈ default_impl_macros → d m = false)
    (hsome : ¬ (d Macro.Vc_IMPL_Scalar = false ∧ d Macro.Vc_IMPL_SSE = false ∧
      d Macro.Vc_IMPL_AVX = false ∧ d Macro.Vc_IMPL_MIC = false ∧ d Macro.Vc_IMPL_NEON = false)) :
    (default_impl d).2 = [] ∧
    (default_impl_macros.filter (default_impl d).1).length = 1 ∧
    ∀ x, x ∉ default_impl_macros → (default_impl d).1 x = d x := by
  have e1 := hnodef Macro.Vc_DEFAULT_IMPL_MIC (by simp [default_impl_macros])
  have e2 := hnodef Macro.Vc_DEFAULT_IMPL_NEON (by simp [default_impl_macros])
  have e3 := hnodef Macro.Vc_DEFAULT_IMPL_AVX2 (by simp [default_impl_macros])
  have e4 := hnodef Macro.Vc_DEFAULT_IMPL_AVX (by simp [default_impl_macros])
  have e5 := hnodef Macro.Vc_DEFAULT_IMPL_SSE (by simp [default_impl_macros])
  have e6 := hnodef Macro.Vc_DEFAULT_IMPL_Scalar (by simp [default_impl_macros])
  have hx : ∀ (m x : Macro), m ∈ default_impl_macros → x ∉ default_impl_macros →
      define m d x = d x := by
    intro m x hm hxn
    have : x ≠ m := fun h => hxn (h ▸ hm)
    simp [define_apply, this]
  unfold default_impl
  split_ifs with c1 c2 c3 c4 c5 c6
  · exact ⟨rfl, by simp [default_impl_macros, List.filter, define_apply, e2, e3, e4, e5, e6],
      fun x hxn => hx _ x (by simp [default_impl_macros]) hxn⟩
  · exact ⟨rfl, by simp [default_impl_macros, List.filter, define_apply, e1, e3, e4, e5, e6],
      fun x hxn => hx _ x (by simp [default_impl_macros]) hxn⟩
  · exact ⟨rfl, by simp [default_impl_macros, List.filter, define_apply, e1, e2, e4, e5, e6],
      fun x hxn => hx _ x (by simp [default_impl_macros]) hxn⟩
  · exact ⟨rfl, by simp [default_impl_macros, List.filter, define_apply, e1, e2, e3, e5, e6],
      fun x hxn => hx _ x (by simp [default_impl_macros]) hxn⟩
  · exact ⟨rfl, by simp [default_impl_macros, List.filter, define_apply, e1, e2, e3, e4, e6],
      fun x hxn => hx _ x (by simp [default_impl_macros]) hxn⟩
  · exact ⟨rfl, by simp [default_impl_macros, List.filter, define_apply, e1, e2, e3, e4, e5],
      fun x hxn => hx _ x (by simp [default_impl_macros]) hxn⟩
  · exfalso
    apply hsome
    simp only [Bool.not_eq_true] at c1 c2 c3 c4 c5 c6
    exact ⟨c6, c5, c4, c1, c2⟩

/-- C24: for every value of `Vc_IMPL` (or none) and every set of macros of the compiler
for which neither configuration `#error` is reached, the final set of macros has
`Vc_IMPL_AVX` whenever it has `Vc_IMPL_AVX2`, has `Vc_IMPL_SSE`, `SSE2`, `SSE3`, `SSSE3`,
`SSE4_1` and `SSE4_2` whenever it has `Vc_IMPL_AVX`, has exactly one `Vc_DEFAULT_IMPL_*`
macro, and the `#error` for broken preprocessor logic is not reached. -/
theorem configure_invariants (Vc_IMPL : Option Nat) (p : Predefined)
    (hno : ConfigError.no_suitable_implementation ∉ (configure Vc_IMPL p).2)
    (hsse : ConfigError.sse_without_sse2 ∉ (configure Vc_IMPL p).2) :
    ((configure Vc_IMPL p).1 Macro.Vc_IMPL_AVX2 = true →
      (configure Vc_IMPL p).1 Macro.Vc_IMPL_AVX = true) ∧
    ((configure Vc_IMPL p).1 Macro.Vc_IMPL_AVX = true →
      (configure Vc_IMPL p).1 Macro.Vc_IMPL_SSE = true ∧
      (configure Vc_IMPL p).1 Macro.Vc_IMPL_SSE2 = true ∧
      (configure Vc_IMPL p).1 Macro.Vc_IMPL_SSE3 = true ∧
      (configure Vc_IMPL p).1 Macro.Vc_IMPL_SSSE3 = true ∧
      (configure Vc_IMPL p).1 Macro.Vc_IMPL_SSE4_1 = true ∧
      (configure Vc_IMPL p).1 Macro.Vc_IMPL_SSE4_2 = true) ∧
    (default_impl_macros.filter (configure Vc_IMPL p).1).length = 1 ∧
    ConfigError.preprocessor_logic_broken ∉ (configure Vc_IMPL p).2 ∧
    (configure Vc_IMPL p).2 = [] := by
  have hsel := selection_ok_select Vc_IMPL p
  generalize hd1 : (match Vc_IMPL with
      | none => select_from_compiler p
      | some v => select_from_Vc_IMPL v p) = d1 at hsel
  obtain ⟨ha, hb, hc⟩ := after_selection_spec p d1 hsel
  have hcfg : configure Vc_IMPL p = ((default_impl (after_selection p d1)).1,
      configuration_errors (after_selection p d1) ++ (default_impl (after_selection p d1)).2) := by
    rw [← hd1]
    rfl
  rw [hcfg] at hno hsse ⊢
  generalize after_selection p d1 = d at ha hb hc hno hsse ⊢
  simp only [List.mem_append, not_or] at hno hsse
  have hsome : ¬ (d Macro.Vc_IMPL_Scalar = false ∧ d Macro.Vc_IMPL_SSE = false ∧
      d Macro.Vc_IMPL_AVX = false ∧ d Macro.Vc_IMPL_MIC = false ∧ d Macro.Vc_IMPL_NEON = false) := by
    rintro ⟨x1, x2, x3, x4, x5⟩
    apply hno.1
    simp [configuration_errors, x1, x2, x3, x4, x5]
  have herr : configuration_errors d = [] := by
    unfold configuration_errors
    split_ifs with c1 c2
    · exfalso
      apply hno.1
      simp [configuration_errors, c1]
    · exfalso
      apply hsse.1
      simp [configuration_errors, c1, c2]
    · rfl
  obtain ⟨hd2, hone, hkeep⟩ := default_impl_spec d hc hsome
  have k1 := hkeep Macro.Vc_IMPL_AVX2 (by decide)
  have k2 := hkeep Macro.Vc_IMPL_AVX (by decide)
  have k3 := hkeep Macro.Vc_IMPL_SSE (by decide)
  have k4 := hkeep Macro.Vc_IMPL_SSE2 (by decide)
  have k5 := hkeep Macro.Vc_IMPL_SSE3 (by decide)
  have k6 := hkeep Macro.Vc_IMPL_SSSE3 (by decide)
  have k7 := hkeep Macro.Vc_IMPL_SSE4_1 (by decide)
  have k8 := hkeep Macro.Vc_IMPL_SSE4_2 (by decide)
  simp only [k1, k2, k3, k4, k5, k6, k7, k8, herr, hd2, List.append_nil, List.not_mem_nil,
    not_false_eq_true, and_true]
  exact ⟨ha, hb, hone⟩

/-- An instance of C24: no `Vc_IMPL`, a compiler with `__AVX2__`, `__AVX__` and
`__SSE2__`: the default implementation is AVX2 and all SSE flags are defined. With
`Vc_IMPL` set to `0` nothing is selected and both `#error` directives are reached. -/
theorem configure_invariants_witness :
    (((configure none avx2_compiler).1 Macro.Vc_IMPL_AVX2 = true →
      (configure none avx2_compiler).1 Macro.Vc_IMPL_AVX = true) ∧
    ((configure none avx2_compiler).1 Macro.Vc_IMPL_AVX = true →
      (configure none avx2_compiler).1 Macro.Vc_IMPL_SSE = true ∧
      (configure none avx2_compiler).1 Macro.Vc_IMPL_SSE2 = true ∧
      (configure none avx2_compiler).1 Macro.Vc_IMPL_SSE3 = true ∧
      (configure none avx2_compiler).1 Macro.Vc_IMPL_SSSE3 = true ∧
      (configure none avx2_compiler).1 Macro.Vc_IMPL_SSE4_1 = true ∧
      (configure none avx2_compiler).1 Macro.Vc_IMPL_SSE4_2 = true) ∧
    (default_impl_macros.filter (configure none avx2_compiler).1).length = 1 ∧
    ConfigError.preprocessor_logic_broken ∉ (configure none avx2_compiler).2 ∧
    (configure none avx2_compiler).2 = []) ∧
    (configure none avx2_compiler).1 Macro.Vc_DEFAULT_IMPL_AVX2 = true ∧
    (configure (some 0) plain_compiler).2 =
      [ConfigError.no_suitable_implementation, ConfigError.preprocessor_logic_broken] :=
  ⟨configure_invariants none avx2_compiler (by decide) (by decide), by decide, by decide⟩

/-! ## Claims about the loads of AVX-512 masks -/

theorem test_mask_self (l : List Nat) :
    test_mask l l = bits_to_nat (l.map (fun x => decide (x ≠ 0))) := by
  unfold test_mask
  congr 1
  induction l with
  | nil => rfl
  | cons x l ih => simp [ih]

theorem sign_extend_byte_ne_zero (w b : Nat) (hb : b < 256) :
    sign_extend_byte w b ≠ 0 ↔ b ≠ 0 := by
  unfold sign_extend_byte
  rw [Nat.mod_eq_of_lt hb]
  split_ifs <;> omega

theorem test_mask_sign_extend (w : Nat) (l : List Nat) (hl : ∀ b, b ∈ l → b < 256) :
    test_mask (l.map (sign_extend_byte w)) (l.map (sign_extend_byte w)) =
      bits_to_nat (l.map (fun x => decide (x ≠ 0))) := by
  rw [test_mask_self, List.map_map]
  congr 1
  apply List.map_congr_left
  intro b hb
  simp only [Function.comp, decide_eq_decide]
  exact sign_extend_byte_ne_zero w b (hl b hb)

theorem bits_to_nat_append_false (l : List Bool) (n : Nat) :
    bits_to_nat (l ++ List.replicate n false) = bits_to_nat l := by
  apply Nat.eq_of_testBit_eq
  intro i
  rw [testBit_bits_to_nat, testBit_bits_to_nat]
  by_cases hi : i < l.length
  · rw [List.getD_append _ _ _ _ hi]
  · rw [List.getD_append_right _ _ _ _ (by omega : l.length ≤ i),
      List.getD_eq_default l _ (by omega : l.length ≤ i)]
    by_cases h2 : i - l.length < n <;>
      simp [List.getD_eq_getElem?_getD, List.getElem?_replicate, h2]

theorem bits_to_nat_append (l1 l2 : List Bool) :
    bits_to_nat (l1 ++ l2) = bits_to_nat l1 ||| bits_to_nat l2 * 2 ^ l1.length := by
  apply Nat.eq_of_testBit_eq
  intro i
  rw [← Nat.shiftLeft_eq, Nat.testBit_or, Nat.testBit_shiftLeft, testBit_bits_to_nat,
    testBit_bits_to_nat, testBit_bits_to_nat]
  by_cases hi : i < l1.length
  · rw [List.getD_append _ _ _ _ hi]
    simp [hi]
  · rw [List.getD_append_right _ _ _ _ (by omega), List.getD_eq_default l1 _ (by omega)]
    simp [Nat.le_of_not_lt hi]

/-- The loads of 8, 16 and 32 lanes on both paths, and the load of 64 lanes with
AVX512BW, return the mask whose bit `i` is set exactly when `mem[i]` is not zero. -/
theorem avx512_mask_load_spec (mem : List Nat) (hb : ∀ b, b ∈ mem → b < 256) (bw_vl : Bool)
    (shl : Nat → Nat → Option Nat) :
    (8 ≤ mem.length → avx512_mask_impl.load_8 bw_vl mem = some (spec_mask_load 8 mem)) ∧
    (16 ≤ mem.length → avx512_mask_impl.load_16 bw_vl mem = some (spec_mask_load 16 mem)) ∧
    (32 ≤ mem.length → avx512_mask_impl.load_32 bw_vl mem = some (spec_mask_load 32 mem)) ∧
    (64 ≤ mem.length → avx512_mask_impl.load_64 true shl mem = some (spec_mask_load 64 mem)) := by
  have htake : ∀ n, ∀ b, b ∈ mem.take n → b < 256 := fun n b h => hb b (List.mem_of_mem_take h)
  refine ⟨?_, ?_, ?_, ?_⟩
  · intro h
    have hload : mm_loadl_epi64 mem 0 = some (mem.take 8 ++ List.replicate 8 0) := by
      simp [mm_loadl_epi64, native_load, h]
    have hlen : (mem.take 8).length = 8 := by simp [h]
    simp only [avx512_mask_impl.load_8, hload, spec_mask_load]
    cases bw_vl with
    | true =>
      simp only [if_true, Option.some.injEq]
      rw [test_mask_self, List.map_append, List.map_replicate]
      simp only [ne_eq, not_true_eq_false, decide_False]
      rw [bits_to_nat_append_false]
      apply Nat.mod_eq_of_lt
      have := bits_to_nat_lt ((mem.take 8).map (fun x => decide (¬ x = 0)))
      rw [List.length_map, hlen] at this
      exact this
    | false =>
      simp only [Bool.false_eq_true, if_false, Option.some.injEq, mm512_cvtepi8_epi64]
      rw [List.take_append_of_le_length (by omega), List.take_take, Nat.min_self,
        test_mask_sign_extend 64 _ (htake 8)]
  · intro h
    have hload : load_bytes 16 mem 0 = some (mem.take 16) := by
      simp [load_bytes, native_load, h]
    simp only [avx512_mask_impl.load_16, hload, spec_mask_load]
    cases bw_vl with
    | true => simp only [if_true, test_mask_self]
    | false =>
      simp only [Bool.false_eq_true, if_false, Option.some.injEq, mm512_cvtepi8_epi32]
      rw [List.take_take, Nat.min_self, test_mask_sign_extend 32 _ (htake 16)]
  · intro h
    cases bw_vl with
    | true =>
      have hload : load_bytes 32 mem 0 = some (mem.take 32) := by
        simp [load_bytes, native_load, h]
      simp only [avx512_mask_impl.load_32, if_true, hload, spec_mask_load, test_mask_self]
    | false =>
      have hla : load_bytes 16 mem 0 = some (mem.take 16) := by
        simp [load_bytes, native_load]
        omega
      have hlb : load_bytes 16 mem 16 = some ((mem.drop 16).take 16) := by
        simp [load_bytes, native_load]
        omega
      have hB : ∀ b, b ∈ (mem.drop 16).take 16 → b < 256 := fun b hbm =>
        hb b (List.mem_of_mem_drop (List.mem_of_mem_take hbm))
      have hsplit : mem.take 32 = mem.take 16 ++ (mem.drop 16).take 16 := by
        rw [← List.take_add]
      have hl1 : ((mem.take 16).map (fun x => decide (x ≠ 0))).length = 16 := by
        simp
        omega
      have hl2 : (((mem.drop 16).take 16).map (fun x => decide (x ≠ 0))).length = 16 := by
        simp
        omega
      have ht1 := bits_to_nat_lt ((mem.take 16).map (fun x => decide (x ≠ 0)))
      have ht2 := bits_to_nat_lt (((mem.drop 16).take 16).map (fun x => decide (x ≠ 0)))
      rw [hl1] at ht1
      rw [hl2] at ht2
      simp only [avx512_mask_impl.load_32, Bool.false_eq_true, if_false, hla, hlb,
        mm512_cvtepi8_epi32, List.take_take, Nat.min_self, spec_mask_load]
      rw [test_mask_sign_extend 32 _ (htake 16), test_mask_sign_extend 32 _ hB, hsplit,
        List.map_append, bits_to_nat_append, hl1]
      have hs : int_shl (bits_to_nat (((mem.drop 16).take 16).map (fun x => decide (x ≠ 0)))) 16
          = some (bits_to_nat (((mem.drop 16).take 16).map (fun x => decide (x ≠ 0))) * 2 ^ 16) := by
        unfold int_shl
        rw [if_pos]
        refine ⟨by decide, ?_⟩
        calc _ < 2 ^ 16 * 2 ^ 16 := Nat.mul_lt_mul_of_pos_right ht2 (by decide)
          _ = 2 ^ 32 := by norm_num
      simp only [hs, Option.some.injEq]
      apply Nat.mod_eq_of_lt
      apply Nat.or_lt_two_pow
      · exact Nat.lt_of_lt_of_le ht1 (by norm_num)
      · calc _ < 2 ^ 16 * 2 ^ 16 := Nat.mul_lt_mul_of_pos_right ht2 (by decide)
          _ = 2 ^ 32 := by norm_num
  · intro h
    have hload : load_bytes 64 mem 0 = some (mem.take 64) := by
      simp [load_bytes, native_load, h]
    simp only [avx512_mask_impl.load_64, if_true, hload, spec_mask_load, test_mask_self]

/-- C28 (refuted): on the path without AVX512BW the load of 64 lanes evaluates the shifts
`<< 32` and `<< 48` of an `int`, which C++ leaves undefined; and whatever these shifts
yield, the result for a buffer in which only `mem[32]` is true (likewise only `mem[48]`)
is the result for the all-false buffer, because the blocks `c` and `d` are not used; the
bit law demands bit 32 (bit 48) to be set. -/
theorem avx512_mask_load_64_ignores_blocks :
    avx512_mask_impl.load_64 false int_shl (only_true 32) = none ∧
    (∀ shl : Nat → Nat → Option Nat,
      avx512_mask_impl.load_64 false shl (only_true 32) =
        avx512_mask_impl.load_64 false shl (List.replicate 64 0) ∧
      avx512_mask_impl.load_64 false shl (only_true 48) =
        avx512_mask_impl.load_64 false shl (List.replicate 64 0)) ∧
    spec_mask_load 64 (only_true 32) = 2 ^ 32 ∧ spec_mask_load 64 (only_true 48) = 2 ^ 48 ∧
    spec_mask_load 64 (List.replicate 64 0) = 0 ∧
    avx512_mask_impl.load_64 true int_shl (only_true 32) = some (2 ^ 32) := by
  refine ⟨by decide, fun shl => ⟨rfl, rfl⟩, by decide, by decide, by decide, by decide⟩

end Vc
